import Mathlib

/-!
A* on a 2D grid map (`Algorithms/a_star.cpp`)

A shallow embedding of the search part of `main`: the `Node` struct with its
`operator<`, the helpers `isValid`, `getDist`, `hash`, the `std::set<Node>`
Frontier (`next`), the `std::map<int, Node>` Visited Table (`seen`), the
expansion loop and the path-marking walk.

Machine `int`s are embedded as `Int`: in every run all coordinates lie in
`[-1, FSIZE]`, every `dist` is at most `FSIZE*FSIZE` and every heuristic at
most `2*FSIZE`, so no arithmetic of the program comes near `2^31`.
-/

namespace AStar

/-! ## Definitions -/

/-- The side of the grid: `#define FSIZE 30`. -/
def FSIZE : Int := 30

/-- Row offsets of the four moves: `const int DR[] = {0, 1, 0, -1}`. -/
def DR : List Int := [0, 1, 0, -1]

/-- Column offsets of the four moves: `const int DC[] = {1, 0, -1, 0}`. -/
def DC : List Int := [1, 0, -1, 0]

/-- The `struct Node` of the source. -/
structure Node where
  r : Int
  c : Int
  heuristic : Int
  dist : Int
  priority : Int
  fromR : Int
  fromC : Int
deriving DecidableEq, Repr

/-- The constructor `Node(int rr, int cc, int h, int d)`. -/
def Node.new (rr cc h d : Int) : Node :=
  { r := rr, c := cc, heuristic := h, dist := d,
    priority := h + d, fromR := -1, fromC := -1 }

/-- The comparison `Node::operator<`, branch for branch. -/
def Node.lt (a other : Node) : Bool :=
  if a.priority ≠ other.priority then decide (a.priority < other.priority)
  else if a.heuristic ≠ other.heuristic then decide (a.heuristic < other.heuristic)
  else if a.r ≠ other.r then decide (a.r < other.r)
  else decide (a.c < other.c)

/-- The bounds test `isValid`. -/
def isValid (r c : Int) : Bool :=
  decide (r ≥ 0) && decide (r < FSIZE) && decide (c ≥ 0) && decide (c < FSIZE)

/-- The Manhattan distance `getDist`; `abs` of the C library is `Int.natAbs`. -/
def getDist (r1 c1 r2 c2 : Int) : Int :=
  ((r1 - r2).natAbs : Int) + ((c1 - c2).natAbs : Int)

/-- The cell identity `hash`. -/
def hash (r c : Int) : Int := r * FSIZE + c

/-- The grid `char field[FSIZE][FSIZE]`, read at indices that the program
keeps in bounds. -/
abbrev Grid := Int → Int → Char

/-- The assignment `field[r][c] = v`. -/
def setCell (field : Grid) (r c : Int) (v : Char) : Grid :=
  fun i j => if i = r ∧ j = c then v else field i j

/-- The Visited Table `std::map<int, Node> seen`, as an association list kept
in insertion order; the program only uses `find` and `insert`, which depend
on the key-to-value association alone. -/
abbrev Seen := List (Int × Node)

/-- The lookup `seen.find(k)`: `none` stands for `seen.end()`. -/
def seenFind (k : Int) : Seen → Option Node
  | [] => none
  | (k1, v) :: rest => if k1 = k then some v else seenFind k rest

/-- The call `seen.insert(pair<int,Node>(k, v))`: a map keeps the entry it
already has for a key. -/
def seenInsert (k : Int) (v : Node) (m : Seen) : Seen :=
  if (seenFind k m).isSome then m else m ++ [(k, v)]

/-- The call `next.insert(x)` on the `std::set<Node>`, held as the list of its
elements in increasing `operator<` order: an element equivalent to `x`
(neither below the other) blocks the insertion. -/
def setInsert (x : Node) : List Node → List Node
  | [] => [x]
  | y :: ys =>
    if x.lt y then x :: y :: ys
    else if y.lt x then y :: setInsert x ys
    else y :: ys

/-- The successor node built at lines 154-158 for the cell `(nextR, nextC)`. -/
def nextNode (n : Node) (nextR nextC endR endC : Int) : Node :=
  let d := 1 + n.dist
  let h := getDist nextR nextC endR endC
  { Node.new nextR nextC h d with fromR := n.r, fromC := n.c }

/-- One pass of the neighbour loop `for (int i = 0; i < 4; i++)`, for the
index `i`, on the Frontier `next`. -/
def visitNeighbour (field : Grid) (seen : Seen) (endR endC : Int) (n : Node)
    (next : List Node) (i : Nat) : List Node :=
  let nextR := n.r + DR.getD i 0
  let nextC := n.c + DC.getD i 0
  if !isValid nextR nextC || field nextR nextC = '@'
      || (seenFind (hash nextR nextC) seen).isSome then
    next
  else
    setInsert (nextNode n nextR nextC endR endC) next

/-- The whole neighbour loop, lines 149-160. -/
def expand (field : Grid) (seen : Seen) (endR endC : Int) (n : Node)
    (next : List Node) : List Node :=
  (List.range 4).foldl (visitNeighbour field seen endR endC n) next

/-- The variables of `main` that the expansion loop reads and writes, and the
list of the frames that `printField` has drawn so far. -/
structure State where
  field : Grid
  curR : Int
  curC : Int
  seen : Seen
  next : List Node
  found : Bool
  frames : List Grid

/-- The body of the expansion loop for the extracted node `n`, with `rest` the
Frontier after `next.erase(first)`. The Boolean tells whether the body left
the loop through `break`. -/
def loopBody (endR endC : Int) (s : State) (n : Node) (rest : List Node) :
    State × Bool :=
  if (seenFind (hash n.r n.c) s.seen).isSome then
    ({ s with next := rest }, false)
  else
    let seen1 := seenInsert (hash n.r n.c) n s.seen
    if getDist n.r n.c endR endC = 0 then
      ({ s with next := rest, seen := seen1, found := true }, true)
    else
      let next1 := expand s.field seen1 endR endC n rest
      let field1 := setCell s.field s.curR s.curC '#'
      let field2 := setCell field1 n.r n.c '*'
      ({ field := field2, curR := n.r, curC := n.c, seen := seen1,
         next := next1, found := s.found, frames := s.frames ++ [field2] },
       false)

/-- The expansion loop `while (!next.empty())`, run for at most `fuel`
iterations; `none` when the fuel does not suffice. -/
def expansionLoop (endR endC : Int) : Nat → State → Option State
  | fuel, s =>
    match s.next with
    | [] => some s
    | n :: rest =>
      match fuel with
      | 0 => none
      | fuel + 1 =>
        match loopBody endR endC s n rest with
        | (s1, true) => some s1
        | (s1, false) => expansionLoop endR endC fuel s1

/-- The state at the head of the expansion loop, lines 120-127. -/
def initState (field : Grid) (curR curC endR endC : Int) : State :=
  { field := setCell (setCell field curR curC '*') endR endC 'x',
    curR := curR, curC := curC, seen := [],
    next := setInsert (Node.new curR curC (getDist curR curC endR endC) 0) [],
    found := false, frames := [] }

/-- The number of loop iterations that always suffices. -/
def searchFuel : Nat := 1 + 4 * (FSIZE * FSIZE).toNat

/-- The search: the expansion loop from the initial state. -/
def search (field : Grid) (curR curC endR endC : Int) : Option State :=
  expansionLoop endR endC searchFuel (initState field curR curC endR endC)

/-- The path-marking walk `while (curR != -1)`, lines 175-180, with the list
of the cells it paints; `none` when a lookup misses or the fuel runs out. -/
def markPath (seen : Seen) : Nat → Grid → Int → Int → Option (Grid × List (Int × Int))
  | fuel, field, curR, curC =>
    if curR = -1 then some (field, [])
    else
      match fuel with
      | 0 => none
      | fuel + 1 =>
        match seenFind (hash curR curC) seen with
        | none => none
        | some n =>
          match markPath seen fuel (setCell field curR curC '*') n.fromR n.fromC with
          | none => none
          | some (g, cells) => some (g, (curR, curC) :: cells)

/-- The grid without any wall. -/
def emptyGrid : Grid := fun _ _ => '-'

/-- The ordering key of the spec: (priority, heuristic, row, column), in the
lexicographic order of Mathlib. -/
def Node.key (a : Node) : Lex (Int × Lex (Int × Lex (Int × Int))) :=
  toLex (a.priority, toLex (a.heuristic, toLex (a.r, a.c)))

/-- A cell that a path may use: in bounds and not a wall. -/
def Free (field : Grid) (r c : Int) : Prop :=
  isValid r c = true ∧ field r c ≠ '@'

/-- Two cells are 4-adjacent: they differ by exactly one in exactly one
coordinate. -/
def Adj (a b : Int × Int) : Prop :=
  (a.1 = b.1 ∧ (a.2 - b.2).natAbs = 1) ∨ (a.2 = b.2 ∧ (a.1 - b.1).natAbs = 1)

instance (field : Grid) (r c : Int) : Decidable (Free field r c) := by
  unfold Free; infer_instance

instance (a b : Int × Int) : Decidable (Adj a b) := by
  unfold Adj; infer_instance

/-- A list of cells is a path: every cell is free and consecutive cells are
4-adjacent. -/
def IsPath (field : Grid) (p : List (Int × Int)) : Prop :=
  (∀ x ∈ p, Free field x.1 x.2) ∧ List.Chain' Adj p

/-- The list `p` is a path that starts at `a` and ends at `b`. -/
def PathFromTo (field : Grid) (a b : Int × Int) (p : List (Int × Int)) : Prop :=
  IsPath field p ∧ p.head? = some a ∧ p.getLast? = some b

/-- There is a path of `k` moves from `a` to `b`. -/
inductive Walk (field : Grid) (a : Int × Int) : Int × Int → Int → Prop
  | nil : Free field a.1 a.2 → Walk field a a 0
  | snoc {u v : Int × Int} {k : Int} :
      Walk field a u k → Adj u v → Free field v.1 v.2 → Walk field a v (k + 1)

/-- Two nodes have the same ordering key. -/
def KeyEq (x y : Node) : Prop :=
  x.priority = y.priority ∧ x.heuristic = y.heuristic ∧ x.r = y.r ∧ x.c = y.c

/-- The Frontier list is strictly increasing for `operator<`. -/
def SortedF (l : List Node) : Prop := l.Pairwise (fun a b => a.lt b = true)

/-- The state after the body discards an extracted node (`continue`). -/
def discardState (s : State) (rest : List Node) : State :=
  { s with next := rest }

/-- The state after the body finalizes the goal (`found = true; break`). -/
def goalState (s : State) (n : Node) (rest : List Node) : State :=
  { s with next := rest, seen := s.seen ++ [(hash n.r n.c, n)], found := true }

/-- The state after the body finalizes and expands a node that is not the
goal. -/
def expandState (endR endC : Int) (s : State) (n : Node) (rest : List Node) : State :=
  { field := setCell (setCell s.field s.curR s.curC '#') n.r n.c '*',
    curR := n.r, curC := n.c,
    seen := s.seen ++ [(hash n.r n.c, n)],
    next := expand s.field (s.seen ++ [(hash n.r n.c, n)]) endR endC n rest,
    found := s.found,
    frames := s.frames ++ [setCell (setCell s.field s.curR s.curC '#') n.r n.c '*'] }

/-- What holds of every Search Node of a run on the grid `field0` from
`(sR, sC)` to `(eR, eC)`, given the Visited Table `seen`. -/
structure NodeOK (field0 : Grid) (sR sC eR eC : Int) (seen : Seen) (x : Node) : Prop where
  valid : isValid x.r x.c = true
  unblocked : field0 x.r x.c ≠ '@'
  heur : x.heuristic = getDist x.r x.c eR eC
  prio : x.priority = x.dist + x.heuristic
  walk : Walk field0 (sR, sC) (x.r, x.c) x.dist
  parent : (x.fromR = -1 ∧ x.fromC = -1 ∧ x.r = sR ∧ x.c = sC ∧ x.dist = 0) ∨
    (∃ p, (hash x.fromR x.fromC, p) ∈ seen ∧ p.r = x.fromR ∧ p.c = x.fromC ∧
      x.dist = p.dist + 1 ∧ Adj (x.fromR, x.fromC) (x.r, x.c) ∧
      ¬ (p.r = eR ∧ p.c = eC))

/-- The invariant of the search state. -/
structure Inv (field0 : Grid) (sR sC eR eC : Int) (s : State) : Prop where
  blocked : ∀ r c, s.field r c = '@' ↔ field0 r c = '@'
  cur_free : Free field0 s.curR s.curC
  seen_key : ∀ k x, (k, x) ∈ s.seen → k = hash x.r x.c
  seen_nodup : (s.seen.map Prod.fst).Nodup
  seen_ok : ∀ k x, (k, x) ∈ s.seen → NodeOK field0 sR sC eR eC s.seen x
  next_ok : ∀ y ∈ s.next, NodeOK field0 sR sC eR eC s.seen y
  sorted : SortedF s.next
  optimal : ∀ k x, (k, x) ∈ s.seen →
    ∀ j, Walk field0 (sR, sC) (x.r, x.c) j → x.dist ≤ j
  cover : ∀ k u, (k, u) ∈ s.seen → ¬ (u.r = eR ∧ u.c = eC) →
    ∀ v : Int × Int, Adj (u.r, u.c) v → Free field0 v.1 v.2 →
      (seenFind (hash v.1 v.2) s.seen).isSome = true ∨
      ∃ y ∈ s.next, y.r = v.1 ∧ y.c = v.2 ∧ y.dist ≤ u.dist + 1
  start_cover : (seenFind (hash sR sC) s.seen).isSome = true ∨
    ∃ y ∈ s.next, y.r = sR ∧ y.c = sC ∧ y.dist = 0
  found_iff : s.found = true ↔ (seenFind (hash eR eC) s.seen).isSome = true
  seen_bound : ∀ k x, (k, x) ∈ s.seen → x.dist + 1 ≤ s.seen.length
  next_bound : ∀ y ∈ s.next, y.dist ≤ s.seen.length

/-- The part of the invariant about the order of extraction and about the
goal's node in the Frontier. -/
structure MonoInv (sR sC eR eC : Int) (s : State) : Prop where
  mono_seen : s.seen.Pairwise (fun a b => a.2.priority ≤ b.2.priority)
  mono_next : ∀ k x, (k, x) ∈ s.seen → ∀ y ∈ s.next, x.priority ≤ y.priority
  goal_next : s.found = false → ∀ y ∈ s.next, y.r = eR → y.c = eC →
    y.fromR = s.curR ∧ y.fromC = s.curC ∧ ∀ z ∈ s.next, y.priority ≤ z.priority
  cur_found : s.found = true → ∃ k x, s.seen.getLast? = some (k, x) ∧
    x.r = eR ∧ x.c = eC ∧ x.fromR = s.curR ∧ x.fromC = s.curC
  cur_last : s.found = false → (s.seen = [] ∧ s.curR = sR ∧ s.curC = sC) ∨
    ∃ k x, s.seen.getLast? = some (k, x) ∧ x.r = s.curR ∧ x.c = s.curC

/-- A frame shows the cell of the Visited Table entry `e` as the current
cell: the marker `'*'` stands on that cell and on no other. -/
def ShowsCurrent (g : Grid) (e : Int × Node) : Prop :=
  ∀ r c, g r c = '*' ↔ (r = e.2.r ∧ c = e.2.c)

/-- The part of the invariant about the markers painted on the grid and the
frames drawn. -/
structure PaintInv (eR eC : Int) (s : State) : Prop where
  cur_star : s.field s.curR s.curC = '*'
  star_only : ∀ r c, s.field r c = '*' → r = s.curR ∧ c = s.curC
  goal_x : s.field eR eC = 'x'
  cur_ne_goal : ¬ (s.curR = eR ∧ s.curC = eC)
  frames : List.Forall₂ ShowsCurrent s.frames
    (if s.found = true then s.seen.dropLast else s.seen)

/-- The states at the head of the expansion loop, in the run on the grid
`field0` from `(sR, sC)` to `(eR, eC)`: the initial state, and every state
that a pass through the body reaches without `break`. -/
inductive Reach (field0 : Grid) (sR sC eR eC : Int) : State → Prop
  | init : Reach field0 sR sC eR eC (initState field0 sR sC eR eC)
  | step {s : State} {n : Node} {rest : List Node} :
      Reach field0 sR sC eR eC s → s.next = n :: rest →
      (loopBody eR eC s n rest).2 = false →
      Reach field0 sR sC eR eC (loopBody eR eC s n rest).1

/-- The number of passes of the path-marking walk that always suffices. -/
def markFuel : Nat := (FSIZE * FSIZE).toNat

/-- Lines 173-182: the path is marked only when `found` is set. -/
def markIfFound (s : State) : Option (Grid × List (Int × Int)) :=
  if s.found = true then markPath s.seen markFuel s.field s.curR s.curC
  else some (s.field, [])

/-- The grid `g` with `'*'` written on every cell of the list. -/
def paintCells (g : Grid) (cells : List (Int × Int)) : Grid :=
  fun r c => if (r, c) ∈ cells then '*' else g r c

/-- The number `d` is the length, in moves, of a shortest path from `a` to
`b`: some path has `d` moves and no path has fewer. -/
def ShortestDist (field : Grid) (a b : Int × Int) (d : Int) : Prop :=
  (∃ p, PathFromTo field a b p ∧ (p.length : Int) = d + 1) ∧
  ∀ p, PathFromTo field a b p → d + 1 ≤ (p.length : Int)

/-- The number of moves by `(dr, dc)` along a list of cells. -/
def countMoves (dr dc : Int) : List (Int × Int) → Nat
  | a :: b :: rest =>
    (if b.1 = a.1 + dr ∧ b.2 = a.2 + dc then 1 else 0) + countMoves dr dc (b :: rest)
  | _ => 0

/-- The Search Node of the cell `(r, c)`, reached after `d` moves through the
parent `(fr, fc)`, in a search for the goal `(eR, eC)`. -/
def nodeAt (eR eC r c d fr fc : Int) : Node :=
  { Node.new r c (getDist r c eR eC) d with fromR := fr, fromC := fc }

/-- The Visited Table entry that holds `nodeAt eR eC r c d fr fc`. -/
def seenEntry (eR eC r c d fr fc : Int) : Int × Node :=
  (hash r c, nodeAt eR eC r c d fr fc)

/-- A grid with a wall on the cells (0,2), (1,2) and (2,2). -/
def wallGrid : Grid := fun r c => if c = 2 ∧ (r = 0 ∨ r = 1 ∨ r = 2) then '@' else '-'

/-- The Frontier at the start of pass `i` of the neighbour loop. -/
def frontierBefore (field : Grid) (seen : Seen) (endR endC : Int) (n : Node)
    (rest : List Node) (i : Nat) : List Node :=
  (List.range i).foldl (visitNeighbour field seen endR endC n) rest

/-- The claim C7 as stated: in the run on `field` from `(sR, sC)` to
`(eR, eC)`, every insertion that the neighbour loop performs makes the
Frontier one entry longer. -/
def EveryInsertionAdds (field : Grid) (sR sC eR eC : Int) : Prop :=
  ∀ (s : State) (n : Node) (rest : List Node) (i : Nat),
    Reach field sR sC eR eC s → s.next = n :: rest →
    seenFind (hash n.r n.c) s.seen = none → getDist n.r n.c eR eC ≠ 0 → i < 4 →
    isValid (n.r + DR.getD i 0) (n.c + DC.getD i 0) = true →
    s.field (n.r + DR.getD i 0) (n.c + DC.getD i 0) ≠ '@' →
    seenFind (hash (n.r + DR.getD i 0) (n.c + DC.getD i 0))
      (seenInsert (hash n.r n.c) n s.seen) = none →
    (setInsert (nextNode n (n.r + DR.getD i 0) (n.c + DC.getD i 0) eR eC)
      (frontierBefore s.field (seenInsert (hash n.r n.c) n s.seen) eR eC n rest i)).length
    = (frontierBefore s.field (seenInsert (hash n.r n.c) n s.seen) eR eC n rest i).length + 1

/-- The state at the head of the third pass of the expansion loop on
`wallGrid` from (1,1) to (1,3). -/
def wallState : State :=
  (loopBody 1 3
    (loopBody 1 3 (initState wallGrid 1 1 1 3) (nodeAt 1 3 1 1 0 (-1) (-1)) []).1
    (nodeAt 1 3 0 1 1 1 1) [nodeAt 1 3 1 0 1 1 1, nodeAt 1 3 2 1 1 1 1]).1

/-- The macro `RAND(a,b)`, for the value `x` that `rand()` returns:
`x % (b - a + 1) + a`, with the truncating `%` of C. -/
def RAND (a b x : Int) : Int := Int.tmod x (b - a + 1) + a

/-- The cells that `placeWall` writes, in the order of its two loops. -/
def wallCells (row col height width : Int) : List (Int × Int) :=
  (List.range height.toNat).flatMap
    (fun (i : Nat) => (List.range width.toNat).map
      (fun (j : Nat) => (row + (i : Int), col + (j : Int))))

/-- The function `placeWall`: it writes `'@'` on every cell of the rectangle. -/
def placeWall (field : Grid) (row col height width : Int) : Grid :=
  (wallCells row col height width).foldl (fun g p => setCell g p.1 p.2 '@') field

/-- The arguments `(row, col, height, width)` that `placeRandomWall` passes to
`placeWall`, for the values `x1`, ..., `x5` that its five calls of `rand()`
return. -/
def randomWall (x1 x2 x3 x4 x5 : Int) : Int × Int × Int × Int :=
  let height := RAND (FSIZE / 7) (FSIZE - 1) x1
  let width := RAND 1 (FSIZE / 12) x2
  let hw : Int × Int := if RAND 0 1 x3 ≠ 0 then (width, height) else (height, width)
  let row := RAND 0 (FSIZE - hw.1) x4
  let col := RAND 0 (FSIZE - hw.2) x5
  (row, col, hw.1, hw.2)

/-- The function `placeRandomWall`. -/
def placeRandomWall (field : Grid) (x1 x2 x3 x4 x5 : Int) : Grid :=
  placeWall field (randomWall x1 x2 x3 x4 x5).1 (randomWall x1 x2 x3 x4 x5).2.1
    (randomWall x1 x2 x3 x4 x5).2.2.1 (randomWall x1 x2 x3 x4 x5).2.2.2

/-- The expansion loop together with the number of Frontier extractions
(passes through the body) that it performs. -/
def countedLoop (endR endC : Int) : Nat → State → Option (State × Nat)
  | fuel, s =>
    match s.next with
    | [] => some (s, 0)
    | n :: rest =>
      match fuel with
      | 0 => none
      | fuel + 1 =>
        match loopBody endR endC s n rest with
        | (s1, true) => some (s1, 1)
        | (s1, false) =>
          match countedLoop endR endC fuel s1 with
          | none => none
          | some (s2, k) => some (s2, k + 1)

/-- The part of the invariant that termination rests on: the keys of the
Visited Table are the hashes of distinct in-bounds cells, and the Frontier
holds in-bounds cells only. -/
structure TermInv (s : State) : Prop where
  key : ∀ k x, (k, x) ∈ s.seen → k = hash x.r x.c
  nodup : (s.seen.map Prod.fst).Nodup
  seen_valid : ∀ k x, (k, x) ∈ s.seen → isValid x.r x.c = true
  next_valid : ∀ y ∈ s.next, isValid y.r y.c = true

/-- What C17 says of a Search Node, on the grid `g`: its cell is in bounds and
not blocked, its heuristic is the Manhattan distance of its cell to the goal
and its priority is dist + heuristic. -/
structure NodeSafe (g : Grid) (eR eC : Int) (x : Node) : Prop where
  valid : isValid x.r x.c = true
  unblocked : g x.r x.c ≠ '@'
  heur : x.heuristic = getDist x.r x.c eR eC
  prio : x.priority = x.dist + x.heuristic

/-- The invariant behind C17; `g0` is the grid at the head of the loop. -/
structure SafeInv (g0 : Grid) (eR eC : Int) (s : State) : Prop where
  blocked : ∀ r c, s.field r c = '@' ↔ g0 r c = '@'
  cur_free : isValid s.curR s.curC = true ∧ g0 s.curR s.curC ≠ '@'
  seen_safe : ∀ k x, (k, x) ∈ s.seen → NodeSafe g0 eR eC x
  next_safe : ∀ y ∈ s.next, NodeSafe g0 eR eC y

/-- The indices at which one pass of the loop body, for the extracted node
`n`, reads or writes `field`: the occupancy test of line 152, which `||`
evaluates only when `isValid` holds, and the marker writes of lines 163 and
166. -/
def bodyAccesses (endR endC : Int) (s : State) (n : Node) : List (Int × Int) :=
  if (seenFind (hash n.r n.c) s.seen).isSome then []
  else if getDist n.r n.c endR endC = 0 then []
  else
    ((List.range 4).filter
        (fun i => isValid (n.r + DR.getD i 0) (n.c + DC.getD i 0))).map
      (fun i => (n.r + DR.getD i 0, n.c + DC.getD i 0))
    ++ [(s.curR, s.curC), (n.r, n.c)]

/-- The invariant behind C15: the Frontier is sorted, the ordering key of
every node is determined by its cell and dist, and a Frontier node whose cell
is finalized has a larger dist than the finalized node. -/
structure StaleInv (eR eC : Int) (s : State) : Prop where
  sorted : SortedF s.next
  next_key : ∀ y ∈ s.next,
    y.priority = y.dist + y.heuristic ∧ y.heuristic = getDist y.r y.c eR eC
  seen_key : ∀ k x, (k, x) ∈ s.seen → k = hash x.r x.c
  stale : ∀ y ∈ s.next, ∀ k x, (k, x) ∈ s.seen → y.r = x.r → y.c = x.c → x.dist < y.dist

/-- A grid with a wall on the cells (0,2) and (1,2). -/
def staleGrid : Grid := fun r c => if c = 2 ∧ (r = 0 ∨ r = 1) then '@' else '-'

/-- The state at the head of the second pass of the expansion loop on
`staleGrid` from (1,4) to (0,1): the start is expanded. -/
def staleState1 : State :=
  (loopBody 0 1 (initState staleGrid 1 4 0 1) (nodeAt 0 1 1 4 0 (-1) (-1)) []).1

/-- The state at the head of the third pass: (0,4) is expanded. -/
def staleState2 : State :=
  (loopBody 0 1 staleState1 (nodeAt 0 1 0 4 1 1 4)
    [nodeAt 0 1 1 3 1 1 4, nodeAt 0 1 1 5 1 1 4, nodeAt 0 1 2 4 1 1 4]).1

/-- The state at the head of the fourth pass: (0,3) is expanded, which puts a
node for (1,3) with dist 3 into the Frontier. -/
def staleState3 : State :=
  (loopBody 0 1 staleState2 (nodeAt 0 1 0 3 2 0 4)
    [nodeAt 0 1 1 3 1 1 4, nodeAt 0 1 0 5 2 0 4, nodeAt 0 1 1 5 1 1 4,
      nodeAt 0 1 2 4 1 1 4]).1

/-- The state at the head of the fifth pass: (1,3) is finalized with dist 1,
and the head of the Frontier is the node for (1,3) with dist 3. -/
def staleState : State :=
  (loopBody 0 1 staleState3 (nodeAt 0 1 1 3 1 1 4)
    [nodeAt 0 1 1 3 3 0 3, nodeAt 0 1 0 5 2 0 4, nodeAt 0 1 1 5 1 1 4,
      nodeAt 0 1 2 4 1 1 4]).1

/-- What the Visited Table `seen` records about parents, for a search from
`(sR, sC)`: the entries whose parent is the sentinel are those of the start
cell, which have dist 0; the parent of every other entry is an in-bounds
cell, 4-adjacent to the entry's cell, that the table holds with a dist one
less. -/
def ParentLinked (sR sC : Int) (seen : Seen) : Prop :=
  ∀ k x, (k, x) ∈ seen →
    ((x.fromR = -1 ∧ x.fromC = -1) ↔ (x.r = sR ∧ x.c = sC)) ∧
    (x.r = sR ∧ x.c = sC → x.dist = 0) ∧
    (¬ (x.r = sR ∧ x.c = sC) →
      ∃ p, seenFind (hash x.fromR x.fromC) seen = some p ∧
        p.r = x.fromR ∧ p.c = x.fromC ∧ isValid x.fromR x.fromC = true ∧
        Adj (x.fromR, x.fromC) (x.r, x.c) ∧ p.dist = x.dist - 1)

/-- From every entry of the Visited Table `seen` the path-marking walk finds
every node it looks up and ends, having visited the start cell last. -/
def WalkReachesStart (sR sC : Int) (seen : Seen) : Prop :=
  ∀ k x, (k, x) ∈ seen →
    ∃ cells, (∀ g, markPath seen markFuel g x.r x.c = some (paintCells g cells, cells)) ∧
      cells.getLast? = some (sR, sC)

/-- The body of the expansion loop without the marker writes of lines 163 and
166, for the comparison of C19: the grid stays as it is. -/
def loopBodyPlain (endR endC : Int) (s : State) (n : Node) (rest : List Node) :
    State × Bool :=
  if (seenFind (hash n.r n.c) s.seen).isSome then
    ({ s with next := rest }, false)
  else
    let seen1 := seenInsert (hash n.r n.c) n s.seen
    if getDist n.r n.c endR endC = 0 then
      ({ s with next := rest, seen := seen1, found := true }, true)
    else
      let next1 := expand s.field seen1 endR endC n rest
      ({ field := s.field, curR := n.r, curC := n.c, seen := seen1,
         next := next1, found := s.found, frames := s.frames ++ [s.field] },
       false)

/-- The expansion loop over `loopBodyPlain`. -/
def expansionLoopPlain (endR endC : Int) : Nat → State → Option State
  | fuel, s =>
    match s.next with
    | [] => some s
    | n :: rest =>
      match fuel with
      | 0 => none
      | fuel + 1 =>
        match loopBodyPlain endR endC s n rest with
        | (s1, true) => some s1
        | (s1, false) => expansionLoopPlain endR endC fuel s1

/-- The search that paints no marker at all: neither the start and goal
markers of lines 120-121 nor the markers of the loop. -/
def searchPlain (field : Grid) (curR curC endR endC : Int) : Option State :=
  expansionLoopPlain endR endC searchFuel
    { initState field curR curC endR endC with field := field }

/-- The state of the search that paints and the state of the search that does
not agree in all but the grid and the frames. -/
def SameSearch (s u : State) : Prop :=
  s.seen = u.seen ∧ s.next = u.next ∧ s.found = u.found ∧ s.curR = u.curR ∧
    s.curC = u.curC

/-- The placement loop of lines 113-119: `rand k`, `rand (k+1)`, ... are the
values that the calls of `rand()` return from the `k`-th on; `none` when the
fuel runs out. -/
def placementLoop (field : Grid) (rand : Nat → Int) :
    Nat → Nat → Int → Int → Int → Int → Option (Int × Int × Int × Int)
  | fuel, k, curR, curC, endR, endC =>
    if (curR = endR ∧ curC = endC) ∨ field curR curC = '@' ∨ field endR endC = '@' then
      match fuel with
      | 0 => none
      | fuel + 1 =>
        placementLoop field rand fuel (k + 4)
          (RAND 0 (FSIZE - 1) (rand k)) (RAND 0 (FSIZE - 1) (rand (k + 1)))
          (RAND 0 (FSIZE - 1) (rand (k + 2))) (RAND 0 (FSIZE - 1) (rand (k + 3)))
    else some (curR, curC, endR, endC)

/-- Lines 113-119: the placement of start and goal, from all four coordinates
at -1. -/
def placeStartGoal (field : Grid) (rand : Nat → Int) (fuel : Nat) :
    Option (Int × Int × Int × Int) :=
  placementLoop field rand fuel 0 (-1) (-1) (-1) (-1)

/-! ## Lemmas and theorems -/

theorem Node.lt_iff (a b : Node) :
    a.lt b = true ↔
      (a.priority < b.priority ∨ (a.priority = b.priority ∧
        (a.heuristic < b.heuristic ∨ (a.heuristic = b.heuristic ∧
          (a.r < b.r ∨ (a.r = b.r ∧ a.c < b.c)))))) := by
  unfold Node.lt
  by_cases h1 : a.priority = b.priority
  · by_cases h2 : a.heuristic = b.heuristic
    · by_cases h3 : a.r = b.r
      · simp [h1, h2, h3]
      · simp [h1, h2, h3]
    · simp [h1, h2]
  · simp [h1]

theorem Node.lt_iff_key (a b : Node) : a.lt b = true ↔ a.key < b.key := by
  rw [Node.lt_iff]
  simp only [Node.key, Prod.Lex.lt_iff, ofLex_toLex]

theorem Node.lt_irrefl (a : Node) : a.lt a = false := by
  cases h : a.lt a
  · rfl
  · rw [Node.lt_iff] at h; omega

theorem Node.lt_trans {a b c : Node} (h1 : a.lt b = true) (h2 : b.lt c = true) :
    a.lt c = true := by
  rw [Node.lt_iff] at *
  omega

theorem Walk.nonneg {field : Grid} {a v : Int × Int} {k : Int}
    (w : Walk field a v k) : 0 ≤ k := by
  induction w with
  | nil _ => exact le_refl 0
  | snoc _ _ _ ih => omega

theorem Walk.free {field : Grid} {a v : Int × Int} {k : Int}
    (w : Walk field a v k) : Free field v.1 v.2 := by
  cases w with
  | nil h => exact h
  | snoc _ _ h => exact h

theorem Walk.of_path {field : Grid} {a : Int × Int} :
    ∀ (p : List (Int × Int)) (b : Int × Int),
      PathFromTo field a b p → Walk field a b ((p.length : Int) - 1) := by
  intro p
  induction p using List.reverseRecOn with
  | nil => intro b h; simp [PathFromTo] at h
  | append_singleton q x ih =>
    intro b ⟨⟨hfree, hchain⟩, hhead, hlast⟩
    have hb : x = b := by simpa using hlast
    subst hb
    rcases List.eq_nil_or_concat' q with hq | ⟨q1, y, hq⟩
    · subst hq
      have ha : x = a := by simpa using hhead
      subst ha
      simpa using Walk.nil (hfree x (by simp))
    · subst hq
      have hw : Walk field a y (((q1 ++ [y]).length : Int) - 1) := by
        apply ih
        refine ⟨⟨fun z hz => hfree z (by simp at hz ⊢; tauto), ?_⟩, ?_, by simp⟩
        · exact (List.chain'_append.1 hchain).1
        · cases q1 <;> simpa using hhead
      have hadj : Adj y x := by
        have := (List.chain'_append.1 hchain).2.2
        exact this y (by simp) x (by simp)
      have hs := Walk.snoc hw hadj (hfree x (by simp))
      have e : ((q1 ++ [y]).length : Int) - 1 + 1 = ((q1 ++ [y] ++ [x]).length : Int) - 1 := by
        simp only [List.length_append, List.length_singleton, Nat.cast_add, Nat.cast_one]
        omega
      rw [e] at hs
      exact hs

theorem Walk.to_path {field : Grid} {a v : Int × Int} {k : Int}
    (w : Walk field a v k) :
    ∃ p, PathFromTo field a v p ∧ (p.length : Int) = k + 1 := by
  induction w with
  | nil h =>
    exact ⟨[a], ⟨⟨by simpa using h, by simp⟩, by simp, by simp⟩, by simp⟩
  | @snoc u v k _ hadj hfree ih =>
    obtain ⟨p, ⟨⟨hf, hc⟩, hh, hl⟩, hlen⟩ := ih
    refine ⟨p ++ [v], ⟨⟨?_, ?_⟩, ?_, by simp⟩, by simp; omega⟩
    · intro x hx
      rcases List.mem_append.1 hx with hx | hx
      · exact hf x hx
      · have : x = v := by simpa using hx
        subst this; exact hfree
    · refine List.chain'_append.2 ⟨hc, by simp, ?_⟩
      intro x hx y hy
      have hy1 : y = v := by simpa using hy.symm
      have hx1 : x = u := by
        rw [hl] at hx; simpa using hx.symm
      subst hy1; subst hx1; exact hadj
    · cases p with
      | nil => simp at hh
      | cons z zs => simpa using hh

theorem getDist_nonneg (r1 c1 r2 c2 : Int) : 0 ≤ getDist r1 c1 r2 c2 := by
  unfold getDist; omega

theorem getDist_eq_zero {r1 c1 r2 c2 : Int} :
    getDist r1 c1 r2 c2 = 0 ↔ r1 = r2 ∧ c1 = c2 := by
  unfold getDist; omega

theorem getDist_adj {u v : Int × Int} (h : Adj u v) (r c : Int) :
    getDist u.1 u.2 r c ≤ 1 + getDist v.1 v.2 r c := by
  unfold Adj at h; unfold getDist; omega

theorem isValid_iff {r c : Int} :
    isValid r c = true ↔ 0 ≤ r ∧ r < 30 ∧ 0 ≤ c ∧ c < 30 := by
  simp [isValid, FSIZE, and_assoc]

theorem hash_inj {r1 c1 r2 c2 : Int} (h1 : isValid r1 c1 = true)
    (h2 : isValid r2 c2 = true) (h : hash r1 c1 = hash r2 c2) :
    r1 = r2 ∧ c1 = c2 := by
  rw [isValid_iff] at h1 h2
  simp only [hash, FSIZE] at h
  omega

theorem seenFind_some_mem {k : Int} {x : Node} :
    ∀ {m : Seen}, seenFind k m = some x → (k, x) ∈ m := by
  intro m
  induction m with
  | nil => intro h; simp [seenFind] at h
  | cons e rest ih =>
    obtain ⟨k1, v⟩ := e
    intro h
    unfold seenFind at h
    by_cases hk : k1 = k
    · simp only [hk, if_true, Option.some.injEq] at h
      subst h; subst hk; simp
    · simp only [hk, if_false] at h
      exact List.mem_cons_of_mem _ (ih h)

theorem seenFind_none_iff {k : Int} :
    ∀ {m : Seen}, seenFind k m = none ↔ k ∉ m.map Prod.fst := by
  intro m
  induction m with
  | nil => simp [seenFind]
  | cons e rest ih =>
    obtain ⟨k1, v⟩ := e
    unfold seenFind
    by_cases hk : k1 = k
    · simp [hk]
    · simp only [hk, if_false, List.map_cons, List.mem_cons, not_or]
      rw [ih]
      exact ⟨fun h => ⟨fun e => hk e.symm, h⟩, fun h => h.2⟩

theorem seenFind_isSome_of_mem {k : Int} {x : Node} {m : Seen}
    (h : (k, x) ∈ m) : (seenFind k m).isSome = true := by
  cases hf : seenFind k m with
  | some y => rfl
  | none =>
    rw [seenFind_none_iff] at hf
    exact absurd (List.mem_map_of_mem Prod.fst h) hf

theorem seenFind_append (k k1 : Int) (v : Node) :
    ∀ m : Seen, seenFind k (m ++ [(k1, v)]) =
      match seenFind k m with
      | some x => some x
      | none => if k1 = k then some v else none := by
  intro m
  induction m with
  | nil => simp [seenFind]
  | cons e rest ih =>
    obtain ⟨k2, w⟩ := e
    simp only [List.cons_append, seenFind]
    by_cases hk : k2 = k
    · simp [hk]
    · simp only [hk, if_false]; exact ih

theorem seenFind_append_isSome {k k1 : Int} {v : Node} {m : Seen}
    (h : (seenFind k m).isSome = true) :
    (seenFind k (m ++ [(k1, v)])).isSome = true := by
  rw [seenFind_append]
  cases hf : seenFind k m with
  | some y => rfl
  | none => rw [hf] at h; simp at h

theorem seenFind_append_self (k : Int) (v : Node) (m : Seen) :
    (seenFind k (m ++ [(k, v)])).isSome = true := by
  rw [seenFind_append]
  cases seenFind k m <;> simp

theorem seenFind_of_mem_nodup {k : Int} {x : Node} :
    ∀ {m : Seen}, (m.map Prod.fst).Nodup → (k, x) ∈ m → seenFind k m = some x := by
  intro m
  induction m with
  | nil => intro _ h; simp at h
  | cons e rest ih =>
    obtain ⟨k1, v⟩ := e
    intro hnd hmem
    simp only [List.map_cons, List.nodup_cons] at hnd
    unfold seenFind
    rcases List.mem_cons.1 hmem with heq | hin
    · injection heq with e1 e2
      subst e1; subst e2; simp
    · have hk : k1 ≠ k := by
        intro e; subst e
        exact hnd.1 (List.mem_map_of_mem Prod.fst hin)
      simp only [hk, if_false]
      exact ih hnd.2 hin

theorem seenInsert_of_none {k : Int} {v : Node} {m : Seen}
    (h : seenFind k m = none) : seenInsert k v m = m ++ [(k, v)] := by
  simp [seenInsert, h]

theorem keyEq_of_not_lt {x y : Node} (h1 : x.lt y = false) (h2 : y.lt x = false) :
    KeyEq x y := by
  have a := Node.lt_iff x y
  have b := Node.lt_iff y x
  rw [h1] at a; rw [h2] at b
  simp only [Bool.false_eq_true, false_iff] at a b
  unfold KeyEq
  omega

theorem lt_of_keyEq_false {x y : Node} (h : KeyEq x y) : x.lt y = false := by
  cases hl : x.lt y
  · rfl
  · rw [Node.lt_iff] at hl; unfold KeyEq at h; omega

theorem Node.lt_priority_le {x y : Node} (h : x.lt y = true) :
    x.priority ≤ y.priority := by
  rw [Node.lt_iff] at h; omega

theorem setInsert_cons_lt {x z : Node} (zs : List Node) (h : x.lt z = true) :
    setInsert x (z :: zs) = x :: z :: zs := by
  simp [setInsert, h]

theorem setInsert_cons_gt {x z : Node} (zs : List Node) (h1 : x.lt z = false)
    (h2 : z.lt x = true) : setInsert x (z :: zs) = z :: setInsert x zs := by
  simp [setInsert, h1, h2]

theorem setInsert_cons_eq {x z : Node} (zs : List Node) (h1 : x.lt z = false)
    (h2 : z.lt x = false) : setInsert x (z :: zs) = z :: zs := by
  simp [setInsert, h1, h2]

theorem mem_setInsert {x y : Node} :
    ∀ {l : List Node}, y ∈ setInsert x l → y = x ∨ y ∈ l := by
  intro l
  induction l with
  | nil => intro h; simp [setInsert] at h; exact Or.inl h
  | cons z zs ih =>
    intro h
    cases h1 : x.lt z with
    | true =>
      rw [setInsert_cons_lt zs h1] at h
      rcases List.mem_cons.1 h with h | h
      · exact Or.inl h
      · exact Or.inr h
    | false =>
      cases h2 : z.lt x with
      | true =>
        rw [setInsert_cons_gt zs h1 h2] at h
        rcases List.mem_cons.1 h with h | h
        · exact Or.inr (by simp [h])
        · rcases ih h with h | h
          · exact Or.inl h
          · exact Or.inr (List.mem_cons_of_mem _ h)
      | false =>
        rw [setInsert_cons_eq zs h1 h2] at h
        exact Or.inr h

theorem mem_setInsert_of_mem {x y : Node} :
    ∀ {l : List Node}, y ∈ l → y ∈ setInsert x l := by
  intro l
  induction l with
  | nil => intro h; simp at h
  | cons z zs ih =>
    intro h
    cases h1 : x.lt z with
    | true =>
      rw [setInsert_cons_lt zs h1]; exact List.mem_cons_of_mem _ h
    | false =>
      cases h2 : z.lt x with
      | true =>
        rw [setInsert_cons_gt zs h1 h2]
        rcases List.mem_cons.1 h with h | h
        · simp [h]
        · exact List.mem_cons_of_mem _ (ih h)
      | false =>
        rw [setInsert_cons_eq zs h1 h2]; exact h

theorem setInsert_has_key (x : Node) :
    ∀ l : List Node, ∃ y ∈ setInsert x l, KeyEq y x := by
  intro l
  induction l with
  | nil => exact ⟨x, by simp [setInsert], by simp [KeyEq]⟩
  | cons z zs ih =>
    cases h1 : x.lt z with
    | true =>
      rw [setInsert_cons_lt zs h1]
      exact ⟨x, by simp, by simp [KeyEq]⟩
    | false =>
      cases h2 : z.lt x with
      | true =>
        rw [setInsert_cons_gt zs h1 h2]
        obtain ⟨y, hy, hk⟩ := ih
        exact ⟨y, List.mem_cons_of_mem _ hy, hk⟩
      | false =>
        rw [setInsert_cons_eq zs h1 h2]
        exact ⟨z, by simp, keyEq_of_not_lt h2 h1⟩

theorem setInsert_sorted (x : Node) :
    ∀ l : List Node, SortedF l → SortedF (setInsert x l) := by
  intro l
  induction l with
  | nil => intro _; simp [setInsert, SortedF]
  | cons z zs ih =>
    intro hs
    have hs1 := hs
    unfold SortedF at hs1
    rw [List.pairwise_cons] at hs1
    cases h1 : x.lt z with
    | true =>
      rw [setInsert_cons_lt zs h1]
      unfold SortedF
      rw [List.pairwise_cons]
      refine ⟨?_, hs⟩
      intro w hw
      rcases List.mem_cons.1 hw with hw | hw
      · subst hw; exact h1
      · exact Node.lt_trans h1 (hs1.1 w hw)
    | false =>
      cases h2 : z.lt x with
      | true =>
        rw [setInsert_cons_gt zs h1 h2]
        unfold SortedF
        rw [List.pairwise_cons]
        refine ⟨?_, ih hs1.2⟩
        intro w hw
        rcases mem_setInsert hw with hw | hw
        · subst hw; exact h2
        · exact hs1.1 w hw
      | false =>
        rw [setInsert_cons_eq zs h1 h2]
        exact hs

theorem setInsert_length_le (x : Node) :
    ∀ l : List Node, (setInsert x l).length ≤ l.length + 1 := by
  intro l
  induction l with
  | nil => simp [setInsert]
  | cons z zs ih =>
    cases h1 : x.lt z with
    | true => rw [setInsert_cons_lt zs h1]; simp
    | false =>
      cases h2 : z.lt x with
      | true =>
        rw [setInsert_cons_gt zs h1 h2]
        simp only [List.length_cons]; omega
      | false => rw [setInsert_cons_eq zs h1 h2]; simp

theorem setInsert_length_of_new (x : Node) :
    ∀ l : List Node, (∀ y ∈ l, ¬ KeyEq y x) →
      (setInsert x l).length = l.length + 1 := by
  intro l
  induction l with
  | nil => intro _; simp [setInsert]
  | cons z zs ih =>
    intro h
    cases h1 : x.lt z with
    | true => rw [setInsert_cons_lt zs h1]; simp
    | false =>
      cases h2 : z.lt x with
      | true =>
        rw [setInsert_cons_gt zs h1 h2]
        simp only [List.length_cons]
        rw [ih (fun y hy => h y (List.mem_cons_of_mem _ hy))]
      | false =>
        exact absurd (keyEq_of_not_lt h2 h1) (h z (by simp))

theorem setInsert_eq_self_of_key (x : Node) :
    ∀ l : List Node, SortedF l → (∃ y ∈ l, KeyEq y x) → setInsert x l = l := by
  intro l
  induction l with
  | nil => intro _ ⟨y, hy, _⟩; simp at hy
  | cons z zs ih =>
    intro hs ⟨y, hy, hk⟩
    unfold SortedF at hs
    rw [List.pairwise_cons] at hs
    have hyx : y.lt x = false := lt_of_keyEq_false hk
    have hxy : x.lt y = false :=
      lt_of_keyEq_false ⟨hk.1.symm, hk.2.1.symm, hk.2.2.1.symm, hk.2.2.2.symm⟩
    cases h1 : x.lt z with
    | true =>
      exfalso
      rcases List.mem_cons.1 hy with e | hin
      · subst e; rw [h1] at hxy; exact Bool.noConfusion hxy
      · have := Node.lt_trans h1 (hs.1 y hin)
        rw [this] at hxy; exact Bool.noConfusion hxy
    | false =>
      cases h2 : z.lt x with
      | true =>
        rw [setInsert_cons_gt zs h1 h2]
        rcases List.mem_cons.1 hy with e | hin
        · subst e; rw [h2] at hyx; exact Bool.noConfusion hyx
        · rw [ih hs.2 ⟨y, hin, hk⟩]
      | false => rw [setInsert_cons_eq zs h1 h2]

theorem adj_iff_dir (r c : Int) (v : Int × Int) :
    Adj (r, c) v ↔ ∃ i, i < 4 ∧ v = (r + DR.getD i 0, c + DC.getD i 0) := by
  obtain ⟨a, b⟩ := v
  constructor
  · intro h
    unfold Adj at h
    simp only at h
    have h4 : (a = r ∧ b = c + 1) ∨ (a = r + 1 ∧ b = c) ∨ (a = r ∧ b = c - 1)
        ∨ (a = r - 1 ∧ b = c) := by omega
    rcases h4 with ⟨e1, e2⟩ | ⟨e1, e2⟩ | ⟨e1, e2⟩ | ⟨e1, e2⟩
    · exact ⟨0, by decide, by subst e1; subst e2; simp [DR, DC]⟩
    · exact ⟨1, by decide, by subst e1; subst e2; simp [DR, DC]⟩
    · exact ⟨2, by decide, by subst e1; subst e2; simp [DR, DC]; omega⟩
    · exact ⟨3, by decide, by subst e1; subst e2; simp [DR, DC]; omega⟩
  · rintro ⟨i, hi, hv⟩
    have e1 : a = r + DR.getD i 0 := congrArg Prod.fst hv
    have e2 : b = c + DC.getD i 0 := congrArg Prod.snd hv
    unfold Adj
    simp only
    have h4 : i = 0 ∨ i = 1 ∨ i = 2 ∨ i = 3 := by omega
    rcases h4 with h | h | h | h <;> subst h <;> simp [DR, DC] at e1 e2 <;> omega

theorem visitNeighbour_cases (field : Grid) (seen : Seen) (endR endC : Int)
    (n : Node) (next : List Node) (i : Nat) :
    (visitNeighbour field seen endR endC n next i = next ∧
      ¬ (isValid (n.r + DR.getD i 0) (n.c + DC.getD i 0) = true ∧
         field (n.r + DR.getD i 0) (n.c + DC.getD i 0) ≠ '@' ∧
         seenFind (hash (n.r + DR.getD i 0) (n.c + DC.getD i 0)) seen = none)) ∨
    (visitNeighbour field seen endR endC n next i =
        setInsert (nextNode n (n.r + DR.getD i 0) (n.c + DC.getD i 0) endR endC) next ∧
      isValid (n.r + DR.getD i 0) (n.c + DC.getD i 0) = true ∧
      field (n.r + DR.getD i 0) (n.c + DC.getD i 0) ≠ '@' ∧
      seenFind (hash (n.r + DR.getD i 0) (n.c + DC.getD i 0)) seen = none) := by
  unfold visitNeighbour
  simp only
  generalize n.r + DR.getD i 0 = a
  generalize n.c + DC.getD i 0 = b
  cases hv : isValid a b with
  | false => left; simp
  | true =>
    by_cases hb : field a b = '@'
    · left; simp [hb]
    · cases hf : seenFind (hash a b) seen with
      | some x => left; simp
      | none => right; simp [hb]

theorem mem_visitNeighbour_of_mem {field : Grid} {seen : Seen} {endR endC : Int}
    {n : Node} {next : List Node} {i : Nat} {y : Node} (h : y ∈ next) :
    y ∈ visitNeighbour field seen endR endC n next i := by
  rcases visitNeighbour_cases field seen endR endC n next i with ⟨e, _⟩ | ⟨e, _⟩
  · rw [e]; exact h
  · rw [e]; exact mem_setInsert_of_mem h

theorem foldl_visit_induct {field : Grid} {seen : Seen} {endR endC : Int} {n : Node}
    (P : List Node → Prop) :
    ∀ (l : List Nat) (next : List Node), P next →
      (∀ nx i, i ∈ l → P nx → P (visitNeighbour field seen endR endC n nx i)) →
      P (l.foldl (visitNeighbour field seen endR endC n) next) := by
  intro l
  induction l with
  | nil => intro next h _; exact h
  | cons j l1 ih =>
    intro next h hstep
    simp only [List.foldl_cons]
    exact ih _ (hstep next j (by simp) h)
      (fun nx i hi hp => hstep nx i (List.mem_cons_of_mem _ hi) hp)

theorem mem_foldl_visit_of_mem {field : Grid} {seen : Seen} {endR endC : Int}
    {n : Node} {y : Node} (l : List Nat) (next : List Node) (h : y ∈ next) :
    y ∈ l.foldl (visitNeighbour field seen endR endC n) next :=
  foldl_visit_induct (fun nx => y ∈ nx) l next h
    (fun _ _ _ hp => mem_visitNeighbour_of_mem hp)

theorem foldl_visit_key {field : Grid} {seen : Seen} {endR endC : Int} {n : Node}
    {i : Nat} :
    ∀ (l : List Nat) (next : List Node), i ∈ l →
      isValid (n.r + DR.getD i 0) (n.c + DC.getD i 0) = true →
      field (n.r + DR.getD i 0) (n.c + DC.getD i 0) ≠ '@' →
      seenFind (hash (n.r + DR.getD i 0) (n.c + DC.getD i 0)) seen = none →
      ∃ y ∈ l.foldl (visitNeighbour field seen endR endC n) next,
        KeyEq y (nextNode n (n.r + DR.getD i 0) (n.c + DC.getD i 0) endR endC) := by
  intro l
  induction l with
  | nil => intro _ h; simp at h
  | cons j l1 ih =>
    intro next hi hv hb hf
    simp only [List.foldl_cons]
    rcases List.mem_cons.1 hi with e | hin
    · subst e
      rcases visitNeighbour_cases field seen endR endC n next i with ⟨_, hno⟩ | ⟨e, _⟩
      · exact absurd ⟨hv, hb, hf⟩ hno
      · obtain ⟨y, hy, hk⟩ := setInsert_has_key
          (nextNode n (n.r + DR.getD i 0) (n.c + DC.getD i 0) endR endC) next
        rw [← e] at hy
        exact ⟨y, mem_foldl_visit_of_mem l1 _ hy, hk⟩
    · exact ih _ hin hv hb hf

theorem mem_range_four {i : Nat} : i ∈ List.range 4 ↔ i < 4 := List.mem_range

theorem expand_length_le (field : Grid) (seen : Seen) (endR endC : Int) (n : Node)
    (next : List Node) :
    (expand field seen endR endC n next).length ≤ next.length + 4 := by
  have step : ∀ nx i, (visitNeighbour field seen endR endC n nx i).length
      ≤ nx.length + 1 := by
    intro nx i
    rcases visitNeighbour_cases field seen endR endC n nx i with ⟨e, _⟩ | ⟨e, _⟩
    · rw [e]; omega
    · rw [e]; exact setInsert_length_le _ _
  have e : expand field seen endR endC n next =
      visitNeighbour field seen endR endC n
        (visitNeighbour field seen endR endC n
          (visitNeighbour field seen endR endC n
            (visitNeighbour field seen endR endC n next 0) 1) 2) 3 := rfl
  rw [e]
  have a0 := step next 0
  have a1 := step (visitNeighbour field seen endR endC n next 0) 1
  have a2 := step (visitNeighbour field seen endR endC n
    (visitNeighbour field seen endR endC n next 0) 1) 2
  have a3 := step (visitNeighbour field seen endR endC n
    (visitNeighbour field seen endR endC n
      (visitNeighbour field seen endR endC n next 0) 1) 2) 3
  omega

theorem loopBody_cases (endR endC : Int) (s : State) (n : Node) (rest : List Node) :
    ((seenFind (hash n.r n.c) s.seen).isSome = true ∧
      loopBody endR endC s n rest = (discardState s rest, false)) ∨
    (seenFind (hash n.r n.c) s.seen = none ∧ getDist n.r n.c endR endC = 0 ∧
      loopBody endR endC s n rest = (goalState s n rest, true)) ∨
    (seenFind (hash n.r n.c) s.seen = none ∧ getDist n.r n.c endR endC ≠ 0 ∧
      loopBody endR endC s n rest = (expandState endR endC s n rest, false)) := by
  unfold loopBody
  cases hf : seenFind (hash n.r n.c) s.seen with
  | some x => left; simp [discardState]
  | none =>
    right
    by_cases hg : getDist n.r n.c endR endC = 0
    · left; simp [hg, goalState, seenInsert_of_none hf]
    · right; simp [hg, expandState, seenInsert_of_none hf]

theorem NodeOK.mono {field0 : Grid} {sR sC eR eC : Int} {seen seen1 : Seen} {x : Node}
    (hsub : ∀ e ∈ seen, e ∈ seen1) (h : NodeOK field0 sR sC eR eC seen x) :
    NodeOK field0 sR sC eR eC seen1 x := by
  refine ⟨h.valid, h.unblocked, h.heur, h.prio, h.walk, ?_⟩
  rcases h.parent with hp | ⟨p, hp, rest⟩
  · exact Or.inl hp
  · exact Or.inr ⟨p, hsub _ hp, rest⟩

theorem nextNode_r (n : Node) (a b eR eC : Int) : (nextNode n a b eR eC).r = a := rfl

theorem nextNode_c (n : Node) (a b eR eC : Int) : (nextNode n a b eR eC).c = b := rfl

theorem nextNode_heuristic (n : Node) (a b eR eC : Int) :
    (nextNode n a b eR eC).heuristic = getDist a b eR eC := rfl

theorem nextNode_dist (n : Node) (a b eR eC : Int) :
    (nextNode n a b eR eC).dist = 1 + n.dist := rfl

theorem nextNode_priority (n : Node) (a b eR eC : Int) :
    (nextNode n a b eR eC).priority = getDist a b eR eC + (1 + n.dist) := rfl

theorem nextNode_fromR (n : Node) (a b eR eC : Int) :
    (nextNode n a b eR eC).fromR = n.r := rfl

theorem nextNode_fromC (n : Node) (a b eR eC : Int) :
    (nextNode n a b eR eC).fromC = n.c := rfl

theorem nextNode_ok {field0 : Grid} {sR sC eR eC : Int} {seen seen1 : Seen} {n : Node}
    (hn : NodeOK field0 sR sC eR eC seen n) (hmem : (hash n.r n.c, n) ∈ seen1)
    (hng : ¬ (n.r = eR ∧ n.c = eC)) {a b : Int} (hadj : Adj (n.r, n.c) (a, b))
    (hv : isValid a b = true) (hb : field0 a b ≠ '@') :
    NodeOK field0 sR sC eR eC seen1 (nextNode n a b eR eC) := by
  refine ⟨hv, hb, rfl, ?_, ?_, ?_⟩
  · rw [nextNode_priority, nextNode_dist, nextNode_heuristic]; omega
  · rw [nextNode_dist, add_comm]
    exact Walk.snoc hn.walk hadj ⟨hv, hb⟩
  · right
    refine ⟨n, hmem, rfl, rfl, ?_, hadj, hng⟩
    rw [nextNode_dist]; omega

/-- Every cell that a path from the start reaches is finalized already, or
the Frontier holds a node whose priority is at most the length of the path
plus the heuristic of the cell. -/
theorem Inv.walk_covered {field0 : Grid} {sR sC eR eC : Int} {s : State}
    (hI : Inv field0 sR sC eR eC s) (hnf : s.found = false) {v : Int × Int} {j : Int}
    (w : Walk field0 (sR, sC) v j) :
    (seenFind (hash v.1 v.2) s.seen).isSome = true ∨
      ∃ y ∈ s.next, y.priority ≤ j + getDist v.1 v.2 eR eC := by
  induction w with
  | nil _ =>
    rcases hI.start_cover with h | ⟨y, hy, hr, hc, hd⟩
    · exact Or.inl h
    · right
      refine ⟨y, hy, ?_⟩
      have hok := hI.next_ok y hy
      rw [hok.prio, hok.heur, hr, hc, hd]
  | @snoc u v k wu hadj hfree ih =>
    rcases ih with h | ⟨y, hy, hp⟩
    · obtain ⟨x, hx⟩ := Option.isSome_iff_exists.1 h
      have hmem := seenFind_some_mem hx
      have hkey := hI.seen_key _ _ hmem
      have hok := hI.seen_ok _ _ hmem
      have hcell := hash_inj wu.free.1 hok.valid hkey
      have hdx : x.dist ≤ k := by
        apply hI.optimal _ _ hmem
        rw [← hcell.1, ← hcell.2]; exact wu
      have hng : ¬ (x.r = eR ∧ x.c = eC) := by
        rintro ⟨e1, e2⟩
        have : (seenFind (hash eR eC) s.seen).isSome = true := by
          rw [← e1, ← e2, ← hkey]; exact seenFind_isSome_of_mem hmem
        rw [← hI.found_iff, hnf] at this
        exact Bool.noConfusion this
      have hadj1 : Adj (x.r, x.c) v := by
        rw [← hcell.1, ← hcell.2]; exact hadj
      rcases hI.cover _ _ hmem hng v hadj1 hfree with hs | ⟨y, hy, hr, hc, hd⟩
      · exact Or.inl hs
      · right
        refine ⟨y, hy, ?_⟩
        have hoky := hI.next_ok y hy
        rw [hoky.prio, hoky.heur, hr, hc]; omega
    · right
      refine ⟨y, hy, ?_⟩
      have := getDist_adj hadj eR eC
      omega

/-- The node at the head of the Frontier, when its cell is not finalized yet,
carries the length of a shortest path to its cell. -/
theorem Inv.head_optimal {field0 : Grid} {sR sC eR eC : Int} {s : State}
    (hI : Inv field0 sR sC eR eC s) (hnf : s.found = false) {n : Node}
    {rest : List Node} (hnext : s.next = n :: rest)
    (hf : seenFind (hash n.r n.c) s.seen = none) :
    ∀ j, Walk field0 (sR, sC) (n.r, n.c) j → n.dist ≤ j := by
  intro j w
  have hsorted := hI.sorted
  rw [hnext] at hsorted
  unfold SortedF at hsorted
  rw [List.pairwise_cons] at hsorted
  have hokn := hI.next_ok n (by rw [hnext]; simp)
  rcases hI.walk_covered hnf w with h | ⟨y, hy, hp⟩
  · simp only at h
    rw [hf] at h; exact Bool.noConfusion h
  · simp only at hp
    have hle : n.priority ≤ y.priority := by
      rw [hnext] at hy
      rcases List.mem_cons.1 hy with e | hin
      · rw [e]
      · exact Node.lt_priority_le (hsorted.1 y hin)
    rw [hokn.prio, hokn.heur] at hle
    omega

theorem mem_append_single {e : Int × Node} {m : Seen} {k : Int} {n : Node}
    (h : e ∈ m ++ [(k, n)]) : e ∈ m ∨ e = (k, n) := by
  rcases List.mem_append.1 h with h | h
  · exact Or.inl h
  · exact Or.inr (by simpa using h)

theorem Inv.core_init {field0 : Grid} {sR sC eR eC : Int} (hs : Free field0 sR sC)
    (_hg : Free field0 eR eC) (_hne : ¬ (sR = eR ∧ sC = eC)) :
    Inv field0 sR sC eR eC (initState field0 sR sC eR eC) := by
  have hnext : (initState field0 sR sC eR eC).next
      = [Node.new sR sC (getDist sR sC eR eC) 0] := rfl
  have hseen : (initState field0 sR sC eR eC).seen = [] := rfl
  have hok : NodeOK field0 sR sC eR eC [] (Node.new sR sC (getDist sR sC eR eC) 0) := by
    refine ⟨hs.1, hs.2, rfl, ?_, Walk.nil hs, Or.inl ⟨rfl, rfl, rfl, rfl, rfl⟩⟩
    simp [Node.new]
  refine ⟨?_, hs, ?_, ?_, ?_, ?_, ?_, ?_, ?_, ?_, ?_, ?_, ?_⟩
  · intro r c
    simp only [initState, setCell]
    by_cases h1 : r = eR ∧ c = eC
    · simp only [h1, and_self, if_true]
      constructor
      · intro h; exact absurd h (by decide)
      · intro h; exact absurd h _hg.2
    · simp only [h1, if_false]
      by_cases h2 : r = sR ∧ c = sC
      · simp only [h2, and_self, if_true]
        constructor
        · intro h; exact absurd h (by decide)
        · intro h; exact absurd h hs.2
      · simp only [h2, if_false]
  · intro k x h; rw [hseen] at h; simp at h
  · rw [hseen]; simp
  · intro k x h; rw [hseen] at h; simp at h
  · intro y hy
    rw [hnext] at hy
    have : y = Node.new sR sC (getDist sR sC eR eC) 0 := by simpa using hy
    rw [this, hseen]; exact hok
  · rw [hnext]; simp [SortedF]
  · intro k x h; rw [hseen] at h; simp at h
  · intro k x h; rw [hseen] at h; simp at h
  · right
    exact ⟨Node.new sR sC (getDist sR sC eR eC) 0, by rw [hnext]; simp, rfl, rfl, rfl⟩
  · rw [hseen]; simp [initState, seenFind]
  · intro k x h; rw [hseen] at h; simp at h
  · intro y hy
    rw [hnext] at hy
    have : y = Node.new sR sC (getDist sR sC eR eC) 0 := by simpa using hy
    rw [this, hseen]; simp [Node.new]

theorem Inv.core_discard_step {field0 : Grid} {sR sC eR eC : Int} {s : State} {n : Node}
    {rest : List Node} (hI : Inv field0 sR sC eR eC s) (hnext : s.next = n :: rest)
    (hf : (seenFind (hash n.r n.c) s.seen).isSome = true) :
    Inv field0 sR sC eR eC (discardState s rest) := by
  have hsub : ∀ y ∈ rest, y ∈ s.next := fun y hy => by
    rw [hnext]; exact List.mem_cons_of_mem _ hy
  have hsorted := hI.sorted
  rw [hnext] at hsorted
  refine ⟨hI.blocked, hI.cur_free, hI.seen_key, hI.seen_nodup, hI.seen_ok,
    fun y hy => hI.next_ok y (hsub y hy), (List.pairwise_cons.1 hsorted).2, hI.optimal,
    ?_, ?_, hI.found_iff, hI.seen_bound, fun y hy => hI.next_bound y (hsub y hy)⟩
  · intro k u hu hng v hadj hfree
    rcases hI.cover k u hu hng v hadj hfree with h | ⟨y, hy, hr, hc, hd⟩
    · exact Or.inl h
    · rw [hnext] at hy
      rcases List.mem_cons.1 hy with e | hin
      · left
        subst e
        show (seenFind (hash v.1 v.2) s.seen).isSome = true
        rw [← hr, ← hc]; exact hf
      · exact Or.inr ⟨y, hin, hr, hc, hd⟩
  · rcases hI.start_cover with h | ⟨y, hy, hr, hc, hd⟩
    · exact Or.inl h
    · rw [hnext] at hy
      rcases List.mem_cons.1 hy with e | hin
      · left
        subst e
        show (seenFind (hash sR sC) s.seen).isSome = true
        rw [← hr, ← hc]; exact hf
      · exact Or.inr ⟨y, hin, hr, hc, hd⟩

/-- The parts of the invariant that concern the Visited Table alone, after
the head `n` of the Frontier is finalized. -/
theorem Inv.finalize_seen {field0 : Grid} {sR sC eR eC : Int} {s : State} {n : Node}
    {rest : List Node} (hI : Inv field0 sR sC eR eC s) (hnf : s.found = false)
    (hnext : s.next = n :: rest) (hf : seenFind (hash n.r n.c) s.seen = none) :
    (∀ k x, (k, x) ∈ s.seen ++ [(hash n.r n.c, n)] → k = hash x.r x.c) ∧
    ((s.seen ++ [(hash n.r n.c, n)]).map Prod.fst).Nodup ∧
    (∀ k x, (k, x) ∈ s.seen ++ [(hash n.r n.c, n)] →
      NodeOK field0 sR sC eR eC (s.seen ++ [(hash n.r n.c, n)]) x) ∧
    (∀ k x, (k, x) ∈ s.seen ++ [(hash n.r n.c, n)] →
      ∀ j, Walk field0 (sR, sC) (x.r, x.c) j → x.dist ≤ j) ∧
    (∀ k x, (k, x) ∈ s.seen ++ [(hash n.r n.c, n)] →
      x.dist + 1 ≤ (s.seen ++ [(hash n.r n.c, n)]).length) := by
  have hokn := hI.next_ok n (by rw [hnext]; simp)
  have hsub : ∀ e ∈ s.seen, e ∈ s.seen ++ [(hash n.r n.c, n)] :=
    fun e he => List.mem_append_left _ he
  refine ⟨?_, ?_, ?_, ?_, ?_⟩
  · intro k x h
    rcases mem_append_single h with h | h
    · exact hI.seen_key k x h
    · injection h with e1 e2; rw [e1, e2]
  · rw [List.map_append, List.nodup_append]
    refine ⟨hI.seen_nodup, by simp, ?_⟩
    intro a ha hb
    have : a = hash n.r n.c := by simpa using hb
    rw [this] at ha
    exact (seenFind_none_iff.1 hf) ha
  · intro k x h
    rcases mem_append_single h with h | h
    · exact (hI.seen_ok k x h).mono hsub
    · injection h with e1 e2; rw [e2]; exact hokn.mono hsub
  · intro k x h
    rcases mem_append_single h with h | h
    · exact hI.optimal k x h
    · injection h with e1 e2; rw [e2]; exact hI.head_optimal hnf hnext hf
  · intro k x h
    rw [List.length_append, List.length_singleton]
    rcases mem_append_single h with h | h
    · have := hI.seen_bound k x h; push_cast; omega
    · injection h with e1 e2
      have := hI.next_bound n (by rw [hnext]; simp)
      rw [e2]; push_cast; omega

theorem cover_step {seen : Seen} {n : Node} {rest next1 : List Node}
    (hsub : ∀ y ∈ rest, y ∈ next1) {a b : Int} {P : Node → Prop}
    (h : (seenFind (hash a b) seen).isSome = true ∨
      ∃ y ∈ n :: rest, y.r = a ∧ y.c = b ∧ P y) :
    (seenFind (hash a b) (seen ++ [(hash n.r n.c, n)])).isSome = true ∨
      ∃ y ∈ next1, y.r = a ∧ y.c = b ∧ P y := by
  rcases h with h | ⟨y, hy, hr, hc, hp⟩
  · exact Or.inl (seenFind_append_isSome h)
  · rcases List.mem_cons.1 hy with e | hin
    · left
      subst e
      rw [← hr, ← hc]; exact seenFind_append_self _ _ _
    · exact Or.inr ⟨y, hsub y hin, hr, hc, hp⟩

theorem Inv.core_goal_step {field0 : Grid} {sR sC eR eC : Int} {s : State} {n : Node}
    {rest : List Node} (hI : Inv field0 sR sC eR eC s) (hnf : s.found = false)
    (hnext : s.next = n :: rest) (hf : seenFind (hash n.r n.c) s.seen = none)
    (hg : getDist n.r n.c eR eC = 0) :
    Inv field0 sR sC eR eC (goalState s n rest) := by
  obtain ⟨hkey, hnd, hok, hopt, hbd⟩ := hI.finalize_seen hnf hnext hf
  have hsub : ∀ y ∈ rest, y ∈ s.next := fun y hy => by
    rw [hnext]; exact List.mem_cons_of_mem _ hy
  have hsubs : ∀ e ∈ s.seen, e ∈ s.seen ++ [(hash n.r n.c, n)] :=
    fun e he => List.mem_append_left _ he
  have hsorted := hI.sorted
  rw [hnext] at hsorted
  have hcell := getDist_eq_zero.1 hg
  refine ⟨hI.blocked, hI.cur_free, hkey, hnd, hok,
    fun y hy => (hI.next_ok y (hsub y hy)).mono hsubs,
    (List.pairwise_cons.1 hsorted).2, hopt, ?_, ?_, ?_, hbd, ?_⟩
  · intro k u hu hng v hadj hfree
    rcases mem_append_single hu with hu | hu
    · have := hI.cover k u hu hng v hadj hfree
      rw [hnext] at this
      exact cover_step (fun y hy => hy) this
    · injection hu with e1 e2
      rw [e2] at hng; exact absurd hcell hng
  · have := hI.start_cover
    rw [hnext] at this
    exact cover_step (P := fun y => y.dist = 0) (fun y hy => hy) this
  · constructor
    · intro _
      show (seenFind (hash eR eC) (s.seen ++ [(hash n.r n.c, n)])).isSome = true
      rw [← hcell.1, ← hcell.2]; exact seenFind_append_self _ _ _
    · intro _; rfl
  · intro y hy
    have := hI.next_bound y (hsub y hy)
    show y.dist ≤ ((s.seen ++ [(hash n.r n.c, n)]).length : Int)
    rw [List.length_append, List.length_singleton]; push_cast; omega

theorem Inv.core_expand_step {field0 : Grid} {sR sC eR eC : Int} {s : State} {n : Node}
    {rest : List Node} (hI : Inv field0 sR sC eR eC s) (hgv : isValid eR eC = true)
    (hnf : s.found = false)
    (hnext : s.next = n :: rest) (hf : seenFind (hash n.r n.c) s.seen = none)
    (hg : getDist n.r n.c eR eC ≠ 0) :
    Inv field0 sR sC eR eC (expandState eR eC s n rest) := by
  obtain ⟨hkey, hnd, hok, hopt, hbd⟩ := hI.finalize_seen hnf hnext hf
  have hokn := hI.next_ok n (by rw [hnext]; simp)
  have hsub : ∀ y ∈ rest, y ∈ s.next := fun y hy => by
    rw [hnext]; exact List.mem_cons_of_mem _ hy
  have hsubs : ∀ e ∈ s.seen, e ∈ s.seen ++ [(hash n.r n.c, n)] :=
    fun e he => List.mem_append_left _ he
  have hsorted := hI.sorted
  rw [hnext] at hsorted
  have hng : ¬ (n.r = eR ∧ n.c = eC) := fun h => hg (getDist_eq_zero.2 h)
  have hnmem : (hash n.r n.c, n) ∈ s.seen ++ [(hash n.r n.c, n)] := by simp
  have hsubn : ∀ y ∈ rest,
      y ∈ expand s.field (s.seen ++ [(hash n.r n.c, n)]) eR eC n rest :=
    fun y hy => mem_foldl_visit_of_mem _ _ hy
  have hnok : ∀ y ∈ expand s.field (s.seen ++ [(hash n.r n.c, n)]) eR eC n rest,
      NodeOK field0 sR sC eR eC (s.seen ++ [(hash n.r n.c, n)]) y ∧
      y.dist ≤ ((s.seen ++ [(hash n.r n.c, n)]).length : Int) := by
    unfold expand
    apply foldl_visit_induct
      (fun nx => ∀ y ∈ nx, NodeOK field0 sR sC eR eC (s.seen ++ [(hash n.r n.c, n)]) y ∧
        y.dist ≤ ((s.seen ++ [(hash n.r n.c, n)]).length : Int))
    · intro y hy
      refine ⟨(hI.next_ok y (hsub y hy)).mono hsubs, ?_⟩
      have := hI.next_bound y (hsub y hy)
      rw [List.length_append, List.length_singleton]; push_cast; omega
    · intro nx i hi hp y hy
      rcases visitNeighbour_cases s.field (s.seen ++ [(hash n.r n.c, n)]) eR eC n nx i
        with ⟨e, _⟩ | ⟨e, hv, hb, _⟩
      · rw [e] at hy; exact hp y hy
      · rw [e] at hy
        rcases mem_setInsert hy with e1 | hin
        · rw [e1]
          refine ⟨nextNode_ok hokn hnmem hng ?_ hv ?_, ?_⟩
          · exact (adj_iff_dir _ _ _).2 ⟨i, List.mem_range.1 hi, rfl⟩
          · intro h; exact hb ((hI.blocked _ _).2 h)
          · have := hI.next_bound n (by rw [hnext]; simp)
            rw [nextNode_dist, List.length_append, List.length_singleton]
            push_cast; omega
        · exact hp y hin
  refine ⟨?_, ⟨hokn.valid, hokn.unblocked⟩, hkey, hnd, hok, fun y hy => (hnok y hy).1,
    ?_, hopt, ?_, ?_, ?_, hbd, fun y hy => (hnok y hy).2⟩
  · intro r c
    show setCell (setCell s.field s.curR s.curC '#') n.r n.c '*' r c = '@' ↔ _
    simp only [setCell]
    by_cases h1 : r = n.r ∧ c = n.c
    · simp only [h1, and_self, if_true]
      constructor
      · intro h; exact absurd h (by decide)
      · intro h; exact absurd h hokn.unblocked
    · simp only [h1, if_false]
      by_cases h2 : r = s.curR ∧ c = s.curC
      · simp only [h2, and_self, if_true]
        constructor
        · intro h; exact absurd h (by decide)
        · intro h; exact absurd h hI.cur_free.2
      · simp only [h2, if_false]
        exact hI.blocked r c
  · show SortedF (expand s.field (s.seen ++ [(hash n.r n.c, n)]) eR eC n rest)
    unfold expand
    apply foldl_visit_induct SortedF
    · exact (List.pairwise_cons.1 hsorted).2
    · intro nx i _ hp
      rcases visitNeighbour_cases s.field (s.seen ++ [(hash n.r n.c, n)]) eR eC n nx i
        with ⟨e, _⟩ | ⟨e, _⟩
      · rw [e]; exact hp
      · rw [e]; exact setInsert_sorted _ _ hp
  · intro k u hu hng1 v hadj hfree
    rcases mem_append_single hu with hu | hu
    · have := hI.cover k u hu hng1 v hadj hfree
      rw [hnext] at this
      exact cover_step hsubn this
    · injection hu with e1 e2
      subst e2
      cases hfv : seenFind (hash v.1 v.2) (s.seen ++ [(hash u.r u.c, u)]) with
      | some x =>
        left
        show (seenFind (hash v.1 v.2) (s.seen ++ [(hash u.r u.c, u)])).isSome = true
        rw [hfv]; rfl
      | none =>
        right
        obtain ⟨i, hi, hvi⟩ := (adj_iff_dir _ _ _).1 hadj
        have e1 : v.1 = u.r + DR.getD i 0 := congrArg Prod.fst hvi
        have e2 : v.2 = u.c + DC.getD i 0 := congrArg Prod.snd hvi
        rw [e1, e2] at hfv
        have hfree1 := hfree
        rw [e1, e2] at hfree1
        have hb : s.field (u.r + DR.getD i 0) (u.c + DC.getD i 0) ≠ '@' :=
          fun h => hfree1.2 ((hI.blocked _ _).1 h)
        obtain ⟨y, hy, hk⟩ := foldl_visit_key (List.range 4) rest (List.mem_range.2 hi)
          hfree1.1 hb hfv
        refine ⟨y, hy, ?_, ?_, ?_⟩
        · rw [e1]; exact hk.2.2.1
        · rw [e2]; exact hk.2.2.2
        · have hy1 := (hnok y hy).1
          have hp := hk.1
          have hh := hk.2.1
          rw [nextNode_priority, hy1.prio] at hp
          rw [nextNode_heuristic] at hh
          omega
  · have := hI.start_cover
    rw [hnext] at this
    exact cover_step (P := fun y => y.dist = 0) hsubn this
  · constructor
    · intro h
      have : s.found = true := h
      rw [hnf] at this; exact Bool.noConfusion this
    · intro h
      exfalso
      have h1 : (seenFind (hash eR eC) (s.seen ++ [(hash n.r n.c, n)])).isSome = true := h
      rw [seenFind_append] at h1
      have hold : seenFind (hash eR eC) s.seen = none := by
        cases hq : seenFind (hash eR eC) s.seen with
        | none => rfl
        | some x =>
          have : s.found = true := hI.found_iff.2 (by rw [hq]; rfl)
          rw [hnf] at this; exact Bool.noConfusion this
      rw [hold] at h1
      by_cases hh : hash n.r n.c = hash eR eC
      · exact hng (hash_inj hokn.valid hgv hh)
      · simp [hh] at h1

theorem mem_expand {field : Grid} {seen : Seen} {eR eC : Int} {n : Node}
    {rest : List Node} {y : Node} (h : y ∈ expand field seen eR eC n rest) :
    y ∈ rest ∨ ∃ i, i < 4 ∧
      y = nextNode n (n.r + DR.getD i 0) (n.c + DC.getD i 0) eR eC ∧
      isValid (n.r + DR.getD i 0) (n.c + DC.getD i 0) = true ∧
      field (n.r + DR.getD i 0) (n.c + DC.getD i 0) ≠ '@' ∧
      seenFind (hash (n.r + DR.getD i 0) (n.c + DC.getD i 0)) seen = none := by
  revert y
  unfold expand
  apply foldl_visit_induct (fun nx => ∀ y, y ∈ nx → y ∈ rest ∨ ∃ i, i < 4 ∧
      y = nextNode n (n.r + DR.getD i 0) (n.c + DC.getD i 0) eR eC ∧
      isValid (n.r + DR.getD i 0) (n.c + DC.getD i 0) = true ∧
      field (n.r + DR.getD i 0) (n.c + DC.getD i 0) ≠ '@' ∧
      seenFind (hash (n.r + DR.getD i 0) (n.c + DC.getD i 0)) seen = none)
  · intro y hy; exact Or.inl hy
  · intro nx i hi hp y hy
    rcases visitNeighbour_cases field seen eR eC n nx i with ⟨e, _⟩ | ⟨e, hv, hb, hf⟩
    · rw [e] at hy; exact hp y hy
    · rw [e] at hy
      rcases mem_setInsert hy with e1 | hin
      · exact Or.inr ⟨i, List.mem_range.1 hi, e1, hv, hb, hf⟩
      · exact hp y hin

theorem MonoInv.mono_init {field0 : Grid} {sR sC eR eC : Int}
    (hne : ¬ (sR = eR ∧ sC = eC)) :
    MonoInv sR sC eR eC (initState field0 sR sC eR eC) := by
  have hnext : (initState field0 sR sC eR eC).next
      = [Node.new sR sC (getDist sR sC eR eC) 0] := rfl
  have hseen : (initState field0 sR sC eR eC).seen = [] := rfl
  refine ⟨by rw [hseen]; simp, ?_, ?_, ?_, fun _ => Or.inl ⟨hseen, rfl, rfl⟩⟩
  · intro k x h; rw [hseen] at h; simp at h
  · intro _ y hy hr hc
    rw [hnext] at hy
    have : y = Node.new sR sC (getDist sR sC eR eC) 0 := by simpa using hy
    rw [this] at hr hc
    exact absurd ⟨hr, hc⟩ hne
  · intro h
    have : (initState field0 sR sC eR eC).found = false := rfl
    rw [this] at h; exact Bool.noConfusion h

theorem MonoInv.mono_discard_step {sR sC eR eC : Int} {s : State} {n : Node}
    {rest : List Node} (hM : MonoInv sR sC eR eC s) (hnext : s.next = n :: rest) :
    MonoInv sR sC eR eC (discardState s rest) := by
  have hsub : ∀ y ∈ rest, y ∈ s.next := fun y hy => by
    rw [hnext]; exact List.mem_cons_of_mem _ hy
  refine ⟨hM.mono_seen, fun k x hx y hy => hM.mono_next k x hx y (hsub y hy), ?_,
    hM.cur_found, hM.cur_last⟩
  intro hnf y hy hr hc
  obtain ⟨h1, h2, h3⟩ := hM.goal_next hnf y (hsub y hy) hr hc
  exact ⟨h1, h2, fun z hz => h3 z (hsub z hz)⟩

theorem mono_seen_append {s : State} {sR sC eR eC : Int} {n : Node} {rest : List Node}
    (hM : MonoInv sR sC eR eC s) (hnext : s.next = n :: rest) :
    (s.seen ++ [(hash n.r n.c, n)]).Pairwise (fun a b => a.2.priority ≤ b.2.priority) := by
  rw [List.pairwise_append]
  refine ⟨hM.mono_seen, by simp, ?_⟩
  intro a ha b hb
  have : b = (hash n.r n.c, n) := by simpa using hb
  rw [this]
  exact hM.mono_next a.1 a.2 ha n (by rw [hnext]; simp)

theorem MonoInv.mono_goal_step {field0 : Grid} {sR sC eR eC : Int} {s : State} {n : Node}
    {rest : List Node} (hI : Inv field0 sR sC eR eC s) (hM : MonoInv sR sC eR eC s)
    (hnf : s.found = false) (hnext : s.next = n :: rest)
    (hg : getDist n.r n.c eR eC = 0) :
    MonoInv sR sC eR eC (goalState s n rest) := by
  have hsub : ∀ y ∈ rest, y ∈ s.next := fun y hy => by
    rw [hnext]; exact List.mem_cons_of_mem _ hy
  have hsorted := hI.sorted
  rw [hnext] at hsorted
  have hcell := getDist_eq_zero.1 hg
  refine ⟨mono_seen_append hM hnext, ?_, ?_, ?_, ?_⟩
  · intro k x hx y hy
    rcases mem_append_single hx with hx | hx
    · exact hM.mono_next k x hx y (hsub y hy)
    · injection hx with e1 e2
      rw [e2]
      exact Node.lt_priority_le ((List.pairwise_cons.1 hsorted).1 y hy)
  · intro h
    have : (goalState s n rest).found = true := rfl
    rw [this] at h; exact Bool.noConfusion h
  · intro _
    refine ⟨hash n.r n.c, n, ?_, hcell.1, hcell.2, ?_⟩
    · show (s.seen ++ [(hash n.r n.c, n)]).getLast? = _
      exact List.getLast?_concat _
    · have := hM.goal_next hnf n (by rw [hnext]; simp) hcell.1 hcell.2
      exact ⟨this.1, this.2.1⟩
  · intro h
    have : (goalState s n rest).found = true := rfl
    rw [this] at h; exact Bool.noConfusion h

theorem MonoInv.mono_expand_step {field0 : Grid} {sR sC eR eC : Int} {s : State} {n : Node}
    {rest : List Node} (hI : Inv field0 sR sC eR eC s) (hM : MonoInv sR sC eR eC s)
    (hnf : s.found = false) (hnext : s.next = n :: rest)
    (hg : getDist n.r n.c eR eC ≠ 0) :
    MonoInv sR sC eR eC (expandState eR eC s n rest) := by
  have hsub : ∀ y ∈ rest, y ∈ s.next := fun y hy => by
    rw [hnext]; exact List.mem_cons_of_mem _ hy
  have hsorted := hI.sorted
  rw [hnext] at hsorted
  have hokn := hI.next_ok n (by rw [hnext]; simp)
  have hnle : ∀ y ∈ expand s.field (s.seen ++ [(hash n.r n.c, n)]) eR eC n rest,
      n.priority ≤ y.priority := by
    intro y hy
    rcases mem_expand hy with hin | ⟨i, hi, e, _, _, _⟩
    · exact Node.lt_priority_le ((List.pairwise_cons.1 hsorted).1 y hin)
    · have hadj : Adj (n.r, n.c) (n.r + DR.getD i 0, n.c + DC.getD i 0) :=
        (adj_iff_dir _ _ _).2 ⟨i, hi, rfl⟩
      have := getDist_adj hadj eR eC
      simp only at this
      rw [e, nextNode_priority, hokn.prio, hokn.heur]
      omega
  have hnogoal : ∀ y ∈ rest, ¬ (y.r = eR ∧ y.c = eC) := by
    rintro y hy ⟨hr, hc⟩
    obtain ⟨_, _, h3⟩ := hM.goal_next hnf y (hsub y hy) hr hc
    have h4 := h3 n (by rw [hnext]; simp)
    have hlt := (Node.lt_iff n y).1 ((List.pairwise_cons.1 hsorted).1 y hy)
    have hoky := hI.next_ok y (hsub y hy)
    have hy0 : y.heuristic = 0 := by
      rw [hoky.heur, hr, hc]; exact getDist_eq_zero.2 ⟨rfl, rfl⟩
    have hn0 := getDist_nonneg n.r n.c eR eC
    have hnh := hokn.heur
    omega
  refine ⟨mono_seen_append hM hnext, ?_, ?_, ?_, ?_⟩
  · intro k x hx y hy
    have hny := hnle y hy
    rcases mem_append_single hx with hx | hx
    · have := hM.mono_next k x hx n (by rw [hnext]; simp)
      omega
    · injection hx with e1 e2
      rw [e2]; exact hny
  · intro _ y hy hr hc
    rcases mem_expand hy with hin | ⟨i, hi, e, _, _, _⟩
    · exact absurd ⟨hr, hc⟩ (hnogoal y hin)
    · refine ⟨by rw [e]; rfl, by rw [e]; rfl, ?_⟩
      intro z hz
      have hnz := hnle z hz
      have hadj : Adj (n.r, n.c) (n.r + DR.getD i 0, n.c + DC.getD i 0) :=
        (adj_iff_dir _ _ _).2 ⟨i, hi, rfl⟩
      have h1 := getDist_adj hadj eR eC
      simp only at h1
      rw [e, nextNode_r] at hr
      rw [e, nextNode_c] at hc
      have h0 : getDist (n.r + DR.getD i 0) (n.c + DC.getD i 0) eR eC = 0 :=
        getDist_eq_zero.2 ⟨hr, hc⟩
      rw [e, nextNode_priority, h0]
      rw [hokn.prio, hokn.heur] at hnz
      have hn0 := getDist_nonneg n.r n.c eR eC
      omega
  · intro h
    have : (expandState eR eC s n rest).found = s.found := rfl
    rw [this, hnf] at h; exact Bool.noConfusion h
  · intro _
    right
    refine ⟨hash n.r n.c, n, ?_, rfl, rfl⟩
    show (s.seen ++ [(hash n.r n.c, n)]).getLast? = _
    exact List.getLast?_concat _

theorem PaintInv.paint_init {field0 : Grid} {sR sC eR eC : Int}
    (hne : ¬ (sR = eR ∧ sC = eC)) (hgrid : ∀ r c, field0 r c ≠ '*') :
    PaintInv eR eC (initState field0 sR sC eR eC) := by
  refine ⟨?_, ?_, ?_, hne, ?_⟩
  · show setCell (setCell field0 sR sC '*') eR eC 'x' sR sC = '*'
    simp only [setCell]
    rw [if_neg hne]; simp
  · intro r c h
    have h1 : setCell (setCell field0 sR sC '*') eR eC 'x' r c = '*' := h
    simp only [setCell] at h1
    by_cases hg : r = eR ∧ c = eC
    · rw [if_pos hg] at h1; exact absurd h1 (by decide)
    · rw [if_neg hg] at h1
      by_cases hs : r = sR ∧ c = sC
      · exact hs
      · rw [if_neg hs] at h1; exact absurd h1 (hgrid r c)
  · show setCell (setCell field0 sR sC '*') eR eC 'x' eR eC = 'x'
    simp [setCell]
  · show List.Forall₂ ShowsCurrent [] (if false = true then _ else [])
    simp

theorem PaintInv.paint_discard_step {eR eC : Int} {s : State} {rest : List Node}
    (hP : PaintInv eR eC s) : PaintInv eR eC (discardState s rest) :=
  ⟨hP.cur_star, hP.star_only, hP.goal_x, hP.cur_ne_goal, hP.frames⟩

theorem PaintInv.paint_goal_step {eR eC : Int} {s : State} {n : Node} {rest : List Node}
    (hP : PaintInv eR eC s) (hnf : s.found = false) :
    PaintInv eR eC (goalState s n rest) := by
  refine ⟨hP.cur_star, hP.star_only, hP.goal_x, hP.cur_ne_goal, ?_⟩
  have h := hP.frames
  rw [hnf] at h
  show List.Forall₂ ShowsCurrent s.frames
    (if true = true then (s.seen ++ [(hash n.r n.c, n)]).dropLast else _)
  simpa using h

theorem PaintInv.paint_expand_step {eR eC : Int} {s : State} {n : Node} {rest : List Node}
    (hP : PaintInv eR eC s) (hnf : s.found = false)
    (hg : getDist n.r n.c eR eC ≠ 0) :
    PaintInv eR eC (expandState eR eC s n rest) := by
  have hng : ¬ (n.r = eR ∧ n.c = eC) := fun h => hg (getDist_eq_zero.2 h)
  have hstar : ∀ r c, setCell (setCell s.field s.curR s.curC '#') n.r n.c '*' r c = '*'
      ↔ (r = n.r ∧ c = n.c) := by
    intro r c
    simp only [setCell]
    by_cases h1 : r = n.r ∧ c = n.c
    · rw [if_pos h1]; simp [h1]
    · rw [if_neg h1]
      by_cases h2 : r = s.curR ∧ c = s.curC
      · rw [if_pos h2]
        constructor
        · intro h; exact absurd h (by decide)
        · intro h; exact absurd h h1
      · rw [if_neg h2]
        constructor
        · intro h; exact absurd (hP.star_only r c h) h2
        · intro h; exact absurd h h1
  refine ⟨(hstar n.r n.c).2 ⟨rfl, rfl⟩, fun r c h => (hstar r c).1 h, ?_, hng, ?_⟩
  · show setCell (setCell s.field s.curR s.curC '#') n.r n.c '*' eR eC = 'x'
    simp only [setCell]
    rw [if_neg (fun h => hng ⟨h.1.symm, h.2.symm⟩),
      if_neg (fun h => hP.cur_ne_goal ⟨h.1.symm, h.2.symm⟩)]
    exact hP.goal_x
  · have h := hP.frames
    rw [hnf] at h
    show List.Forall₂ ShowsCurrent
      (s.frames ++ [setCell (setCell s.field s.curR s.curC '#') n.r n.c '*'])
      (if s.found = true then (s.seen ++ [(hash n.r n.c, n)]).dropLast
        else s.seen ++ [(hash n.r n.c, n)])
    rw [hnf]
    simp only [Bool.false_eq_true, if_false] at h ⊢
    exact List.rel_append h (List.Forall₂.cons (fun r c => hstar r c) List.Forall₂.nil)

/-- With `found` unset at the loop head, the body leaves through `break`
exactly when it sets `found`. -/
theorem loopBody_found (eR eC : Int) {s : State} (n : Node) (rest : List Node)
    (hnf : s.found = false) :
    (loopBody eR eC s n rest).1.found = (loopBody eR eC s n rest).2 := by
  rcases loopBody_cases eR eC s n rest with ⟨_, e⟩ | ⟨_, _, e⟩ | ⟨_, _, e⟩
  · rw [e]; exact hnf
  · rw [e]; rfl
  · rw [e]; exact hnf

/-- A property that every pass through the body preserves holds when the loop
ends; and the loop ends with `found` set or with the Frontier empty. -/
theorem loop_induct (eR eC : Int) (Q : State → Prop)
    (hstep : ∀ s n rest, Q s → s.found = false → s.next = n :: rest →
      Q (loopBody eR eC s n rest).1) :
    ∀ (fuel : Nat) (s s1 : State), Q s → s.found = false →
      expansionLoop eR eC fuel s = some s1 →
      Q s1 ∧ (s1.found = false → s1.next = []) := by
  intro fuel
  induction fuel with
  | zero =>
    intro s s1 hq hnf h
    unfold expansionLoop at h
    cases hn : s.next with
    | nil =>
      rw [hn] at h
      simp only [Option.some.injEq] at h
      subst h; exact ⟨hq, fun _ => hn⟩
    | cons n rest => rw [hn] at h; simp at h
  | succ fuel ih =>
    intro s s1 hq hnf h
    unfold expansionLoop at h
    cases hn : s.next with
    | nil =>
      rw [hn] at h
      simp only [Option.some.injEq] at h
      subst h; exact ⟨hq, fun _ => hn⟩
    | cons n rest =>
      rw [hn] at h
      simp only at h
      have hq1 := hstep s n rest hq hnf hn
      have hfd := loopBody_found eR eC n rest hnf
      cases hb : loopBody eR eC s n rest with
      | mk s2 b =>
        rw [hb] at h hq1 hfd
        simp only at hq1 hfd
        cases b with
        | true =>
          simp only [Option.some.injEq] at h
          subst h
          exact ⟨hq1, fun hc => by rw [hfd] at hc; exact Bool.noConfusion hc⟩
        | false =>
          simp only at h
          exact ih s2 s1 hq1 hfd h

theorem Inv.core_body_step {field0 : Grid} {sR sC eR eC : Int} {s : State} {n : Node}
    {rest : List Node} (hgv : isValid eR eC = true) (hI : Inv field0 sR sC eR eC s)
    (hnf : s.found = false) (hnext : s.next = n :: rest) :
    Inv field0 sR sC eR eC (loopBody eR eC s n rest).1 := by
  rcases loopBody_cases eR eC s n rest with ⟨hf, e⟩ | ⟨hf, hg, e⟩ | ⟨hf, hg, e⟩
  · rw [e]; exact hI.core_discard_step hnext hf
  · rw [e]; exact hI.core_goal_step hnf hnext hf hg
  · rw [e]; exact hI.core_expand_step hgv hnf hnext hf hg

theorem MonoInv.mono_body_step {field0 : Grid} {sR sC eR eC : Int} {s : State} {n : Node}
    {rest : List Node} (hI : Inv field0 sR sC eR eC s) (hM : MonoInv sR sC eR eC s)
    (hnf : s.found = false) (hnext : s.next = n :: rest) :
    MonoInv sR sC eR eC (loopBody eR eC s n rest).1 := by
  rcases loopBody_cases eR eC s n rest with ⟨_, e⟩ | ⟨_, hg, e⟩ | ⟨_, hg, e⟩
  · rw [e]; exact hM.mono_discard_step hnext
  · rw [e]; exact hM.mono_goal_step hI hnf hnext hg
  · rw [e]; exact hM.mono_expand_step hI hnf hnext hg

theorem PaintInv.paint_body_step {eR eC : Int} {s : State} {n : Node} {rest : List Node}
    (hP : PaintInv eR eC s) (hnf : s.found = false) :
    PaintInv eR eC (loopBody eR eC s n rest).1 := by
  rcases loopBody_cases eR eC s n rest with ⟨_, e⟩ | ⟨_, _, e⟩ | ⟨_, hg, e⟩
  · rw [e]; exact hP.paint_discard_step
  · rw [e]; exact hP.paint_goal_step hnf
  · rw [e]; exact hP.paint_expand_step hnf hg

theorem Reach.inv {field0 : Grid} {sR sC eR eC : Int} (hs : Free field0 sR sC)
    (hg : Free field0 eR eC) (hne : ¬ (sR = eR ∧ sC = eC)) {s : State}
    (h : Reach field0 sR sC eR eC s) :
    Inv field0 sR sC eR eC s ∧ MonoInv sR sC eR eC s ∧ s.found = false := by
  induction h with
  | init => exact ⟨Inv.core_init hs hg hne, MonoInv.mono_init hne, rfl⟩
  | @step s n rest _ hnext hb ih =>
    obtain ⟨hI, hM, hnf⟩ := ih
    refine ⟨hI.core_body_step hg.1 hnf hnext, hM.mono_body_step hI hnf hnext, ?_⟩
    rw [loopBody_found eR eC n rest hnf]; exact hb

theorem Reach.paint {field0 : Grid} {sR sC eR eC : Int}
    (hne : ¬ (sR = eR ∧ sC = eC)) (hgrid : ∀ r c, field0 r c ≠ '*') {s : State}
    (h : Reach field0 sR sC eR eC s) : PaintInv eR eC s ∧ s.found = false := by
  induction h with
  | init => exact ⟨PaintInv.paint_init hne hgrid, rfl⟩
  | @step s n rest _ hnext hb ih =>
    obtain ⟨hP, hnf⟩ := ih
    refine ⟨hP.paint_body_step hnf, ?_⟩
    rw [loopBody_found eR eC n rest hnf]; exact hb

theorem Inv.seen_length_le {field0 : Grid} {sR sC eR eC : Int} {s : State}
    (hI : Inv field0 sR sC eR eC s) : s.seen.length ≤ 900 := by
  have h1 : (s.seen.map Prod.fst).toFinset ⊆ Finset.Ico (0 : Int) 900 := by
    intro k hk
    rw [List.mem_toFinset, List.mem_map] at hk
    obtain ⟨⟨k1, x⟩, hmem, hk1⟩ := hk
    have hkey := hI.seen_key _ _ hmem
    have hv := isValid_iff.1 (hI.seen_ok _ _ hmem).valid
    simp only at hk1
    rw [Finset.mem_Ico, ← hk1, hkey]
    simp only [hash, FSIZE]
    omega
  have h2 := Finset.card_le_card h1
  rw [List.toFinset_card_of_nodup hI.seen_nodup, Int.card_Ico] at h2
  simpa using h2

/-- The loop ends within `4 * (900 - |seen|) + |next|` passes. -/
theorem loop_terminates {field0 : Grid} {sR sC eR eC : Int}
    (hgv : isValid eR eC = true) :
    ∀ (fuel : Nat) (s : State), Inv field0 sR sC eR eC s → s.found = false →
      4 * (900 - s.seen.length) + s.next.length ≤ fuel →
      ∃ s1, expansionLoop eR eC fuel s = some s1 := by
  intro fuel
  induction fuel with
  | zero =>
    intro s _ _ hm
    have hn : s.next = [] := by
      cases h : s.next with
      | nil => rfl
      | cons a l => rw [h] at hm; simp at hm
    exact ⟨s, by unfold expansionLoop; rw [hn]⟩
  | succ fuel ih =>
    intro s hI hnf hm
    cases hn : s.next with
    | nil => exact ⟨s, by unfold expansionLoop; rw [hn]⟩
    | cons n rest =>
      have hI1 := hI.core_body_step hgv hnf hn
      have hlen := hI1.seen_length_le
      rw [hn] at hm
      simp only [List.length_cons] at hm
      unfold expansionLoop
      rw [hn]
      simp only
      rcases loopBody_cases eR eC s n rest with ⟨_, e⟩ | ⟨_, _, e⟩ | ⟨_, _, e⟩
      · rw [e] at hI1
        rw [e]
        simp only
        apply ih _ hI1 hnf
        show 4 * (900 - s.seen.length) + rest.length ≤ fuel
        omega
      · rw [e]; exact ⟨_, rfl⟩
      · rw [e] at hI1 hlen
        rw [e]
        simp only
        apply ih _ hI1 hnf
        have h1 : (expandState eR eC s n rest).seen.length = s.seen.length + 1 := by
          simp [expandState]
        have h2 : (expandState eR eC s n rest).next.length ≤ rest.length + 4 :=
          expand_length_le _ _ _ _ _ _
        have hlen1 : (expandState eR eC s n rest).seen.length ≤ 900 := hlen
        show 4 * (900 - (expandState eR eC s n rest).seen.length)
          + (expandState eR eC s n rest).next.length ≤ fuel
        omega

/-- The search ends, in a state that satisfies the invariant, and with the
Frontier empty unless `found` is set. -/
theorem search_spec {field0 : Grid} {sR sC eR eC : Int} (hs : Free field0 sR sC)
    (hg : Free field0 eR eC) (hne : ¬ (sR = eR ∧ sC = eC)) :
    ∃ s, search field0 sR sC eR eC = some s ∧ Inv field0 sR sC eR eC s ∧
      MonoInv sR sC eR eC s ∧ (s.found = false → s.next = []) := by
  have hI0 : Inv field0 sR sC eR eC (initState field0 sR sC eR eC) := Inv.core_init hs hg hne
  obtain ⟨s, hsome⟩ := loop_terminates hg.1 searchFuel _ hI0 rfl (by
    show 4 * (900 - 0) + 1 ≤ searchFuel
    decide)
  refine ⟨s, hsome, ?_⟩
  have := loop_induct eR eC
    (fun t => Inv field0 sR sC eR eC t ∧ MonoInv sR sC eR eC t)
    (fun t n rest hq hnf hn =>
      ⟨hq.1.core_body_step hg.1 hnf hn, hq.2.mono_body_step hq.1 hnf hn⟩)
    searchFuel _ s ⟨hI0, MonoInv.mono_init hne⟩ rfl hsome
  exact ⟨this.1.1, this.1.2, this.2⟩

theorem search_paint {field0 : Grid} {sR sC eR eC : Int}
    (hne : ¬ (sR = eR ∧ sC = eC)) (hgrid : ∀ r c, field0 r c ≠ '*') {s : State}
    (h : search field0 sR sC eR eC = some s) : PaintInv eR eC s :=
  (loop_induct eR eC (PaintInv eR eC)
    (fun _ _ _ hq hnf _ => hq.paint_body_step hnf)
    searchFuel _ s (PaintInv.paint_init hne hgrid) rfl h).1

theorem paintCells_nil (g : Grid) : paintCells g [] = g := by
  funext r c; simp [paintCells]

theorem paintCells_cons (g : Grid) (r c : Int) (cells : List (Int × Int)) :
    paintCells (setCell g r c '*') cells = paintCells g ((r, c) :: cells) := by
  funext i j
  simp only [paintCells, setCell, List.mem_cons, Prod.mk.injEq]
  by_cases h1 : (i, j) ∈ cells
  · simp [h1]
  · by_cases h2 : i = r ∧ j = c
    · simp [h2]
    · simp [h1, h2]

theorem markPath_sentinel (seen : Seen) (fuel : Nat) (g : Grid) (c : Int) :
    markPath seen fuel g (-1) c = some (g, []) := by
  unfold markPath; simp

theorem markPath_succ {seen : Seen} {fuel : Nat} {g : Grid} {r c : Int} {n : Node}
    (hr : r ≠ -1) (hf : seenFind (hash r c) seen = some n) :
    markPath seen (fuel + 1) g r c =
      match markPath seen fuel (setCell g r c '*') n.fromR n.fromC with
      | none => none
      | some (g1, cells) => some (g1, (r, c) :: cells) := by
  rw [markPath]
  simp only [hr, if_false, hf]

theorem Adj.symm {a b : Int × Int} (h : Adj a b) : Adj b a := by
  unfold Adj at *; omega

/-- From every finalized cell the walk along the parent links ends, at the
start, after as many moves as the `dist` of the cell; the cells it visits
form a path on the grid and, the first apart, none of them is the goal. -/
theorem Inv.chain {field0 : Grid} {sR sC eR eC : Int} {s : State}
    (hI : Inv field0 sR sC eR eC s) :
    ∀ (d : Nat) (k : Int) (x : Node), (k, x) ∈ s.seen → x.dist = (d : Int) →
      ∃ cells, (∀ fuel, d + 1 ≤ fuel → ∀ g,
          markPath s.seen fuel g x.r x.c = some (paintCells g cells, cells)) ∧
        PathFromTo field0 (x.r, x.c) (sR, sC) cells ∧ cells.length = d + 1 ∧
        (∀ q ∈ cells, q ≠ (x.r, x.c) → q ≠ (eR, eC)) := by
  intro d
  induction d with
  | zero =>
    intro k x hx hd
    have hok := hI.seen_ok k x hx
    have hkey := hI.seen_key k x hx
    have hfind : seenFind (hash x.r x.c) s.seen = some x := by
      rw [← hkey]; exact seenFind_of_mem_nodup hI.seen_nodup hx
    have hv := isValid_iff.1 hok.valid
    have hr : x.r ≠ -1 := by omega
    rcases hok.parent with ⟨h1, h2, h3, h4, _⟩ | ⟨p, hp, _, _, hpd, _, _⟩
    · refine ⟨[(x.r, x.c)], ?_, ?_, rfl, ?_⟩
      · intro fuel hfuel g
        obtain ⟨f, rfl⟩ : ∃ f, fuel = f + 1 := ⟨fuel - 1, by omega⟩
        rw [markPath_succ hr hfind, h1, markPath_sentinel]
        simp only
        rw [← paintCells_cons, paintCells_nil]
      · refine ⟨⟨?_, by simp⟩, by simp, by simp [h3, h4]⟩
        intro q hq
        have : q = (x.r, x.c) := by simpa using hq
        rw [this]; exact ⟨hok.valid, hok.unblocked⟩
      · intro q hq hne
        have : q = (x.r, x.c) := by simpa using hq
        exact absurd this hne
    · have := (hI.seen_ok _ _ hp).walk.nonneg
      omega
  | succ d ih =>
    intro k x hx hd
    have hok := hI.seen_ok k x hx
    have hkey := hI.seen_key k x hx
    have hfind : seenFind (hash x.r x.c) s.seen = some x := by
      rw [← hkey]; exact seenFind_of_mem_nodup hI.seen_nodup hx
    have hv := isValid_iff.1 hok.valid
    have hr : x.r ≠ -1 := by omega
    rcases hok.parent with ⟨_, _, _, _, h0⟩ | ⟨p, hp, hpr, hpc, hpd, hadj, hpg⟩
    · rw [h0] at hd; push_cast at hd; omega
    · have hpd1 : p.dist = (d : Int) := by rw [hpd] at hd; push_cast at hd; omega
      obtain ⟨cells, hmark, ⟨⟨hfree, hchain⟩, hhead, hlast⟩, hlen, havoid⟩ :=
        ih _ p hp hpd1
      refine ⟨(x.r, x.c) :: cells, ?_, ⟨⟨?_, ?_⟩, by simp, ?_⟩, by simp [hlen], ?_⟩
      · intro fuel hfuel g
        obtain ⟨f, rfl⟩ : ∃ f, fuel = f + 1 := ⟨fuel - 1, by omega⟩
        rw [markPath_succ hr hfind, ← hpr, ← hpc, hmark f (by omega)]
        simp only
        rw [paintCells_cons]
      · intro q hq
        rcases List.mem_cons.1 hq with e | hin
        · rw [e]; exact ⟨hok.valid, hok.unblocked⟩
        · exact hfree q hin
      · rw [List.chain'_cons']
        refine ⟨?_, hchain⟩
        intro y hy
        rw [hhead] at hy
        have : y = (p.r, p.c) := by simpa using hy.symm
        rw [this, hpr, hpc]; exact hadj.symm
      · cases cells with
        | nil => simp at hlen
        | cons a l => simpa using hlast
      · intro q hq hne
        rcases List.mem_cons.1 hq with e | hin
        · exact absurd e hne
        · by_cases hqp : q = (p.r, p.c)
          · rw [hqp]
            intro heq
            injection heq with e1 e2
            exact hpg ⟨e1, e2⟩
          · exact havoid q hin hqp

theorem Inv.entry_shortest {field0 : Grid} {sR sC eR eC : Int} {s : State}
    (hI : Inv field0 sR sC eR eC s) {k : Int} {x : Node} (hx : (k, x) ∈ s.seen) :
    ShortestDist field0 (sR, sC) (x.r, x.c) x.dist := by
  refine ⟨(hI.seen_ok k x hx).walk.to_path, ?_⟩
  intro p hp
  have := hI.optimal k x hx _ (Walk.of_path p _ hp)
  omega

theorem Inv.goal_entry {field0 : Grid} {sR sC eR eC : Int} {s : State}
    (hI : Inv field0 sR sC eR eC s) (hgv : isValid eR eC = true)
    (hf : s.found = true) :
    ∃ x, seenFind (hash eR eC) s.seen = some x ∧ (hash eR eC, x) ∈ s.seen ∧
      x.r = eR ∧ x.c = eC := by
  obtain ⟨x, hx⟩ := Option.isSome_iff_exists.1 (hI.found_iff.1 hf)
  have hmem := seenFind_some_mem hx
  have hcell := hash_inj hgv (hI.seen_ok _ _ hmem).valid (hI.seen_key _ _ hmem)
  exact ⟨x, hx, hmem, hcell.1.symm, hcell.2.symm⟩

/-- C4: `Node::operator<` is exactly the strict lexicographic order on the key
(priority, heuristic, row, column); it is irreflexive and transitive, and two
nodes built by the constructor are ordered one way or the other unless they
agree in cell, heuristic and dist. -/
theorem node_lt_strict_lex_order :
    (∀ a b : Node, a.lt b = true ↔ a.key < b.key) ∧
    (∀ a : Node, a.lt a = false) ∧
    (∀ a b c : Node, a.lt b = true → b.lt c = true → a.lt c = true) ∧
    (∀ r1 c1 h1 d1 r2 c2 h2 d2 : Int,
      (Node.new r1 c1 h1 d1).lt (Node.new r2 c2 h2 d2) = true ∨
      (Node.new r2 c2 h2 d2).lt (Node.new r1 c1 h1 d1) = true ∨
      (r1 = r2 ∧ c1 = c2 ∧ h1 = h2 ∧ d1 = d2)) := by
  refine ⟨Node.lt_iff_key, Node.lt_irrefl, fun a b c => Node.lt_trans, ?_⟩
  intro r1 c1 h1 d1 r2 c2 h2 d2
  rw [Node.lt_iff, Node.lt_iff]
  simp only [Node.new]
  omega

/-- C1: in every state of the expansion loop and in the state in which the
loop ends, every entry of the Visited Table is filed under the hash of its
cell and records as `dist` the length of a shortest path of free cells from
the start to its cell; when the loop ends with `found` set, the goal's entry
records the length of a shortest path from the start to the goal. -/
theorem optimality (field : Grid) (curR curC endR endC : Int)
    (hs : Free field curR curC) (hg : Free field endR endC)
    (hne : ¬ (curR = endR ∧ curC = endC)) :
    (∀ t, Reach field curR curC endR endC t → ∀ k x, (k, x) ∈ t.seen →
      k = hash x.r x.c ∧ ShortestDist field (curR, curC) (x.r, x.c) x.dist) ∧
    ∃ s, search field curR curC endR endC = some s ∧
      (∀ k x, (k, x) ∈ s.seen →
        k = hash x.r x.c ∧ ShortestDist field (curR, curC) (x.r, x.c) x.dist) ∧
      (s.found = true → ∃ x, seenFind (hash endR endC) s.seen = some x ∧
        ShortestDist field (curR, curC) (endR, endC) x.dist) := by
  refine ⟨?_, ?_⟩
  · intro t ht k x hx
    obtain ⟨hI, _, _⟩ := ht.inv hs hg hne
    exact ⟨hI.seen_key k x hx, hI.entry_shortest hx⟩
  · obtain ⟨s, hsome, hI, _, _⟩ := search_spec hs hg hne
    refine ⟨s, hsome, fun k x hx => ⟨hI.seen_key k x hx, hI.entry_shortest hx⟩, ?_⟩
    intro hf
    obtain ⟨x, hx, hmem, hr, hc⟩ := hI.goal_entry hg.1 hf
    refine ⟨x, hx, ?_⟩
    have := hI.entry_shortest hmem
    rw [hr, hc] at this
    exact this

theorem optimality_witness :
    Free emptyGrid 0 0 ∧ Free emptyGrid 4 4 ∧ ¬ ((0 : Int) = 4 ∧ (0 : Int) = 4) ∧
    ((∀ t, Reach emptyGrid 0 0 4 4 t → ∀ k x, (k, x) ∈ t.seen →
      k = hash x.r x.c ∧ ShortestDist emptyGrid (0, 0) (x.r, x.c) x.dist) ∧
    ∃ s, search emptyGrid 0 0 4 4 = some s ∧
      (∀ k x, (k, x) ∈ s.seen →
        k = hash x.r x.c ∧ ShortestDist emptyGrid (0, 0) (x.r, x.c) x.dist) ∧
      (s.found = true → ∃ x, seenFind (hash 4 4) s.seen = some x ∧
        ShortestDist emptyGrid (0, 0) (4, 4) x.dist)) :=
  ⟨by decide, by decide, by decide,
    optimality emptyGrid 0 0 4 4 (by decide) (by decide) (by decide)⟩

/-- C2: the expansion loop ends; it ends with `found` set exactly when some
path of free cells joins the start to the goal; when there is none it ends
with the Frontier empty and `found` unset, and the path marking leaves the
grid as it is and marks no cell. -/
theorem no_path_correctness (field : Grid) (curR curC endR endC : Int)
    (hs : Free field curR curC) (hg : Free field endR endC)
    (hne : ¬ (curR = endR ∧ curC = endC)) :
    ∃ s, search field curR curC endR endC = some s ∧
      (s.found = true ↔ ∃ p, PathFromTo field (curR, curC) (endR, endC) p) ∧
      ((¬ ∃ p, PathFromTo field (curR, curC) (endR, endC) p) →
        s.next = [] ∧ s.found = false ∧ markIfFound s = some (s.field, [])) := by
  obtain ⟨s, hsome, hI, _, hend⟩ := search_spec hs hg hne
  have hiff : s.found = true ↔ ∃ p, PathFromTo field (curR, curC) (endR, endC) p := by
    constructor
    · intro hf
      obtain ⟨x, _, hmem, hr, hc⟩ := hI.goal_entry hg.1 hf
      obtain ⟨p, hp, _⟩ := (hI.seen_ok _ _ hmem).walk.to_path
      rw [hr, hc] at hp
      exact ⟨p, hp⟩
    · rintro ⟨p, hp⟩
      cases hf : s.found with
      | true => rfl
      | false =>
        exfalso
        have hw := Walk.of_path p _ hp
        rcases hI.walk_covered hf hw with h | ⟨y, hy, _⟩
        · have := hI.found_iff.2 h
          rw [hf] at this; exact Bool.noConfusion this
        · rw [hend hf] at hy; simp at hy
  refine ⟨s, hsome, hiff, ?_⟩
  intro hno
  have hf : s.found = false := by
    cases h : s.found with
    | false => rfl
    | true => exact absurd (hiff.1 h) hno
  refine ⟨hend hf, hf, ?_⟩
  unfold markIfFound
  rw [hf]; simp

theorem no_path_correctness_witness :
    Free emptyGrid 0 0 ∧ Free emptyGrid 4 4 ∧ ¬ ((0 : Int) = 4 ∧ (0 : Int) = 4) ∧
    ∃ s, search emptyGrid 0 0 4 4 = some s ∧
      (s.found = true ↔ ∃ p, PathFromTo emptyGrid (0, 0) (4, 4) p) ∧
      ((¬ ∃ p, PathFromTo emptyGrid (0, 0) (4, 4) p) →
        s.next = [] ∧ s.found = false ∧ markIfFound s = some (s.field, [])) :=
  ⟨by decide, by decide, by decide,
    no_path_correctness emptyGrid 0 0 4 4 (by decide) (by decide) (by decide)⟩

/-- C5: in every state of the expansion loop and in the state in which the
loop ends, the priorities of the finalized nodes, in the order of their
finalization, are non-decreasing. -/
theorem monotonic_extraction (field : Grid) (curR curC endR endC : Int)
    (hs : Free field curR curC) (hg : Free field endR endC)
    (hne : ¬ (curR = endR ∧ curC = endC)) :
    (∀ t, Reach field curR curC endR endC t →
      (t.seen.map (fun e => e.2.priority)).Sorted (fun a b => a ≤ b)) ∧
    ∃ s, search field curR curC endR endC = some s ∧
      (s.seen.map (fun e => e.2.priority)).Sorted (fun a b => a ≤ b) := by
  refine ⟨?_, ?_⟩
  · intro t ht
    obtain ⟨_, hM, _⟩ := ht.inv hs hg hne
    exact List.pairwise_map.2 hM.mono_seen
  · obtain ⟨s, hsome, _, hM, _⟩ := search_spec hs hg hne
    exact ⟨s, hsome, List.pairwise_map.2 hM.mono_seen⟩

theorem monotonic_extraction_witness :
    Free emptyGrid 0 0 ∧ Free emptyGrid 4 4 ∧ ¬ ((0 : Int) = 4 ∧ (0 : Int) = 4) ∧
    ((∀ t, Reach emptyGrid 0 0 4 4 t →
      (t.seen.map (fun e => e.2.priority)).Sorted (fun a b => a ≤ b)) ∧
    ∃ s, search emptyGrid 0 0 4 4 = some s ∧
      (s.seen.map (fun e => e.2.priority)).Sorted (fun a b => a ≤ b)) :=
  ⟨by decide, by decide, by decide,
    monotonic_extraction emptyGrid 0 0 4 4 (by decide) (by decide) (by decide)⟩

/-- C6: a pass through the body of the expansion loop either leaves the
Visited Table as it is or appends one entry, for a cell that the table did
not hold; every lookup that succeeded before the pass gives the same Search
Node after it; and no cell has two entries. -/
theorem visited_append_only (field : Grid) (curR curC endR endC : Int)
    (hs : Free field curR curC) (hg : Free field endR endC)
    (hne : ¬ (curR = endR ∧ curC = endC)) (s : State) (n : Node) (rest : List Node)
    (hr : Reach field curR curC endR endC s) (hnext : s.next = n :: rest) :
    ((loopBody endR endC s n rest).1.seen = s.seen ∨
      (seenFind (hash n.r n.c) s.seen = none ∧
        (loopBody endR endC s n rest).1.seen = s.seen ++ [(hash n.r n.c, n)])) ∧
    (∀ k x, seenFind k s.seen = some x →
      seenFind k (loopBody endR endC s n rest).1.seen = some x) ∧
    ((loopBody endR endC s n rest).1.seen.map Prod.fst).Nodup := by
  obtain ⟨hI, _, hnf⟩ := hr.inv hs hg hne
  have hnd := (hI.core_body_step hg.1 hnf hnext).seen_nodup
  refine ⟨?_, ?_, hnd⟩
  · rcases loopBody_cases endR endC s n rest with ⟨_, e⟩ | ⟨hf, _, e⟩ | ⟨hf, _, e⟩
    · left; rw [e]; rfl
    · right; rw [e]; exact ⟨hf, rfl⟩
    · right; rw [e]; exact ⟨hf, rfl⟩
  · intro k x hx
    have happ : seenFind k (s.seen ++ [(hash n.r n.c, n)]) = some x := by
      rw [seenFind_append, hx]
    rcases loopBody_cases endR endC s n rest with ⟨_, e⟩ | ⟨_, _, e⟩ | ⟨_, _, e⟩
    · rw [e]; exact hx
    · rw [e]; exact happ
    · rw [e]; exact happ

theorem visited_append_only_witness :
    Free emptyGrid 0 0 ∧ Free emptyGrid 4 4 ∧ ¬ ((0 : Int) = 4 ∧ (0 : Int) = 4) ∧
    Reach emptyGrid 0 0 4 4 (initState emptyGrid 0 0 4 4) ∧
    (initState emptyGrid 0 0 4 4).next = [Node.new 0 0 8 0] ∧
    (((loopBody 4 4 (initState emptyGrid 0 0 4 4) (Node.new 0 0 8 0) []).1.seen
        = (initState emptyGrid 0 0 4 4).seen ∨
      (seenFind (hash (Node.new 0 0 8 0).r (Node.new 0 0 8 0).c)
          (initState emptyGrid 0 0 4 4).seen = none ∧
        (loopBody 4 4 (initState emptyGrid 0 0 4 4) (Node.new 0 0 8 0) []).1.seen
          = (initState emptyGrid 0 0 4 4).seen
            ++ [(hash (Node.new 0 0 8 0).r (Node.new 0 0 8 0).c, Node.new 0 0 8 0)])) ∧
    (∀ k x, seenFind k (initState emptyGrid 0 0 4 4).seen = some x →
      seenFind k (loopBody 4 4 (initState emptyGrid 0 0 4 4) (Node.new 0 0 8 0) []).1.seen
        = some x) ∧
    ((loopBody 4 4 (initState emptyGrid 0 0 4 4) (Node.new 0 0 8 0) []).1.seen.map
      Prod.fst).Nodup) :=
  ⟨by decide, by decide, by decide, Reach.init, rfl,
    visited_append_only emptyGrid 0 0 4 4 (by decide) (by decide) (by decide)
      (initState emptyGrid 0 0 4 4) (Node.new 0 0 8 0) [] Reach.init rfl⟩

/-- C3: when the search ends with `found` set, the walk along the parent links
from the goal cell, on any grid, ends at the sentinel and visits a list of
cells that starts at the goal and ends at the start, in which every cell is
in bounds and not blocked and consecutive cells are 4-adjacent; its number of
moves is the `dist` recorded for the goal. -/
theorem reconstructed_path (field : Grid) (curR curC endR endC : Int)
    (hs : Free field curR curC) (hg : Free field endR endC)
    (hne : ¬ (curR = endR ∧ curC = endC)) :
    ∃ s, search field curR curC endR endC = some s ∧
      (s.found = true → ∃ x cells, seenFind (hash endR endC) s.seen = some x ∧
        (∀ g, markPath s.seen markFuel g endR endC = some (paintCells g cells, cells)) ∧
        PathFromTo field (endR, endC) (curR, curC) cells ∧
        (cells.length : Int) = x.dist + 1) := by
  obtain ⟨s, hsome, hI, _, _⟩ := search_spec hs hg hne
  refine ⟨s, hsome, ?_⟩
  intro hf
  obtain ⟨x, hx, hmem, hr, hc⟩ := hI.goal_entry hg.1 hf
  have h0 := (hI.seen_ok _ _ hmem).walk.nonneg
  have hb := hI.seen_bound _ _ hmem
  have hl := hI.seen_length_le
  obtain ⟨cells, hmark, hpath, hlen, _⟩ :=
    hI.chain x.dist.toNat _ x hmem (by omega)
  rw [hr, hc] at hmark hpath
  refine ⟨x, cells, hx, ?_, hpath, by omega⟩
  intro g
  apply hmark
  show x.dist.toNat + 1 ≤ 900
  omega

theorem reconstructed_path_witness :
    Free emptyGrid 0 0 ∧ Free emptyGrid 4 4 ∧ ¬ ((0 : Int) = 4 ∧ (0 : Int) = 4) ∧
    ∃ s, search emptyGrid 0 0 4 4 = some s ∧
      (s.found = true → ∃ x cells, seenFind (hash 4 4) s.seen = some x ∧
        (∀ g, markPath s.seen markFuel g 4 4 = some (paintCells g cells, cells)) ∧
        PathFromTo emptyGrid (4, 4) (0, 0) cells ∧
        (cells.length : Int) = x.dist + 1) :=
  ⟨by decide, by decide, by decide,
    reconstructed_path emptyGrid 0 0 4 4 (by decide) (by decide) (by decide)⟩

theorem markPath_cells_indep (seen : Seen) :
    ∀ (fuel : Nat) (g g1 : Grid) (r c : Int),
      (markPath seen fuel g r c).map Prod.snd = (markPath seen fuel g1 r c).map Prod.snd := by
  intro fuel
  induction fuel with
  | zero =>
    intro g g1 r c
    unfold markPath
    by_cases hr : r = -1
    · simp [hr]
    · simp [hr]
  | succ f ih =>
    intro g g1 r c
    by_cases hr : r = -1
    · rw [hr, markPath_sentinel, markPath_sentinel]; rfl
    · cases hf : seenFind (hash r c) seen with
      | none =>
        rw [markPath, markPath]
        simp only [hr, if_false, hf]
      | some n =>
        rw [markPath_succ hr hf, markPath_succ hr hf]
        have := ih (setCell g r c '*') (setCell g1 r c '*') n.fromR n.fromC
        cases h1 : markPath seen f (setCell g r c '*') n.fromR n.fromC with
        | none =>
          cases h2 : markPath seen f (setCell g1 r c '*') n.fromR n.fromC with
          | none => rfl
          | some v => rw [h1, h2] at this; simp at this
        | some u =>
          cases h2 : markPath seen f (setCell g1 r c '*') n.fromR n.fromC with
          | none => rw [h1, h2] at this; simp at this
          | some v =>
            rw [h1, h2] at this
            simp only [Option.map_some', Option.some.injEq] at this
            simp only [Option.map_some', Option.some.injEq, List.cons.injEq, true_and]
            exact this

/-- C8: on the grid without walls, from (0,0) to (4,4), the search ends with
`found` set and dist 8 recorded for the goal; exactly the nine cells
(0,0),(0,1),(0,2),(0,3),(0,4),(1,4),(2,4),(3,4),(4,4) are finalized, in this
order; the walk along the parent links from the goal visits them in the
reverse order, so the path has 9 cells, 4 moves right and 4 moves down; the
walk of the program starts from (3,4) and paints the eight cells before the
goal. -/
theorem scenario_open_grid :
    ∃ s, search emptyGrid 0 0 4 4 = some s ∧ s.found = true ∧
      (seenFind (hash 4 4) s.seen).map (fun x => x.dist) = some 8 ∧
      s.seen.map (fun e => (e.2.r, e.2.c))
        = [(0,0),(0,1),(0,2),(0,3),(0,4),(1,4),(2,4),(3,4),(4,4)] ∧
      ((markPath s.seen markFuel s.field 4 4).map Prod.snd).map List.reverse
        = some [(0,0),(0,1),(0,2),(0,3),(0,4),(1,4),(2,4),(3,4),(4,4)] ∧
      ((markPath s.seen markFuel s.field 4 4).map Prod.snd).map
          (fun p => (p.length, countMoves 0 1 p.reverse, countMoves 1 0 p.reverse))
        = some (9, 4, 4) ∧
      (markIfFound s).map Prod.snd
        = some [(3,4),(2,4),(1,4),(0,4),(0,3),(0,2),(0,1),(0,0)] := by
  have h1 : (search emptyGrid 0 0 4 4).map (fun s => (s.found, s.curR, s.curC, s.seen))
      = some (true, 3, 4,
        [seenEntry 4 4 0 0 0 (-1) (-1), seenEntry 4 4 0 1 1 0 0, seenEntry 4 4 0 2 2 0 1,
         seenEntry 4 4 0 3 3 0 2, seenEntry 4 4 0 4 4 0 3, seenEntry 4 4 1 4 5 0 4,
         seenEntry 4 4 2 4 6 1 4, seenEntry 4 4 3 4 7 2 4, seenEntry 4 4 4 4 8 3 4]) := by
    decide
  cases hs : search emptyGrid 0 0 4 4 with
  | none => rw [hs] at h1; simp at h1
  | some s =>
    rw [hs] at h1
    simp only [Option.map_some', Option.some.injEq, Prod.mk.injEq] at h1
    obtain ⟨hfound, hcr, hcc, hseen⟩ := h1
    refine ⟨s, rfl, hfound, ?_, ?_, ?_, ?_, ?_⟩
    · rw [hseen]; decide
    · rw [hseen]; decide
    · rw [hseen, markPath_cells_indep _ _ s.field emptyGrid]; decide
    · rw [hseen, markPath_cells_indep _ _ s.field emptyGrid]; decide
    · unfold markIfFound
      rw [hfound, hcr, hcc, hseen]
      simp only [if_true]
      rw [markPath_cells_indep _ _ s.field emptyGrid]; decide

theorem forall₂_getElem {α β : Type} {R : α → β → Prop} :
    ∀ {l1 : List α} {l2 : List β}, List.Forall₂ R l1 l2 →
      ∀ i, i < l1.length → ∃ a b, l1[i]? = some a ∧ l2[i]? = some b ∧ R a b := by
  intro l1 l2 h
  induction h with
  | nil => intro i hi; simp at hi
  | @cons a b l1 l2 hab _ ih =>
    intro i hi
    cases i with
    | zero => exact ⟨a, b, by simp, by simp, hab⟩
    | succ j =>
      have hj : j < l1.length := by simpa using hi
      obtain ⟨a1, b1, h1, h2, h3⟩ := ih j hj
      exact ⟨a1, b1, by simpa using h1, by simpa using h2, h3⟩

/-- C9: when the search ends with `found` set, the path marking ends; in the
grid it leaves, the goal cell carries `'x'` and every other cell of the path
that the parent links give from the goal to the start carries `'*'`, so every
cell of the path carries a marker other than `'-'`, `'@'` and `'#'`; and
every cell that carries `'*'` lies on that path. -/
theorem path_markers (field : Grid) (curR curC endR endC : Int)
    (hs : Free field curR curC) (hg : Free field endR endC)
    (hne : ¬ (curR = endR ∧ curC = endC)) (hgrid : ∀ r c, field r c ≠ '*') :
    ∃ s, search field curR curC endR endC = some s ∧
      (s.found = true → ∃ g painted path,
        markIfFound s = some (g, painted) ∧
        (∀ g0, markPath s.seen markFuel g0 endR endC = some (paintCells g0 path, path)) ∧
        PathFromTo field (endR, endC) (curR, curC) path ∧
        path = (endR, endC) :: painted ∧
        g endR endC = 'x' ∧ (∀ q ∈ painted, g q.1 q.2 = '*') ∧
        (∀ q ∈ path, g q.1 q.2 ≠ '-' ∧ g q.1 q.2 ≠ '@' ∧ g q.1 q.2 ≠ '#') ∧
        (∀ r c, g r c = '*' → (r, c) ∈ path)) := by
  obtain ⟨s, hsome, hI, hM, _⟩ := search_spec hs hg hne
  have hP := search_paint hne hgrid hsome
  refine ⟨s, hsome, ?_⟩
  intro hf
  obtain ⟨k, x, hlast, hxr, hxc, hfr, hfc⟩ := hM.cur_found hf
  have hmem : (k, x) ∈ s.seen := List.mem_of_getLast?_eq_some hlast
  have hok := hI.seen_ok k x hmem
  have hkey := hI.seen_key k x hmem
  have hfind : seenFind (hash x.r x.c) s.seen = some x := by
    rw [← hkey]; exact seenFind_of_mem_nodup hI.seen_nodup hmem
  have hb := hI.seen_bound _ _ hmem
  have hl := hI.seen_length_le
  have hv := isValid_iff.1 hok.valid
  have hxr1 : x.r ≠ -1 := by omega
  have hmf : markFuel = 899 + 1 := by decide
  rcases hok.parent with ⟨_, _, h3, h4, _⟩ | ⟨p, hp, hpr, hpc, hpd, _, hpg⟩
  · exact absurd ⟨h3.symm.trans hxr, h4.symm.trans hxc⟩ hne
  · have hp0 := (hI.seen_ok _ _ hp).walk.nonneg
    obtain ⟨cp, hmarkp, hpathp, _, havoid⟩ := hI.chain p.dist.toNat _ p hp (by omega)
    obtain ⟨cx, hmarkx, hpathx, _, _⟩ := hI.chain x.dist.toNat _ x hmem (by omega)
    have hcx : cx = (x.r, x.c) :: cp := by
      have h1 := hmarkx markFuel (by rw [hmf]; omega) s.field
      rw [hmf, markPath_succ hxr1 hfind, ← hpr, ← hpc, hmarkp 899 (by omega)] at h1
      simp only [Option.some.injEq, Prod.mk.injEq] at h1
      exact h1.2.symm
    have hgoal_notin : (endR, endC) ∉ cp := by
      intro hin
      by_cases e : ((endR, endC) : Int × Int) = (p.r, p.c)
      · injection e with e1 e2
        exact hpg ⟨e1.symm, e2.symm⟩
      · exact havoid _ hin e rfl
    have hcur : s.curR = p.r ∧ s.curC = p.c := ⟨by rw [hpr, hfr], by rw [hpc, hfc]⟩
    have hgx : paintCells s.field cp endR endC = 'x' := by
      simp only [paintCells, hgoal_notin, if_false]
      exact hP.goal_x
    have hgs : ∀ q ∈ cp, paintCells s.field cp q.1 q.2 = '*' := by
      intro q hq
      simp only [paintCells, Prod.mk.eta, hq, if_true]
    refine ⟨paintCells s.field cp, cp, cx, ?_, ?_, ?_, ?_, hgx, hgs, ?_, ?_⟩
    · unfold markIfFound
      rw [if_pos hf, hcur.1, hcur.2]
      exact hmarkp markFuel (by rw [hmf]; omega) s.field
    · intro g0
      have := hmarkx markFuel (by rw [hmf]; omega) g0
      rw [hxr, hxc] at this
      exact this
    · rw [hxr, hxc] at hpathx; exact hpathx
    · rw [hcx, hxr, hxc]
    · intro q hq
      rw [hcx, hxr, hxc] at hq
      rcases List.mem_cons.1 hq with e | hin
      · rw [e]
        simp only
        rw [hgx]
        exact ⟨by decide, by decide, by decide⟩
      · rw [hgs q hin]
        exact ⟨by decide, by decide, by decide⟩
    · intro r c hstar
      rw [hcx]
      apply List.mem_cons_of_mem
      by_cases hin : (r, c) ∈ cp
      · exact hin
      · simp only [paintCells, hin, if_false] at hstar
        have := hP.star_only r c hstar
        rw [this.1, this.2, hcur.1, hcur.2]
        exact List.mem_of_mem_head? hpathp.2.1

theorem path_markers_witness :
    Free emptyGrid 0 0 ∧ Free emptyGrid 4 4 ∧ ¬ ((0 : Int) = 4 ∧ (0 : Int) = 4) ∧
    (∀ r c, emptyGrid r c ≠ '*') ∧
    ∃ s, search emptyGrid 0 0 4 4 = some s ∧
      (s.found = true → ∃ g painted path,
        markIfFound s = some (g, painted) ∧
        (∀ g0, markPath s.seen markFuel g0 4 4 = some (paintCells g0 path, path)) ∧
        PathFromTo emptyGrid (4, 4) (0, 0) path ∧
        path = (4, 4) :: painted ∧
        g 4 4 = 'x' ∧ (∀ q ∈ painted, g q.1 q.2 = '*') ∧
        (∀ q ∈ path, g q.1 q.2 ≠ '-' ∧ g q.1 q.2 ≠ '@' ∧ g q.1 q.2 ≠ '#') ∧
        (∀ r c, g r c = '*' → (r, c) ∈ path)) :=
  ⟨by decide, by decide, by decide, fun _ _ => by simp [emptyGrid],
    path_markers emptyGrid 0 0 4 4 (by decide) (by decide) (by decide)
      (fun _ _ => by simp [emptyGrid])⟩

/-- C10, as the code has it: the expansion loop draws one frame for every
finalized node but the goal, whose finalization leaves the loop before the
frame is drawn: when the loop ends, the frames are one fewer than the
entries of the Visited Table if `found` is set and as many if it is not; and
the i-th frame shows the i-th finalized cell as the current cell. -/
theorem frames_per_expanded_node (field : Grid) (curR curC endR endC : Int)
    (hs : Free field curR curC) (hg : Free field endR endC)
    (hne : ¬ (curR = endR ∧ curC = endC)) (hgrid : ∀ r c, field r c ≠ '*') :
    ∃ s, search field curR curC endR endC = some s ∧
      s.frames.length + (if s.found = true then 1 else 0) = s.seen.length ∧
      (∀ i, i < s.frames.length →
        ∃ g e, s.frames[i]? = some g ∧ s.seen[i]? = some e ∧ ShowsCurrent g e) := by
  obtain ⟨s, hsome, hI, hM, _⟩ := search_spec hs hg hne
  have hP := search_paint hne hgrid hsome
  refine ⟨s, hsome, ?_⟩
  have hfr := hP.frames
  cases hf : s.found with
  | false =>
    rw [hf] at hfr
    simp only [Bool.false_eq_true, if_false] at hfr ⊢
    exact ⟨by rw [hfr.length_eq]; rfl, forall₂_getElem hfr⟩
  | true =>
    rw [hf] at hfr
    simp only [if_true] at hfr ⊢
    obtain ⟨k, x, hlast, _⟩ := hM.cur_found hf
    have happ := List.dropLast_append_getLast? (k, x) hlast
    have hlen : s.seen.length = s.seen.dropLast.length + 1 := by
      conv_lhs => rw [← happ]
      simp
    refine ⟨by rw [hfr.length_eq, hlen], ?_⟩
    intro i hi
    obtain ⟨g, e, h1, h2, h3⟩ := forall₂_getElem hfr i hi
    refine ⟨g, e, h1, ?_, h3⟩
    rw [← happ, List.getElem?_append_left (by rw [← hfr.length_eq]; exact hi)]
    exact h2

theorem frames_per_expanded_node_witness :
    Free emptyGrid 0 0 ∧ Free emptyGrid 4 4 ∧ ¬ ((0 : Int) = 4 ∧ (0 : Int) = 4) ∧
    (∀ r c, emptyGrid r c ≠ '*') ∧
    ∃ s, search emptyGrid 0 0 4 4 = some s ∧
      s.frames.length + (if s.found = true then 1 else 0) = s.seen.length ∧
      (∀ i, i < s.frames.length →
        ∃ g e, s.frames[i]? = some g ∧ s.seen[i]? = some e ∧ ShowsCurrent g e) :=
  ⟨by decide, by decide, by decide, fun _ _ => by simp [emptyGrid],
    frames_per_expanded_node emptyGrid 0 0 4 4 (by decide) (by decide) (by decide)
      (fun _ _ => by simp [emptyGrid])⟩

/-- C10 as stated fails: on the grid without walls, from (0,0) to (0,1), the
loop ends with two entries in the Visited Table and one frame drawn. -/
theorem frames_count_counterexample :
    ∃ s, search emptyGrid 0 0 0 1 = some s ∧ s.found = true ∧
      s.seen.length = 2 ∧ s.frames.length = 1 ∧ s.frames.length ≠ s.seen.length := by
  have h : (search emptyGrid 0 0 0 1).map
      (fun s => (s.found, s.seen.length, s.frames.length)) = some (true, 2, 1) := by
    decide
  cases hs : search emptyGrid 0 0 0 1 with
  | none => rw [hs] at h; simp at h
  | some s =>
    rw [hs] at h
    simp only [Option.map_some', Option.some.injEq, Prod.mk.injEq] at h
    exact ⟨s, rfl, h.1, h.2.1, h.2.2, by rw [h.2.1, h.2.2]; decide⟩

theorem wallState_reach : Reach wallGrid 1 1 1 3 wallState := by
  have h1 : Reach wallGrid 1 1 1 3
      (loopBody 1 3 (initState wallGrid 1 1 1 3) (nodeAt 1 3 1 1 0 (-1) (-1)) []).1 :=
    Reach.step Reach.init (by decide) (by decide)
  exact Reach.step h1 (by decide) (by decide)

/-- C7 as stated fails: on `wallGrid` from (1,1) to (1,3), the third pass of
the expansion loop expands (1,0) and inserts a node for (0,0) with dist 2,
while the Frontier holds the node for (0,0) with dist 2 that the expansion of
(0,1) inserted; the set keeps the old node and does not grow. -/
theorem frontier_insert_counterexample : ¬ EveryInsertionAdds wallGrid 1 1 1 3 := by
  intro h
  have h1 := h wallState (nodeAt 1 3 1 0 1 1 1)
    [nodeAt 1 3 2 1 1 1 1, nodeAt 1 3 0 0 2 0 1] 3 wallState_reach
    (by decide) (by decide) (by decide) (by decide) (by decide) (by decide) (by decide)
  revert h1
  decide

theorem foldl_visit_keys {field0 : Grid} {sR sC eR eC : Int} {s : State} {n : Node}
    {rest : List Node} (seen1 : Seen) (hI : Inv field0 sR sC eR eC s)
    (hnext : s.next = n :: rest) (l : List Nat) :
    SortedF (l.foldl (visitNeighbour s.field seen1 eR eC n) rest) ∧
    ∀ y ∈ l.foldl (visitNeighbour s.field seen1 eR eC n) rest,
      y.priority = y.dist + y.heuristic ∧ y.heuristic = getDist y.r y.c eR eC := by
  have hsorted := hI.sorted
  rw [hnext] at hsorted
  apply foldl_visit_induct (fun nx => SortedF nx ∧ ∀ y ∈ nx,
      y.priority = y.dist + y.heuristic ∧ y.heuristic = getDist y.r y.c eR eC)
  · refine ⟨(List.pairwise_cons.1 hsorted).2, ?_⟩
    intro y hy
    have hok := hI.next_ok y (by rw [hnext]; exact List.mem_cons_of_mem _ hy)
    exact ⟨hok.prio, hok.heur⟩
  · intro nx i _ hp
    rcases visitNeighbour_cases s.field seen1 eR eC n nx i with ⟨e, _⟩ | ⟨e, _⟩
    · rw [e]; exact hp
    · rw [e]
      refine ⟨setInsert_sorted _ _ hp.1, ?_⟩
      intro y hy
      rcases mem_setInsert hy with e1 | hin
      · rw [e1]
        refine ⟨?_, rfl⟩
        rw [nextNode_priority, nextNode_dist, nextNode_heuristic]; omega
      · exact hp.2 y hin

/-- C7, as the code has it: an insertion that the neighbour loop performs
makes the Frontier one entry longer when the Frontier holds no node with the
same cell and the same dist, also when it holds a node of the same cell with
another dist; when it holds a node with the same cell and dist, the set keeps
that node and the Frontier stays as it is. -/
theorem frontier_insert_adds_unless_present (field : Grid) (curR curC endR endC : Int)
    (hs : Free field curR curC) (hg : Free field endR endC)
    (hne : ¬ (curR = endR ∧ curC = endC))
    (s : State) (n : Node) (rest : List Node) (i : Nat)
    (hr : Reach field curR curC endR endC s) (hnext : s.next = n :: rest)
    (hf : seenFind (hash n.r n.c) s.seen = none)
    (hgoal : getDist n.r n.c endR endC ≠ 0) (hi : i < 4)
    (hv : isValid (n.r + DR.getD i 0) (n.c + DC.getD i 0) = true)
    (hb : s.field (n.r + DR.getD i 0) (n.c + DC.getD i 0) ≠ '@')
    (hf1 : seenFind (hash (n.r + DR.getD i 0) (n.c + DC.getD i 0))
      (seenInsert (hash n.r n.c) n s.seen) = none) :
    (loopBody endR endC s n rest).1.next
      = frontierBefore s.field (seenInsert (hash n.r n.c) n s.seen) endR endC n rest 4 ∧
    frontierBefore s.field (seenInsert (hash n.r n.c) n s.seen) endR endC n rest (i + 1)
      = setInsert (nextNode n (n.r + DR.getD i 0) (n.c + DC.getD i 0) endR endC)
        (frontierBefore s.field (seenInsert (hash n.r n.c) n s.seen) endR endC n rest i) ∧
    ((∀ y ∈ frontierBefore s.field (seenInsert (hash n.r n.c) n s.seen) endR endC n rest i,
        ¬ (y.r = n.r + DR.getD i 0 ∧ y.c = n.c + DC.getD i 0 ∧ y.dist = 1 + n.dist)) →
      (setInsert (nextNode n (n.r + DR.getD i 0) (n.c + DC.getD i 0) endR endC)
        (frontierBefore s.field (seenInsert (hash n.r n.c) n s.seen) endR endC n rest i)).length
      = (frontierBefore s.field (seenInsert (hash n.r n.c) n s.seen) endR endC n rest i).length
        + 1) ∧
    ((∃ y ∈ frontierBefore s.field (seenInsert (hash n.r n.c) n s.seen) endR endC n rest i,
        y.r = n.r + DR.getD i 0 ∧ y.c = n.c + DC.getD i 0 ∧ y.dist = 1 + n.dist) →
      setInsert (nextNode n (n.r + DR.getD i 0) (n.c + DC.getD i 0) endR endC)
        (frontierBefore s.field (seenInsert (hash n.r n.c) n s.seen) endR endC n rest i)
      = frontierBefore s.field (seenInsert (hash n.r n.c) n s.seen) endR endC n rest i) := by
  obtain ⟨hI, _, _⟩ := hr.inv hs hg hne
  obtain ⟨hsorted, hkeys⟩ := foldl_visit_keys (seenInsert (hash n.r n.c) n s.seen) hI hnext
    (List.range i)
  refine ⟨?_, ?_, ?_, ?_⟩
  · rcases loopBody_cases endR endC s n rest with ⟨h1, _⟩ | ⟨_, h1, _⟩ | ⟨_, _, e⟩
    · rw [hf] at h1; exact Bool.noConfusion h1
    · exact absurd h1 hgoal
    · rw [e, seenInsert_of_none hf]; rfl
  · unfold frontierBefore
    rw [List.range_succ, List.foldl_append]
    simp only [List.foldl_cons, List.foldl_nil]
    rcases visitNeighbour_cases s.field (seenInsert (hash n.r n.c) n s.seen) endR endC n
      (List.foldl (visitNeighbour s.field (seenInsert (hash n.r n.c) n s.seen) endR endC n)
        rest (List.range i)) i with ⟨_, hno⟩ | ⟨e, _⟩
    · exact absurd ⟨hv, hb, hf1⟩ hno
    · exact e
  · intro hnew
    apply setInsert_length_of_new
    intro y hy hk
    have hy1 := hkeys y hy
    apply hnew y hy
    refine ⟨hk.2.2.1, hk.2.2.2, ?_⟩
    have hp := hk.1
    have hh := hk.2.1
    rw [nextNode_priority] at hp
    rw [nextNode_heuristic] at hh
    omega
  · rintro ⟨y, hy, hyr, hyc, hyd⟩
    apply setInsert_eq_self_of_key _ _ hsorted
    refine ⟨y, hy, ?_, ?_, hyr, hyc⟩
    · have hy1 := hkeys y hy
      rw [nextNode_priority, hy1.1, hy1.2, hyr, hyc]; omega
    · have hy1 := hkeys y hy
      rw [nextNode_heuristic, hy1.2, hyr, hyc]

theorem frontier_insert_adds_unless_present_witness :
    Free emptyGrid 0 0 ∧ Free emptyGrid 4 4 ∧ ¬ ((0 : Int) = 4 ∧ (0 : Int) = 4) ∧
    Reach emptyGrid 0 0 4 4 (initState emptyGrid 0 0 4 4) ∧
    (initState emptyGrid 0 0 4 4).next = [nodeAt 4 4 0 0 0 (-1) (-1)] ∧
    (setInsert (nextNode (nodeAt 4 4 0 0 0 (-1) (-1)) 0 1 4 4) []).length = 1 :=
  ⟨by decide, by decide, by decide, Reach.init, rfl,
    ((frontier_insert_adds_unless_present emptyGrid 0 0 4 4 (by decide) (by decide)
      (by decide) (initState emptyGrid 0 0 4 4) (nodeAt 4 4 0 0 0 (-1) (-1)) [] 0
      Reach.init rfl (by decide) (by decide) (by decide) (by decide) (by decide)
      (by decide)).2.2.1 (fun y hy => by simp [frontierBefore] at hy))⟩

theorem RAND_bounds {a b x : Int} (hx : 0 ≤ x) (hab : a ≤ b) :
    a ≤ RAND a b x ∧ RAND a b x ≤ b := by
  unfold RAND
  rw [Int.tmod_eq_emod hx (by omega)]
  have h1 := Int.emod_nonneg x (show b - a + 1 ≠ 0 by omega)
  have h2 := Int.emod_lt_of_pos x (show 0 < b - a + 1 by omega)
  omega

theorem mem_wallCells {row col height width : Int} {p : Int × Int}
    (h : p ∈ wallCells row col height width) :
    row ≤ p.1 ∧ p.1 < row + height ∧ col ≤ p.2 ∧ p.2 < col + width := by
  unfold wallCells at h
  rw [List.mem_flatMap] at h
  obtain ⟨i, hi, hp⟩ := h
  rw [List.mem_map] at hp
  obtain ⟨j, hj, e⟩ := hp
  rw [List.mem_range] at hi hj
  rw [← e]
  simp only
  omega

/-- C11: on the in-bounds cells `hash` is injective, its values lie in
`0 .. FSIZE*FSIZE - 1`, and every integer of that range is the hash of an
in-bounds cell. -/
theorem hash_bijection :
    (∀ r1 c1 r2 c2 : Int, isValid r1 c1 = true → isValid r2 c2 = true →
      (hash r1 c1 = hash r2 c2 ↔ r1 = r2 ∧ c1 = c2)) ∧
    (∀ r c : Int, isValid r c = true → 0 ≤ hash r c ∧ hash r c ≤ FSIZE * FSIZE - 1) ∧
    (∀ k : Int, 0 ≤ k → k ≤ FSIZE * FSIZE - 1 →
      ∃ r c, isValid r c = true ∧ hash r c = k) := by
  refine ⟨?_, ?_, ?_⟩
  · intro r1 c1 r2 c2 h1 h2
    constructor
    · exact hash_inj h1 h2
    · rintro ⟨e1, e2⟩; rw [e1, e2]
  · intro r c h
    rw [isValid_iff] at h
    simp only [hash, FSIZE]
    omega
  · intro k h0 h1
    simp only [FSIZE] at h1
    refine ⟨k / 30, k % 30, ?_, ?_⟩
    · rw [isValid_iff]; omega
    · simp only [hash, FSIZE]; omega

theorem getDist_chain (gR gC : Int) :
    ∀ (p : List (Int × Int)) (u : Int × Int), List.Chain' Adj p → p.head? = some u →
      p.getLast? = some (gR, gC) → getDist u.1 u.2 gR gC + 1 ≤ (p.length : Int) := by
  intro p
  induction p with
  | nil => intro u _ h; simp at h
  | cons a l ih =>
    intro u hc hh hl
    have hu : a = u := by simpa using hh
    subst hu
    cases l with
    | nil =>
      have : a = (gR, gC) := by simpa using hl
      rw [this]
      have := getDist_eq_zero.2 (⟨rfl, rfl⟩ : gR = gR ∧ gC = gC)
      simp only [List.length_singleton, Nat.cast_one]
      omega
    | cons b l1 =>
      rw [List.chain'_cons] at hc
      have h1 := ih b hc.2 rfl (by simpa using hl)
      have h2 := getDist_adj hc.1 gR gC
      simp only [List.length_cons, Nat.cast_add, Nat.cast_one] at h1 ⊢
      omega

/-- C12: the Manhattan distance of the goal to itself is 0; it drops by at
most one along a move between 4-adjacent cells; hence along every chain of
4-adjacent cells that ends at the goal, through free cells or not, it is at
most the number of moves of the chain. -/
theorem heuristic_consistent_admissible :
    (∀ gR gC : Int, getDist gR gC gR gC = 0) ∧
    (∀ (u v : Int × Int) (gR gC : Int), Adj u v →
      getDist u.1 u.2 gR gC ≤ 1 + getDist v.1 v.2 gR gC) ∧
    (∀ (gR gC : Int) (p : List (Int × Int)) (u : Int × Int), List.Chain' Adj p →
      p.head? = some u → p.getLast? = some (gR, gC) →
      getDist u.1 u.2 gR gC ≤ (p.length : Int) - 1) := by
  refine ⟨fun gR gC => getDist_eq_zero.2 ⟨rfl, rfl⟩,
    fun u v gR gC h => getDist_adj h gR gC, ?_⟩
  intro gR gC p u hc hh hl
  have := getDist_chain gR gC p u hc hh hl
  omega

/-- C20: whatever the five calls of `rand()` return, provided it is not
negative, the rectangle that `placeRandomWall` passes to `placeWall` lies
inside the grid, and every cell that `placeWall` writes is in bounds. -/
theorem wall_placement_in_bounds (x1 x2 x3 x4 x5 : Int) (h1 : 0 ≤ x1) (h2 : 0 ≤ x2)
    (_h3 : 0 ≤ x3) (h4 : 0 ≤ x4) (h5 : 0 ≤ x5) :
    0 ≤ (randomWall x1 x2 x3 x4 x5).1 ∧
    (randomWall x1 x2 x3 x4 x5).1 + (randomWall x1 x2 x3 x4 x5).2.2.1 ≤ FSIZE ∧
    0 ≤ (randomWall x1 x2 x3 x4 x5).2.1 ∧
    (randomWall x1 x2 x3 x4 x5).2.1 + (randomWall x1 x2 x3 x4 x5).2.2.2 ≤ FSIZE ∧
    (∀ p ∈ wallCells (randomWall x1 x2 x3 x4 x5).1 (randomWall x1 x2 x3 x4 x5).2.1
        (randomWall x1 x2 x3 x4 x5).2.2.1 (randomWall x1 x2 x3 x4 x5).2.2.2,
      isValid p.1 p.2 = true) := by
  have hh := RAND_bounds (a := FSIZE / 7) (b := FSIZE - 1) h1 (by decide)
  have hw := RAND_bounds (a := 1) (b := FSIZE / 12) h2 (by decide)
  have e7 : FSIZE / 7 = 4 := by decide
  have e12 : FSIZE / 12 = 2 := by decide
  have eF : FSIZE = 30 := rfl
  have key : ∀ H W : Int, 1 ≤ H → H ≤ 29 → 1 ≤ W → W ≤ 29 →
      0 ≤ RAND 0 (FSIZE - H) x4 ∧ RAND 0 (FSIZE - H) x4 + H ≤ FSIZE ∧
      0 ≤ RAND 0 (FSIZE - W) x5 ∧ RAND 0 (FSIZE - W) x5 + W ≤ FSIZE := by
    intro H W a1 a2 a3 a4
    have r1 := RAND_bounds (a := 0) (b := FSIZE - H) h4 (by rw [eF]; omega)
    have r2 := RAND_bounds (a := 0) (b := FSIZE - W) h5 (by rw [eF]; omega)
    omega
  have main : 0 ≤ (randomWall x1 x2 x3 x4 x5).1 ∧
      (randomWall x1 x2 x3 x4 x5).1 + (randomWall x1 x2 x3 x4 x5).2.2.1 ≤ FSIZE ∧
      0 ≤ (randomWall x1 x2 x3 x4 x5).2.1 ∧
      (randomWall x1 x2 x3 x4 x5).2.1 + (randomWall x1 x2 x3 x4 x5).2.2.2 ≤ FSIZE := by
    unfold randomWall
    simp only
    by_cases hs : RAND 0 1 x3 ≠ 0
    · rw [if_pos hs]
      exact key _ _ (by omega) (by omega) (by omega) (by omega)
    · rw [if_neg hs]
      exact key _ _ (by omega) (by omega) (by omega) (by omega)
  refine ⟨main.1, main.2.1, main.2.2.1, main.2.2.2, ?_⟩
  intro p hp
  have := mem_wallCells hp
  rw [isValid_iff]
  rw [eF] at main
  omega

theorem wall_placement_in_bounds_witness :
    (0 : Int) ≤ 7 ∧ (0 : Int) ≤ 3 ∧ (0 : Int) ≤ 1 ∧ (0 : Int) ≤ 40 ∧ (0 : Int) ≤ 5 ∧
    randomWall 7 3 1 40 5 = (11, 5, 2, 11) ∧
    (∀ p ∈ wallCells (randomWall 7 3 1 40 5).1 (randomWall 7 3 1 40 5).2.1
        (randomWall 7 3 1 40 5).2.2.1 (randomWall 7 3 1 40 5).2.2.2,
      isValid p.1 p.2 = true) :=
  ⟨by decide, by decide, by decide, by decide, by decide, by decide,
    (wall_placement_in_bounds 7 3 1 40 5 (by decide) (by decide) (by decide) (by decide)
      (by decide)).2.2.2.2⟩

theorem countedLoop_fst (endR endC : Int) :
    ∀ (fuel : Nat) (s : State),
      (countedLoop endR endC fuel s).map Prod.fst = expansionLoop endR endC fuel s := by
  intro fuel
  induction fuel with
  | zero =>
    intro s
    unfold countedLoop expansionLoop
    cases s.next <;> rfl
  | succ fuel ih =>
    intro s
    unfold countedLoop expansionLoop
    cases hn : s.next with
    | nil => rfl
    | cons n rest =>
      simp only
      cases hb : loopBody endR endC s n rest with
      | mk s1 b =>
        cases b with
        | true => rfl
        | false =>
          simp only
          rw [← ih s1]
          cases countedLoop endR endC fuel s1 with
          | none => rfl
          | some r => rfl

theorem TermInv.term_init {field0 : Grid} {sR sC eR eC : Int}
    (hs : isValid sR sC = true) : TermInv (initState field0 sR sC eR eC) := by
  have hnext : (initState field0 sR sC eR eC).next
      = [Node.new sR sC (getDist sR sC eR eC) 0] := rfl
  have hseen : (initState field0 sR sC eR eC).seen = [] := rfl
  refine ⟨?_, by rw [hseen]; simp, ?_, ?_⟩
  · intro k x h; rw [hseen] at h; simp at h
  · intro k x h; rw [hseen] at h; simp at h
  · intro y hy
    rw [hnext] at hy
    have : y = Node.new sR sC (getDist sR sC eR eC) 0 := by simpa using hy
    rw [this]; exact hs

theorem TermInv.term_body_step (eR eC : Int) {s : State} {n : Node} {rest : List Node}
    (hT : TermInv s) (hnext : s.next = n :: rest) :
    TermInv (loopBody eR eC s n rest).1 := by
  have hsub : ∀ y ∈ rest, y ∈ s.next := fun y hy => by
    rw [hnext]; exact List.mem_cons_of_mem _ hy
  have hnv := hT.next_valid n (by rw [hnext]; simp)
  have hfin : seenFind (hash n.r n.c) s.seen = none →
      (∀ k x, (k, x) ∈ s.seen ++ [(hash n.r n.c, n)] → k = hash x.r x.c) ∧
      ((s.seen ++ [(hash n.r n.c, n)]).map Prod.fst).Nodup ∧
      (∀ k x, (k, x) ∈ s.seen ++ [(hash n.r n.c, n)] → isValid x.r x.c = true) := by
    intro hf
    refine ⟨?_, ?_, ?_⟩
    · intro k x h
      rcases mem_append_single h with h | h
      · exact hT.key k x h
      · injection h with e1 e2; rw [e1, e2]
    · rw [List.map_append, List.nodup_append]
      refine ⟨hT.nodup, by simp, ?_⟩
      intro a ha hb
      have : a = hash n.r n.c := by simpa using hb
      rw [this] at ha
      exact (seenFind_none_iff.1 hf) ha
    · intro k x h
      rcases mem_append_single h with h | h
      · exact hT.seen_valid k x h
      · injection h with e1 e2; rw [e2]; exact hnv
  rcases loopBody_cases eR eC s n rest with ⟨_, e⟩ | ⟨hf, _, e⟩ | ⟨hf, _, e⟩
  · rw [e]
    exact ⟨hT.key, hT.nodup, hT.seen_valid, fun y hy => hT.next_valid y (hsub y hy)⟩
  · rw [e]
    obtain ⟨h1, h2, h3⟩ := hfin hf
    exact ⟨h1, h2, h3, fun y hy => hT.next_valid y (hsub y hy)⟩
  · rw [e]
    obtain ⟨h1, h2, h3⟩ := hfin hf
    refine ⟨h1, h2, h3, ?_⟩
    intro y hy
    rcases mem_expand hy with hin | ⟨i, _, e1, hv, _, _⟩
    · exact hT.next_valid y (hsub y hin)
    · rw [e1]; exact hv

theorem TermInv.seen_le {s : State} (hT : TermInv s) : s.seen.length ≤ 900 := by
  have h1 : (s.seen.map Prod.fst).toFinset ⊆ Finset.Ico (0 : Int) 900 := by
    intro k hk
    rw [List.mem_toFinset, List.mem_map] at hk
    obtain ⟨⟨k1, x⟩, hmem, hk1⟩ := hk
    have hkey := hT.key _ _ hmem
    have hv := isValid_iff.1 (hT.seen_valid _ _ hmem)
    simp only at hk1
    rw [Finset.mem_Ico, ← hk1, hkey]
    simp only [hash, FSIZE]
    omega
  have h2 := Finset.card_le_card h1
  rw [List.toFinset_card_of_nodup hT.nodup, Int.card_Ico] at h2
  simpa using h2

/-- From a state that satisfies `TermInv` the loop ends within
`4 * (900 - |seen|) + |next|` extractions, whatever fuel it is given beyond
that. -/
theorem counted_terminates (eR eC : Int) :
    ∀ (fuel : Nat) (s : State), TermInv s →
      4 * (900 - s.seen.length) + s.next.length ≤ fuel →
      ∃ s1 k, countedLoop eR eC fuel s = some (s1, k) ∧
        k ≤ 4 * (900 - s.seen.length) + s.next.length ∧ TermInv s1 := by
  intro fuel
  induction fuel with
  | zero =>
    intro s hT hm
    have hn : s.next = [] := by
      cases h : s.next with
      | nil => rfl
      | cons a l => rw [h] at hm; simp at hm
    exact ⟨s, 0, by unfold countedLoop; rw [hn], by omega, hT⟩
  | succ fuel ih =>
    intro s hT hm
    cases hn : s.next with
    | nil => exact ⟨s, 0, by unfold countedLoop; rw [hn], by omega, hT⟩
    | cons n rest =>
      have hT1 := hT.term_body_step eR eC hn
      have hlen := hT1.seen_le
      rw [hn] at hm
      simp only [List.length_cons] at hm ⊢
      unfold countedLoop
      rw [hn]
      simp only
      rcases loopBody_cases eR eC s n rest with ⟨_, e⟩ | ⟨_, _, e⟩ | ⟨_, _, e⟩
      · rw [e] at hT1
        rw [e]
        simp only
        have hm1 : 4 * (900 - (discardState s rest).seen.length)
            + (discardState s rest).next.length ≤ fuel := by
          show 4 * (900 - s.seen.length) + rest.length ≤ fuel
          omega
        obtain ⟨s1, k, h1, h2, h3⟩ := ih _ hT1 hm1
        rw [h1]
        refine ⟨s1, k + 1, rfl, ?_, h3⟩
        have h2a : k ≤ 4 * (900 - s.seen.length) + rest.length := h2
        omega
      · rw [e] at hT1
        rw [e]
        exact ⟨_, 1, rfl, by omega, hT1⟩
      · rw [e] at hT1 hlen
        rw [e]
        simp only
        have e1 : (expandState eR eC s n rest).seen.length = s.seen.length + 1 := by
          simp [expandState]
        have e2 : (expandState eR eC s n rest).next.length ≤ rest.length + 4 :=
          expand_length_le _ _ _ _ _ _
        have hlen1 : (expandState eR eC s n rest).seen.length ≤ 900 := hlen
        have hm1 : 4 * (900 - (expandState eR eC s n rest).seen.length)
            + (expandState eR eC s n rest).next.length ≤ fuel := by omega
        obtain ⟨s1, k, h1, h2, h3⟩ := ih _ hT1 hm1
        rw [h1]
        refine ⟨s1, k + 1, rfl, ?_, h3⟩
        have h2a : k ≤ 4 * (900 - (expandState eR eC s n rest).seen.length)
            + (expandState eR eC s n rest).next.length := h2
        omega

/-- The count of extractions does not depend on the fuel, once the fuel
suffices. -/
theorem countedLoop_mono (eR eC : Int) :
    ∀ (fuel : Nat) (s : State) (r : State × Nat),
      countedLoop eR eC fuel s = some r →
      ∀ fuel1, fuel ≤ fuel1 → countedLoop eR eC fuel1 s = some r := by
  intro fuel
  induction fuel with
  | zero =>
    intro s r h fuel1 _
    unfold countedLoop at h
    cases hn : s.next with
    | nil =>
      rw [hn] at h
      unfold countedLoop; rw [hn]; exact h
    | cons n rest => rw [hn] at h; simp at h
  | succ fuel ih =>
    intro s r h fuel1 hle
    obtain ⟨f1, rfl⟩ : ∃ f1, fuel1 = f1 + 1 := ⟨fuel1 - 1, by omega⟩
    unfold countedLoop at h ⊢
    cases hn : s.next with
    | nil => rw [hn] at h; exact h
    | cons n rest =>
      rw [hn] at h
      simp only at h ⊢
      cases hb : loopBody eR eC s n rest with
      | mk s1 b =>
        rw [hb] at h
        cases b with
        | true => exact h
        | false =>
          simp only at h ⊢
          cases hc : countedLoop eR eC fuel s1 with
          | none => rw [hc] at h; simp at h
          | some r1 =>
            rw [hc] at h
            rw [ih s1 r1 hc f1 (by omega)]
            exact h

/-- C18: from every in-bounds start, whatever the grid and the goal, the
expansion loop terminates: with the fuel `searchFuel`, and with every larger
fuel, it returns one state `s` after one number `k` of Frontier extractions;
`k` is at most `1 + 4*FSIZE*FSIZE` and the Visited Table of `s` holds at most
`FSIZE*FSIZE` finalized nodes; and with whatever fuel the loop returns, it
returns this state after this number of extractions. -/
theorem expansion_loop_terminates (field : Grid) (curR curC endR endC : Int)
    (hs : isValid curR curC = true) :
    ∃ s k, search field curR curC endR endC = some s ∧
      (∀ fuel, searchFuel ≤ fuel →
        countedLoop endR endC fuel (initState field curR curC endR endC) = some (s, k) ∧
        expansionLoop endR endC fuel (initState field curR curC endR endC) = some s) ∧
      (k : Int) ≤ 1 + 4 * (FSIZE * FSIZE) ∧ (s.seen.length : Int) ≤ FSIZE * FSIZE ∧
      (∀ fuel s1 k1,
        countedLoop endR endC fuel (initState field curR curC endR endC) = some (s1, k1) →
        expansionLoop endR endC fuel (initState field curR curC endR endC) = some s1 ∧
        s1 = s ∧ k1 = k ∧
        (k1 : Int) ≤ 1 + 4 * (FSIZE * FSIZE) ∧
        (s1.seen.length : Int) ≤ FSIZE * FSIZE) := by
  have hT0 : TermInv (initState field curR curC endR endC) := TermInv.term_init hs
  obtain ⟨s0, k0, h0, hk0, hT1⟩ := counted_terminates endR endC searchFuel _ hT0 (by
    show 4 * (900 - 0) + 1 ≤ searchFuel
    decide)
  have hk1 : k0 ≤ 4 * (900 - 0) + 1 := hk0
  have hl := hT1.seen_le
  have hkb : (k0 : Int) ≤ 1 + 4 * (FSIZE * FSIZE) := by
    simp only [FSIZE]; omega
  have hsb : (s0.seen.length : Int) ≤ FSIZE * FSIZE := by
    simp only [FSIZE]; omega
  have hsearch : search field curR curC endR endC = some s0 := by
    unfold search
    rw [← countedLoop_fst, h0]; rfl
  refine ⟨s0, k0, hsearch, ?_, hkb, hsb, ?_⟩
  · intro fuel hfuel
    have hc := countedLoop_mono endR endC searchFuel _ _ h0 fuel hfuel
    exact ⟨hc, by rw [← countedLoop_fst, hc]; rfl⟩
  · intro fuel s1 k1 h
    have hbig := countedLoop_mono endR endC fuel _ _ h (max fuel searchFuel) (le_max_left _ _)
    have hbig0 := countedLoop_mono endR endC searchFuel _ _ h0 (max fuel searchFuel)
      (le_max_right _ _)
    rw [hbig] at hbig0
    injection hbig0 with e
    injection e with e1 e2
    subst e1; subst e2
    exact ⟨by rw [← countedLoop_fst, h]; rfl, rfl, rfl, hkb, hsb⟩

theorem expansion_loop_terminates_witness :
    isValid 0 0 = true ∧
    ∃ s k, search emptyGrid 0 0 4 4 = some s ∧
      (∀ fuel, searchFuel ≤ fuel →
        countedLoop 4 4 fuel (initState emptyGrid 0 0 4 4) = some (s, k) ∧
        expansionLoop 4 4 fuel (initState emptyGrid 0 0 4 4) = some s) ∧
      (k : Int) ≤ 1 + 4 * (FSIZE * FSIZE) ∧ (s.seen.length : Int) ≤ FSIZE * FSIZE ∧
      (∀ fuel s1 k1,
        countedLoop 4 4 fuel (initState emptyGrid 0 0 4 4) = some (s1, k1) →
        expansionLoop 4 4 fuel (initState emptyGrid 0 0 4 4) = some s1 ∧
        s1 = s ∧ k1 = k ∧
        (k1 : Int) ≤ 1 + 4 * (FSIZE * FSIZE) ∧
        (s1.seen.length : Int) ≤ FSIZE * FSIZE) :=
  ⟨by decide, expansion_loop_terminates emptyGrid 0 0 4 4 (by decide)⟩

theorem SafeInv.safe_init {field0 : Grid} {sR sC eR eC : Int}
    (hs : isValid sR sC = true) :
    SafeInv (initState field0 sR sC eR eC).field eR eC (initState field0 sR sC eR eC) := by
  have hnext : (initState field0 sR sC eR eC).next
      = [Node.new sR sC (getDist sR sC eR eC) 0] := rfl
  have hseen : (initState field0 sR sC eR eC).seen = [] := rfl
  have hstart : (initState field0 sR sC eR eC).field sR sC ≠ '@' := by
    show setCell (setCell field0 sR sC '*') eR eC 'x' sR sC ≠ '@'
    simp only [setCell]
    by_cases h : sR = eR ∧ sC = eC
    · rw [if_pos h]; decide
    · rw [if_neg h]; simp
  refine ⟨fun _ _ => Iff.rfl, ⟨hs, hstart⟩, ?_, ?_⟩
  · intro k x h; rw [hseen] at h; simp at h
  · intro y hy
    rw [hnext] at hy
    have : y = Node.new sR sC (getDist sR sC eR eC) 0 := by simpa using hy
    rw [this]
    exact ⟨hs, hstart, rfl, by simp [Node.new]⟩

theorem SafeInv.safe_body_step {g0 : Grid} (eR eC : Int) {s : State} {n : Node}
    {rest : List Node} (hS : SafeInv g0 eR eC s) (hnext : s.next = n :: rest) :
    SafeInv g0 eR eC (loopBody eR eC s n rest).1 := by
  have hsub : ∀ y ∈ rest, y ∈ s.next := fun y hy => by
    rw [hnext]; exact List.mem_cons_of_mem _ hy
  have hn := hS.next_safe n (by rw [hnext]; simp)
  have hseen1 : ∀ k x, (k, x) ∈ s.seen ++ [(hash n.r n.c, n)] → NodeSafe g0 eR eC x := by
    intro k x h
    rcases mem_append_single h with h | h
    · exact hS.seen_safe k x h
    · injection h with e1 e2; rw [e2]; exact hn
  rcases loopBody_cases eR eC s n rest with ⟨_, e⟩ | ⟨_, _, e⟩ | ⟨_, _, e⟩
  · rw [e]
    exact ⟨hS.blocked, hS.cur_free, hS.seen_safe, fun y hy => hS.next_safe y (hsub y hy)⟩
  · rw [e]
    exact ⟨hS.blocked, hS.cur_free, hseen1, fun y hy => hS.next_safe y (hsub y hy)⟩
  · rw [e]
    refine ⟨?_, ⟨hn.valid, hn.unblocked⟩, hseen1, ?_⟩
    · intro r c
      show setCell (setCell s.field s.curR s.curC '#') n.r n.c '*' r c = '@' ↔ _
      simp only [setCell]
      by_cases h1 : r = n.r ∧ c = n.c
      · simp only [h1, and_self, if_true]
        constructor
        · intro h; exact absurd h (by decide)
        · intro h; exact absurd h hn.unblocked
      · simp only [h1, if_false]
        by_cases h2 : r = s.curR ∧ c = s.curC
        · simp only [h2, and_self, if_true]
          constructor
          · intro h; exact absurd h (by decide)
          · intro h; exact absurd h hS.cur_free.2
        · simp only [h2, if_false]
          exact hS.blocked r c
    · intro y hy
      rcases mem_expand hy with hin | ⟨i, _, e1, hv, hb, _⟩
      · exact hS.next_safe y (hsub y hin)
      · rw [e1]
        refine ⟨hv, fun h => hb ((hS.blocked _ _).2 h), rfl, ?_⟩
        rw [nextNode_priority, nextNode_dist, nextNode_heuristic]; omega

theorem Reach.safe {field0 : Grid} {sR sC eR eC : Int} (hs : isValid sR sC = true)
    {s : State} (h : Reach field0 sR sC eR eC s) :
    SafeInv (initState field0 sR sC eR eC).field eR eC s := by
  induction h with
  | init => exact SafeInv.safe_init hs
  | @step s n rest _ hnext _ ih => exact ih.safe_body_step eR eC hnext

theorem SafeInv.node_now {g0 : Grid} {eR eC : Int} {s : State} (hS : SafeInv g0 eR eC s)
    {x : Node} (hx : NodeSafe g0 eR eC x) : NodeSafe s.field eR eC x :=
  ⟨hx.valid, fun h => hx.unblocked ((hS.blocked _ _).1 h), hx.heur, hx.prio⟩

/-- C17: from an in-bounds start, in every state of the expansion loop and in
the state in which the loop ends, every Search Node of the Frontier and of
the Visited Table lies on an in-bounds cell that is not blocked, has the
Manhattan distance of its cell to the goal as heuristic and dist + heuristic
as priority; and every index at which a pass of the loop body reads or
writes the grid is in bounds. -/
theorem no_invalid_coordinate (field : Grid) (curR curC endR endC : Int)
    (hs : isValid curR curC = true) :
    (∀ t, Reach field curR curC endR endC t →
      (∀ y ∈ t.next, NodeSafe t.field endR endC y) ∧
      (∀ k x, (k, x) ∈ t.seen → NodeSafe t.field endR endC x) ∧
      (∀ n rest, t.next = n :: rest →
        ∀ a ∈ bodyAccesses endR endC t n, isValid a.1 a.2 = true)) ∧
    (∀ s, search field curR curC endR endC = some s →
      (∀ y ∈ s.next, NodeSafe s.field endR endC y) ∧
      (∀ k x, (k, x) ∈ s.seen → NodeSafe s.field endR endC x)) := by
  refine ⟨?_, ?_⟩
  · intro t ht
    have hS := ht.safe hs
    refine ⟨fun y hy => hS.node_now (hS.next_safe y hy),
      fun k x hx => hS.node_now (hS.seen_safe k x hx), ?_⟩
    intro n rest hnext a ha
    have hn := hS.next_safe n (by rw [hnext]; simp)
    unfold bodyAccesses at ha
    by_cases h1 : (seenFind (hash n.r n.c) t.seen).isSome = true
    · rw [if_pos h1] at ha; simp at ha
    · rw [if_neg h1] at ha
      by_cases h2 : getDist n.r n.c endR endC = 0
      · rw [if_pos h2] at ha; simp at ha
      · rw [if_neg h2] at ha
        rcases List.mem_append.1 ha with ha | ha
        · rw [List.mem_map] at ha
          obtain ⟨i, hi, e⟩ := ha
          rw [List.mem_filter] at hi
          rw [← e]
          exact hi.2
        · rcases List.mem_cons.1 ha with e | ha
          · rw [e]; exact hS.cur_free.1
          · have : a = (n.r, n.c) := by simpa using ha
            rw [this]; exact hn.valid
  · intro s hsome
    have hS := (loop_induct endR endC
      (SafeInv (initState field curR curC endR endC).field endR endC)
      (fun _ _ _ hq _ hn => hq.safe_body_step endR endC hn)
      searchFuel _ s (SafeInv.safe_init hs) rfl hsome).1
    exact ⟨fun y hy => hS.node_now (hS.next_safe y hy),
      fun k x hx => hS.node_now (hS.seen_safe k x hx)⟩

theorem no_invalid_coordinate_witness :
    isValid 0 0 = true ∧
    ((∀ t, Reach emptyGrid 0 0 4 4 t →
      (∀ y ∈ t.next, NodeSafe t.field 4 4 y) ∧
      (∀ k x, (k, x) ∈ t.seen → NodeSafe t.field 4 4 x) ∧
      (∀ n rest, t.next = n :: rest →
        ∀ a ∈ bodyAccesses 4 4 t n, isValid a.1 a.2 = true)) ∧
    (∀ s, search emptyGrid 0 0 4 4 = some s →
      (∀ y ∈ s.next, NodeSafe s.field 4 4 y) ∧
      (∀ k x, (k, x) ∈ s.seen → NodeSafe s.field 4 4 x))) :=
  ⟨by decide, no_invalid_coordinate emptyGrid 0 0 4 4 (by decide)⟩

theorem StaleInv.stale_init {field0 : Grid} {sR sC eR eC : Int} :
    StaleInv eR eC (initState field0 sR sC eR eC) := by
  have hnext : (initState field0 sR sC eR eC).next
      = [Node.new sR sC (getDist sR sC eR eC) 0] := rfl
  have hseen : (initState field0 sR sC eR eC).seen = [] := rfl
  refine ⟨by rw [hnext]; simp [SortedF], ?_, ?_, ?_⟩
  · intro y hy
    rw [hnext] at hy
    have : y = Node.new sR sC (getDist sR sC eR eC) 0 := by simpa using hy
    rw [this]
    exact ⟨by simp [Node.new], rfl⟩
  · intro k x h; rw [hseen] at h; simp at h
  · intro y _ k x h; rw [hseen] at h; simp at h

theorem StaleInv.stale_body_step (eR eC : Int) {s : State} {n : Node}
    {rest : List Node} (hS : StaleInv eR eC s) (hnext : s.next = n :: rest) :
    StaleInv eR eC (loopBody eR eC s n rest).1 := by
  have hsub : ∀ y ∈ rest, y ∈ s.next := fun y hy => by
    rw [hnext]; exact List.mem_cons_of_mem _ hy
  have hsorted := hS.sorted
  rw [hnext] at hsorted
  have hsort1 := List.pairwise_cons.1 hsorted
  have hnk := hS.next_key n (by rw [hnext]; simp)
  have hkey1 : ∀ k x, (k, x) ∈ s.seen ++ [(hash n.r n.c, n)] → k = hash x.r x.c := by
    intro k x h
    rcases mem_append_single h with h | h
    · exact hS.seen_key k x h
    · injection h with e1 e2; rw [e1, e2]
  have hstale_rest : ∀ y ∈ rest, ∀ k x, (k, x) ∈ s.seen ++ [(hash n.r n.c, n)] →
      y.r = x.r → y.c = x.c → x.dist < y.dist := by
    intro y hy k x hx hr hc
    rcases mem_append_single hx with hx | hx
    · exact hS.stale y (hsub y hy) k x hx hr hc
    · injection hx with e1 e2
      subst e2
      have hlt := (Node.lt_iff x y).1 (hsort1.1 y hy)
      have hyk := hS.next_key y (hsub y hy)
      have hh : y.heuristic = x.heuristic := by rw [hyk.2, hnk.2, hr, hc]
      omega
  rcases loopBody_cases eR eC s n rest with ⟨_, e⟩ | ⟨_, _, e⟩ | ⟨_, _, e⟩
  · rw [e]
    exact ⟨hsort1.2, fun y hy => hS.next_key y (hsub y hy), hS.seen_key,
      fun y hy => hS.stale y (hsub y hy)⟩
  · rw [e]
    exact ⟨hsort1.2, fun y hy => hS.next_key y (hsub y hy), hkey1, hstale_rest⟩
  · rw [e]
    refine ⟨?_, ?_, hkey1, ?_⟩
    · show SortedF (expand s.field (s.seen ++ [(hash n.r n.c, n)]) eR eC n rest)
      unfold expand
      apply foldl_visit_induct SortedF
      · exact hsort1.2
      · intro nx i _ hp
        rcases visitNeighbour_cases s.field (s.seen ++ [(hash n.r n.c, n)]) eR eC n nx i
          with ⟨e1, _⟩ | ⟨e1, _⟩
        · rw [e1]; exact hp
        · rw [e1]; exact setInsert_sorted _ _ hp
    · intro y hy
      rcases mem_expand hy with hin | ⟨i, _, e1, _, _, _⟩
      · exact hS.next_key y (hsub y hin)
      · rw [e1]
        refine ⟨?_, rfl⟩
        rw [nextNode_priority, nextNode_dist, nextNode_heuristic]; omega
    · intro y hy k x hx hr hc
      rcases mem_expand hy with hin | ⟨i, _, e1, _, _, hf⟩
      · exact hstale_rest y hin k x hx hr hc
      · exfalso
        have hk := hkey1 k x hx
        rw [e1, nextNode_r] at hr
        rw [e1, nextNode_c] at hc
        rw [hr, hc, ← hk] at hf
        have hx1 : (k, x) ∈ s.seen ++ [(hash n.r n.c, n)] := hx
        have := seenFind_isSome_of_mem hx1
        rw [hf] at this
        exact Bool.noConfusion this

theorem Reach.stale {field0 : Grid} {sR sC eR eC : Int} {s : State}
    (h : Reach field0 sR sC eR eC s) : StaleInv eR eC s := by
  induction h with
  | init => exact StaleInv.stale_init
  | @step s n rest _ hnext _ ih => exact ih.stale_body_step eR eC hnext

/-- C15: from an in-bounds start, when a pass of the expansion loop extracts a
node whose cell the Visited Table holds already, the body discards the node,
the entry found is that of the same cell, and the dist of the discarded node
is strictly greater than the dist that the entry records. -/
theorem lazy_discard_higher_cost (field : Grid) (curR curC endR endC : Int)
    (hs : isValid curR curC = true) (s : State) (n x : Node) (rest : List Node)
    (hr : Reach field curR curC endR endC s) (hnext : s.next = n :: rest)
    (hf : seenFind (hash n.r n.c) s.seen = some x) :
    loopBody endR endC s n rest = (discardState s rest, false) ∧
    x.r = n.r ∧ x.c = n.c ∧ n.dist > x.dist := by
  have hS := hr.stale
  have hV := hr.safe hs
  have hmem := seenFind_some_mem hf
  have hkey := hS.seen_key _ _ hmem
  have hnv := (hV.next_safe n (by rw [hnext]; simp)).valid
  have hxv := (hV.seen_safe _ _ hmem).valid
  have hcell := hash_inj hnv hxv hkey
  refine ⟨?_, hcell.1.symm, hcell.2.symm, ?_⟩
  · rcases loopBody_cases endR endC s n rest with ⟨_, e⟩ | ⟨h1, _, _⟩ | ⟨h1, _, _⟩
    · exact e
    · rw [hf] at h1; exact Option.noConfusion h1
    · rw [hf] at h1; exact Option.noConfusion h1
  · exact hS.stale n (by rw [hnext]; simp) _ x hmem hcell.1 hcell.2

theorem staleState_reach : Reach staleGrid 1 4 0 1 staleState := by
  have h1 : Reach staleGrid 1 4 0 1 staleState1 :=
    Reach.step Reach.init (by decide) (by decide)
  have h2 : Reach staleGrid 1 4 0 1 staleState2 := Reach.step h1 (by decide) (by decide)
  have h3 : Reach staleGrid 1 4 0 1 staleState3 := Reach.step h2 (by decide) (by decide)
  exact Reach.step h3 (by decide) (by decide)

theorem lazy_discard_higher_cost_witness :
    isValid 1 4 = true ∧ Reach staleGrid 1 4 0 1 staleState ∧
    staleState.next = nodeAt 0 1 1 3 3 0 3 ::
      [nodeAt 0 1 0 5 2 0 4, nodeAt 0 1 2 3 2 1 3, nodeAt 0 1 1 5 1 1 4,
        nodeAt 0 1 2 4 1 1 4] ∧
    seenFind (hash (nodeAt 0 1 1 3 3 0 3).r (nodeAt 0 1 1 3 3 0 3).c) staleState.seen
      = some (nodeAt 0 1 1 3 1 1 4) ∧
    (nodeAt 0 1 1 3 3 0 3).dist > (nodeAt 0 1 1 3 1 1 4).dist :=
  ⟨by decide, staleState_reach, by decide, by decide,
    (lazy_discard_higher_cost staleGrid 1 4 0 1 (by decide) staleState
      (nodeAt 0 1 1 3 3 0 3) (nodeAt 0 1 1 3 1 1 4)
      [nodeAt 0 1 0 5 2 0 4, nodeAt 0 1 2 3 2 1 3, nodeAt 0 1 1 5 1 1 4,
        nodeAt 0 1 2 4 1 1 4]
      staleState_reach (by decide) (by decide)).2.2.2⟩

theorem Inv.parent_linked {field0 : Grid} {sR sC eR eC : Int} {s : State}
    (hI : Inv field0 sR sC eR eC s) (hs : Free field0 sR sC) :
    ParentLinked sR sC s.seen := by
  intro k x hx
  have hok := hI.seen_ok k x hx
  rcases hok.parent with ⟨h1, h2, h3, h4, h5⟩ | ⟨p, hp, hpr, hpc, hpd, hadj, _⟩
  · exact ⟨⟨fun _ => ⟨h3, h4⟩, fun _ => ⟨h1, h2⟩⟩, fun _ => h5,
      fun h => absurd ⟨h3, h4⟩ h⟩
  · have hpok := hI.seen_ok _ _ hp
    have hpv := isValid_iff.1 hpok.valid
    have hp0 := hpok.walk.nonneg
    have hnot : ¬ (x.r = sR ∧ x.c = sC) := by
      rintro ⟨e1, e2⟩
      have := hI.optimal k x hx 0 (by rw [e1, e2]; exact Walk.nil hs)
      omega
    refine ⟨⟨?_, fun h => absurd h hnot⟩, fun h => absurd h hnot, fun _ => ?_⟩
    · rintro ⟨e1, _⟩
      rw [← hpr] at e1
      omega
    · refine ⟨p, seenFind_of_mem_nodup hI.seen_nodup hp, hpr, hpc, ?_, hadj, by omega⟩
      rw [← hpr, ← hpc]; exact hpok.valid

theorem Inv.walk_reaches_start {field0 : Grid} {sR sC eR eC : Int} {s : State}
    (hI : Inv field0 sR sC eR eC s) : WalkReachesStart sR sC s.seen := by
  intro k x hx
  have h0 := (hI.seen_ok _ _ hx).walk.nonneg
  have hb := hI.seen_bound _ _ hx
  have hl := hI.seen_length_le
  obtain ⟨cells, hmark, hpath, _, _⟩ := hI.chain x.dist.toNat _ x hx (by omega)
  refine ⟨cells, fun g => hmark markFuel ?_ g, hpath.2.2⟩
  show x.dist.toNat + 1 ≤ 900
  omega

/-- When the loop has ended with `found` set: the current cell is the parent
that the goal's entry records and is not the goal; the walk from the current
cell visits a path to the start, and the walk from the goal visits the goal
and then the same cells. -/
theorem Inv.found_chain {field0 : Grid} {sR sC eR eC : Int} {s : State}
    (hI : Inv field0 sR sC eR eC s) (hM : MonoInv sR sC eR eC s)
    (hne : ¬ (sR = eR ∧ sC = eC)) (hf : s.found = true) :
    ∃ x cp, seenFind (hash eR eC) s.seen = some x ∧ x.r = eR ∧ x.c = eC ∧
      x.fromR = s.curR ∧ x.fromC = s.curC ∧ ¬ (s.curR = eR ∧ s.curC = eC) ∧
      (∀ g, markPath s.seen markFuel g s.curR s.curC = some (paintCells g cp, cp)) ∧
      (∀ g, markPath s.seen markFuel g eR eC
        = some (paintCells g ((eR, eC) :: cp), (eR, eC) :: cp)) ∧
      PathFromTo field0 (eR, eC) (sR, sC) ((eR, eC) :: cp) ∧
      PathFromTo field0 (s.curR, s.curC) (sR, sC) cp ∧ (eR, eC) ∉ cp := by
  obtain ⟨k, x, hlast, hxr, hxc, hfr, hfc⟩ := hM.cur_found hf
  have hmem : (k, x) ∈ s.seen := List.mem_of_getLast?_eq_some hlast
  have hok := hI.seen_ok k x hmem
  have hkey := hI.seen_key k x hmem
  have hfind : seenFind (hash x.r x.c) s.seen = some x := by
    rw [← hkey]; exact seenFind_of_mem_nodup hI.seen_nodup hmem
  have hb := hI.seen_bound _ _ hmem
  have hl := hI.seen_length_le
  have hv := isValid_iff.1 hok.valid
  have hxr1 : x.r ≠ -1 := by omega
  have hmf : markFuel = 899 + 1 := by decide
  rcases hok.parent with ⟨_, _, h3, h4, _⟩ | ⟨p, hp, hpr, hpc, hpd, _, hpg⟩
  · exact absurd ⟨h3.symm.trans hxr, h4.symm.trans hxc⟩ hne
  · have hp0 := (hI.seen_ok _ _ hp).walk.nonneg
    obtain ⟨cp, hmarkp, hpathp, _, havoid⟩ := hI.chain p.dist.toNat _ p hp (by omega)
    obtain ⟨cx, hmarkx, hpathx, _, _⟩ := hI.chain x.dist.toNat _ x hmem (by omega)
    have hcx : cx = (x.r, x.c) :: cp := by
      have h1 := hmarkx markFuel (by rw [hmf]; omega) s.field
      rw [hmf, markPath_succ hxr1 hfind, ← hpr, ← hpc, hmarkp 899 (by omega)] at h1
      simp only [Option.some.injEq, Prod.mk.injEq] at h1
      exact h1.2.symm
    have hgoal_notin : (eR, eC) ∉ cp := by
      intro hin
      by_cases e : ((eR, eC) : Int × Int) = (p.r, p.c)
      · injection e with e1 e2
        exact hpg ⟨e1.symm, e2.symm⟩
      · exact havoid _ hin e rfl
    have hcur : s.curR = p.r ∧ s.curC = p.c := ⟨by rw [hpr, hfr], by rw [hpc, hfc]⟩
    rw [hcx, hxr, hxc] at hmarkx hpathx
    rw [hxr, hxc] at hfind
    refine ⟨x, cp, hfind, hxr, hxc, hfr, hfc, ?_, ?_, ?_, hpathx, ?_, hgoal_notin⟩
    · rw [hcur.1, hcur.2]; exact hpg
    · intro g
      rw [hcur.1, hcur.2]
      exact hmarkp markFuel (by rw [hmf]; omega) g
    · intro g
      exact hmarkx markFuel (by rw [hmf]; omega) g
    · rw [hcur.1, hcur.2]; exact hpathp

/-- C14: whenever the Frontier holds a node for the goal cell at the head of
the loop, that node is the head of the Frontier and its parent is the current
cell, the cell finalized last; so when the loop ends with `found` set, the
current cell is not the goal but the parent that the Visited Table records
for the goal, and the cells that the walk from the current cell visits,
with the goal cell in front, are the parent chain from the goal to the
start. -/
theorem walk_starts_at_goal_parent (field : Grid) (curR curC endR endC : Int)
    (hs : Free field curR curC) (hg : Free field endR endC)
    (hne : ¬ (curR = endR ∧ curC = endC)) :
    (∀ t, Reach field curR curC endR endC t → ∀ y ∈ t.next, y.r = endR → y.c = endC →
      (∃ rest, t.next = y :: rest) ∧ y.fromR = t.curR ∧ y.fromC = t.curC ∧
      ∃ k p, t.seen.getLast? = some (k, p) ∧ p.r = t.curR ∧ p.c = t.curC) ∧
    ∃ s, search field curR curC endR endC = some s ∧
      (s.found = true →
        ¬ (s.curR = endR ∧ s.curC = endC) ∧
        ∃ x painted, seenFind (hash endR endC) s.seen = some x ∧
          x.fromR = s.curR ∧ x.fromC = s.curC ∧
          (∀ g, markPath s.seen markFuel g s.curR s.curC
            = some (paintCells g painted, painted)) ∧
          (∀ g, markPath s.seen markFuel g endR endC
            = some (paintCells g ((endR, endC) :: painted), (endR, endC) :: painted)) ∧
          PathFromTo field (endR, endC) (curR, curC) ((endR, endC) :: painted)) := by
  refine ⟨?_, ?_⟩
  · intro t ht y hy hyr hyc
    obtain ⟨hI, hM, hnf⟩ := ht.inv hs hg hne
    obtain ⟨hfr, hfc, hmin⟩ := hM.goal_next hnf y hy hyr hyc
    have hoky := hI.next_ok y hy
    have hy0 : y.heuristic = 0 := by
      rw [hoky.heur, hyr, hyc]; exact getDist_eq_zero.2 ⟨rfl, rfl⟩
    refine ⟨?_, hfr, hfc, ?_⟩
    · cases hn : t.next with
      | nil => rw [hn] at hy; simp at hy
      | cons n rest =>
        rw [hn] at hy
        rcases List.mem_cons.1 hy with e | hin
        · exact ⟨rest, by rw [e]⟩
        · exfalso
          have hsorted := hI.sorted
          rw [hn] at hsorted
          have hlt := (Node.lt_iff n y).1 ((List.pairwise_cons.1 hsorted).1 y hin)
          have hokn := hI.next_ok n (by rw [hn]; simp)
          have hle := hmin n (by rw [hn]; simp)
          have hn0 := getDist_nonneg n.r n.c endR endC
          have hnh := hokn.heur
          by_cases hz : n.heuristic = 0
          · rw [hz] at hnh
            have hcell := getDist_eq_zero.1 hnh.symm
            omega
          · omega
    · rcases hoky.parent with ⟨_, _, h3, h4, _⟩ | ⟨p, hp, _, _, _, _, _⟩
      · exact absurd ⟨h3.symm.trans hyr, h4.symm.trans hyc⟩ hne
      · rcases hM.cur_last hnf with ⟨hnil, _⟩ | h
        · rw [hnil] at hp; simp at hp
        · exact h
  · obtain ⟨s, hsome, hI, hM, _⟩ := search_spec hs hg hne
    refine ⟨s, hsome, ?_⟩
    intro hf
    obtain ⟨x, cp, h1, _, _, h4, h5, h6, h7, h8, h9, _, _⟩ := hI.found_chain hM hne hf
    exact ⟨h6, x, cp, h1, h4, h5, h7, h8, h9⟩

theorem walk_starts_at_goal_parent_witness :
    Free emptyGrid 0 0 ∧ Free emptyGrid 4 4 ∧ ¬ ((0 : Int) = 4 ∧ (0 : Int) = 4) ∧
    ∃ s, search emptyGrid 0 0 4 4 = some s ∧
      (s.found = true →
        ¬ (s.curR = 4 ∧ s.curC = 4) ∧
        ∃ x painted, seenFind (hash 4 4) s.seen = some x ∧
          x.fromR = s.curR ∧ x.fromC = s.curC ∧
          (∀ g, markPath s.seen markFuel g s.curR s.curC
            = some (paintCells g painted, painted)) ∧
          (∀ g, markPath s.seen markFuel g 4 4
            = some (paintCells g ((4, 4) :: painted), (4, 4) :: painted)) ∧
          PathFromTo emptyGrid (4, 4) (0, 0) ((4, 4) :: painted)) :=
  ⟨by decide, by decide, by decide,
    (walk_starts_at_goal_parent emptyGrid 0 0 4 4 (by decide) (by decide) (by decide)).2⟩

/-- C16: in every state of the expansion loop and in the state in which the
loop ends, the entries of the Visited Table with the sentinel as parent are
those of the start cell, with dist 0, and every other entry has as parent an
in-bounds 4-adjacent cell that the table holds with a dist one less; from
every entry the path-marking walk finds every node it looks up and ends at
the start cell; so does the walk of the program when `found` is set. -/
theorem parent_link_invariant (field : Grid) (curR curC endR endC : Int)
    (hs : Free field curR curC) (hg : Free field endR endC)
    (hne : ¬ (curR = endR ∧ curC = endC)) :
    (∀ t, Reach field curR curC endR endC t →
      ParentLinked curR curC t.seen ∧ WalkReachesStart curR curC t.seen) ∧
    ∃ s, search field curR curC endR endC = some s ∧
      ParentLinked curR curC s.seen ∧ WalkReachesStart curR curC s.seen ∧
      (s.found = true → ∃ g painted, markIfFound s = some (g, painted) ∧
        painted.getLast? = some (curR, curC)) := by
  refine ⟨?_, ?_⟩
  · intro t ht
    obtain ⟨hI, _, _⟩ := ht.inv hs hg hne
    exact ⟨hI.parent_linked hs, hI.walk_reaches_start⟩
  · obtain ⟨s, hsome, hI, hM, _⟩ := search_spec hs hg hne
    refine ⟨s, hsome, hI.parent_linked hs, hI.walk_reaches_start, ?_⟩
    intro hf
    obtain ⟨x, cp, _, _, _, _, _, _, h7, _, _, h10, _⟩ := hI.found_chain hM hne hf
    refine ⟨paintCells s.field cp, cp, ?_, h10.2.2⟩
    unfold markIfFound
    rw [if_pos hf]
    exact h7 s.field

theorem parent_link_invariant_witness :
    Free emptyGrid 0 0 ∧ Free emptyGrid 4 4 ∧ ¬ ((0 : Int) = 4 ∧ (0 : Int) = 4) ∧
    ((∀ t, Reach emptyGrid 0 0 4 4 t →
      ParentLinked 0 0 t.seen ∧ WalkReachesStart 0 0 t.seen) ∧
    ∃ s, search emptyGrid 0 0 4 4 = some s ∧
      ParentLinked 0 0 s.seen ∧ WalkReachesStart 0 0 s.seen ∧
      (s.found = true → ∃ g painted, markIfFound s = some (g, painted) ∧
        painted.getLast? = some (0, 0))) :=
  ⟨by decide, by decide, by decide,
    parent_link_invariant emptyGrid 0 0 4 4 (by decide) (by decide) (by decide)⟩

theorem visitNeighbour_congr {f1 f2 : Grid} (h : ∀ r c, f1 r c = '@' ↔ f2 r c = '@')
    (seen : Seen) (eR eC : Int) (n : Node) (nx : List Node) (i : Nat) :
    visitNeighbour f1 seen eR eC n nx i = visitNeighbour f2 seen eR eC n nx i := by
  unfold visitNeighbour
  simp only
  have e : decide (f1 (n.r + DR.getD i 0) (n.c + DC.getD i 0) = '@')
      = decide (f2 (n.r + DR.getD i 0) (n.c + DC.getD i 0) = '@') :=
    decide_eq_decide.2 (h _ _)
  rw [e]

theorem expand_congr {f1 f2 : Grid} (h : ∀ r c, f1 r c = '@' ↔ f2 r c = '@')
    (seen : Seen) (eR eC : Int) (n : Node) (rest : List Node) :
    expand f1 seen eR eC n rest = expand f2 seen eR eC n rest := by
  unfold expand
  have : visitNeighbour f1 seen eR eC n = visitNeighbour f2 seen eR eC n := by
    funext nx i; exact visitNeighbour_congr h seen eR eC n nx i
  rw [this]

theorem loopBodyPlain_same {s u : State} (eR eC : Int) (n : Node) (rest : List Node)
    (hb : ∀ r c, s.field r c = '@' ↔ u.field r c = '@') (h : SameSearch s u) :
    SameSearch (loopBody eR eC s n rest).1 (loopBodyPlain eR eC u n rest).1 ∧
    (loopBody eR eC s n rest).2 = (loopBodyPlain eR eC u n rest).2 ∧
    (loopBodyPlain eR eC u n rest).1.field = u.field := by
  obtain ⟨h1, h2, h3, h4, h5⟩ := h
  unfold loopBody loopBodyPlain
  rw [← h1]
  by_cases hf : (seenFind (hash n.r n.c) s.seen).isSome = true
  · rw [if_pos hf, if_pos hf]
    exact ⟨⟨rfl, rfl, h3, h4, h5⟩, rfl, rfl⟩
  · rw [if_neg hf, if_neg hf]
    by_cases hg : getDist n.r n.c eR eC = 0
    · simp only [if_pos hg]
      refine ⟨⟨?_, ?_, ?_, ?_, ?_⟩, ?_, ?_⟩ <;> trivial
    · simp only [if_neg hg]
      refine ⟨⟨?_, ?_, ?_, ?_, ?_⟩, ?_, ?_⟩ <;>
        first | trivial | assumption | exact expand_congr hb _ _ _ _ _

/-- The search without markers ends when the search with markers does, in a
state with the same Visited Table, Frontier, `found` and current cell. -/
theorem plain_simulates {field0 : Grid} {sR sC eR eC : Int}
    (hgv : isValid eR eC = true) :
    ∀ (fuel : Nat) (s u s1 : State), Inv field0 sR sC eR eC s → s.found = false →
      SameSearch s u → u.field = field0 → expansionLoop eR eC fuel s = some s1 →
      ∃ u1, expansionLoopPlain eR eC fuel u = some u1 ∧ SameSearch s1 u1 := by
  intro fuel
  induction fuel with
  | zero =>
    intro s u s1 _ _ hsame _ h
    unfold expansionLoop at h
    unfold expansionLoopPlain
    rw [← hsame.2.1]
    cases hn : s.next with
    | nil =>
      rw [hn] at h
      simp only [Option.some.injEq] at h
      subst h
      exact ⟨u, rfl, hsame⟩
    | cons n rest => rw [hn] at h; simp at h
  | succ fuel ih =>
    intro s u s1 hI hnf hsame hu h
    unfold expansionLoop at h
    unfold expansionLoopPlain
    rw [← hsame.2.1]
    cases hn : s.next with
    | nil =>
      rw [hn] at h
      simp only [Option.some.injEq] at h
      subst h
      exact ⟨u, rfl, hsame⟩
    | cons n rest =>
      rw [hn] at h
      simp only at h ⊢
      have hb : ∀ r c, s.field r c = '@' ↔ u.field r c = '@' := by
        intro r c; rw [hu]; exact hI.blocked r c
      obtain ⟨hs1, hs2, hs3⟩ := loopBodyPlain_same eR eC n rest hb hsame
      have hI1 := hI.core_body_step hgv hnf hn
      have hfd := loopBody_found eR eC n rest hnf
      cases hl : loopBody eR eC s n rest with
      | mk s2 b =>
        cases hp : loopBodyPlain eR eC u n rest with
        | mk u2 b1 =>
          rw [hl, hp] at hs1 hs2
          rw [hp] at hs3
          rw [hl] at h hI1 hfd
          simp only at hs1 hs2 hs3 hI1 hfd
          subst hs2
          cases b with
          | true =>
            simp only [Option.some.injEq] at h
            subst h
            exact ⟨u2, rfl, hs1⟩
          | false =>
            simp only at h ⊢
            exact ih s2 u2 s1 hI1 hfd hs1 (hs3.trans hu) h

theorem markPath_grid (seen : Seen) :
    ∀ (fuel : Nat) (g : Grid) (r c : Int) (g1 : Grid) (cells : List (Int × Int)),
      markPath seen fuel g r c = some (g1, cells) → g1 = paintCells g cells := by
  intro fuel
  induction fuel with
  | zero =>
    intro g r c g1 cells h
    unfold markPath at h
    by_cases hr : r = -1
    · simp only [hr, if_true, Option.some.injEq, Prod.mk.injEq] at h
      rw [← h.1, ← h.2, paintCells_nil]
    · simp [hr] at h
  | succ f ih =>
    intro g r c g1 cells h
    by_cases hr : r = -1
    · rw [hr, markPath_sentinel] at h
      simp only [Option.some.injEq, Prod.mk.injEq] at h
      rw [← h.1, ← h.2, paintCells_nil]
    · cases hf : seenFind (hash r c) seen with
      | none =>
        rw [markPath] at h
        simp [hr, hf] at h
      | some n =>
        rw [markPath_succ hr hf] at h
        cases hm : markPath seen f (setCell g r c '*') n.fromR n.fromC with
        | none => rw [hm] at h; simp at h
        | some res =>
          obtain ⟨g2, cells2⟩ := res
          rw [hm] at h
          simp only [Option.some.injEq, Prod.mk.injEq] at h
          rw [← h.1, ← h.2, ih _ _ _ _ _ hm, paintCells_cons]

/-- C19: in every state of the expansion loop, and in the grid that the path
marking leaves, a cell is blocked exactly if it was blocked when the search
started, and the cells on which the body writes its markers, the current
cell and the cell of the extracted node, are not blocked; the search that
paints no marker ends in a state with the same Visited Table, in the same
order, the same Frontier and the same `found`. -/
theorem painting_does_not_influence_search (field : Grid) (curR curC endR endC : Int)
    (hs : Free field curR curC) (hg : Free field endR endC)
    (hne : ¬ (curR = endR ∧ curC = endC)) :
    (∀ t, Reach field curR curC endR endC t →
      (∀ r c, t.field r c = '@' ↔ field r c = '@') ∧
      t.field t.curR t.curC ≠ '@' ∧
      ∀ n rest, t.next = n :: rest → t.field n.r n.c ≠ '@') ∧
    ∃ s u, search field curR curC endR endC = some s ∧
      searchPlain field curR curC endR endC = some u ∧
      s.seen = u.seen ∧ s.next = u.next ∧ s.found = u.found ∧
      (∀ r c, s.field r c = '@' ↔ field r c = '@') ∧
      ∃ g painted, markIfFound s = some (g, painted) ∧
        ∀ r c, g r c = '@' ↔ field r c = '@' := by
  refine ⟨?_, ?_⟩
  · intro t ht
    obtain ⟨hI, _, _⟩ := ht.inv hs hg hne
    refine ⟨hI.blocked, fun h => hI.cur_free.2 ((hI.blocked _ _).1 h), ?_⟩
    intro n rest hn h
    exact (hI.next_ok n (by rw [hn]; simp)).unblocked ((hI.blocked _ _).1 h)
  · obtain ⟨s, hsome, hI, hM, _⟩ := search_spec hs hg hne
    obtain ⟨u, hu, hsame⟩ := plain_simulates hg.1 searchFuel
      (initState field curR curC endR endC)
      { initState field curR curC endR endC with field := field } s
      (Inv.core_init hs hg hne) rfl ⟨rfl, rfl, rfl, rfl, rfl⟩ rfl hsome
    refine ⟨s, u, hsome, hu, hsame.1, hsame.2.1, hsame.2.2.1, hI.blocked, ?_⟩
    cases hf : s.found with
    | false =>
      refine ⟨s.field, [], ?_, hI.blocked⟩
      unfold markIfFound
      rw [hf]; simp
    | true =>
      obtain ⟨x, cp, _, _, _, _, _, _, h7, _, _, h10, _⟩ := hI.found_chain hM hne hf
      refine ⟨paintCells s.field cp, cp, ?_, ?_⟩
      · unfold markIfFound
        rw [if_pos hf]
        exact h7 s.field
      · intro r c
        unfold paintCells
        by_cases hin : (r, c) ∈ cp
        · rw [if_pos hin]
          constructor
          · intro h; exact absurd h (by decide)
          · intro h; exact absurd h (h10.1.1 (r, c) hin).2
        · rw [if_neg hin]; exact hI.blocked r c

theorem painting_does_not_influence_search_witness :
    Free emptyGrid 0 0 ∧ Free emptyGrid 4 4 ∧ ¬ ((0 : Int) = 4 ∧ (0 : Int) = 4) ∧
    ∃ s u, search emptyGrid 0 0 4 4 = some s ∧
      searchPlain emptyGrid 0 0 4 4 = some u ∧
      s.seen = u.seen ∧ s.next = u.next ∧ s.found = u.found ∧
      (∀ r c, s.field r c = '@' ↔ emptyGrid r c = '@') ∧
      ∃ g painted, markIfFound s = some (g, painted) ∧
        ∀ r c, g r c = '@' ↔ emptyGrid r c = '@' :=
  ⟨by decide, by decide, by decide,
    (painting_does_not_influence_search emptyGrid 0 0 4 4 (by decide) (by decide)
      (by decide)).2⟩

theorem RAND_valid {x y : Int} (hx : 0 ≤ x) (hy : 0 ≤ y) :
    isValid (RAND 0 (FSIZE - 1) x) (RAND 0 (FSIZE - 1) y) = true := by
  have h1 := RAND_bounds (a := 0) (b := FSIZE - 1) hx (by decide)
  have h2 := RAND_bounds (a := 0) (b := FSIZE - 1) hy (by decide)
  have eF : FSIZE = 30 := rfl
  rw [isValid_iff]
  omega

theorem placementLoop_exit {field : Grid} {rand : Nat → Int} (hrand : ∀ k, 0 ≤ rand k) :
    ∀ (fuel k : Nat) (cR cC eR eC : Int) (res : Int × Int × Int × Int),
      ((isValid cR cC = true ∧ isValid eR eC = true) ∨ (cR = eR ∧ cC = eC)) →
      placementLoop field rand fuel k cR cC eR eC = some res →
      isValid res.1 res.2.1 = true ∧ isValid res.2.2.1 res.2.2.2 = true ∧
      ¬ (res.1 = res.2.2.1 ∧ res.2.1 = res.2.2.2) ∧
      field res.1 res.2.1 ≠ '@' ∧ field res.2.2.1 res.2.2.2 ≠ '@' := by
  intro fuel
  induction fuel with
  | zero =>
    intro k cR cC eR eC res hpre h
    unfold placementLoop at h
    by_cases hc : (cR = eR ∧ cC = eC) ∨ field cR cC = '@' ∨ field eR eC = '@'
    · rw [if_pos hc] at h; simp at h
    · rw [if_neg hc] at h
      simp only [Option.some.injEq] at h
      subst h
      simp only [not_or] at hc
      rcases hpre with hv | he
      · exact ⟨hv.1, hv.2, hc.1, hc.2.1, hc.2.2⟩
      · exact absurd he hc.1
  | succ fuel ih =>
    intro k cR cC eR eC res hpre h
    unfold placementLoop at h
    by_cases hc : (cR = eR ∧ cC = eC) ∨ field cR cC = '@' ∨ field eR eC = '@'
    · rw [if_pos hc] at h
      simp only at h
      exact ih _ _ _ _ _ res
        (Or.inl ⟨RAND_valid (hrand _) (hrand _), RAND_valid (hrand _) (hrand _)⟩) h
    · rw [if_neg hc] at h
      simp only [Option.some.injEq] at h
      subst h
      simp only [not_or] at hc
      rcases hpre with hv | he
      · exact ⟨hv.1, hv.2, hc.1, hc.2.1, hc.2.2⟩
      · exact absurd he hc.1

/-- C13: whenever the placement loop exits, on values of `rand()` that are
not negative, start and goal are in bounds, are different cells and are not
blocked; and neither of them is blocked in any later state of the expansion
loop, in the state in which the loop ends, or in the grid that the path
marking leaves. -/
theorem start_goal_free_distinct (field : Grid) (rand : Nat → Int) (fuel : Nat)
    (cR cC eR eC : Int) (hrand : ∀ k, 0 ≤ rand k)
    (hexit : placeStartGoal field rand fuel = some (cR, cC, eR, eC)) :
    isValid cR cC = true ∧ isValid eR eC = true ∧ ¬ (cR = eR ∧ cC = eC) ∧
    field cR cC ≠ '@' ∧ field eR eC ≠ '@' ∧
    (∀ t, Reach field cR cC eR eC t → t.field cR cC ≠ '@' ∧ t.field eR eC ≠ '@') ∧
    ∃ s g painted, search field cR cC eR eC = some s ∧
      markIfFound s = some (g, painted) ∧
      s.field cR cC ≠ '@' ∧ s.field eR eC ≠ '@' ∧ g cR cC ≠ '@' ∧ g eR eC ≠ '@' := by
  obtain ⟨h1, h2, h3, h4, h5⟩ := placementLoop_exit hrand fuel 0 (-1) (-1) (-1) (-1) _
    (Or.inr ⟨rfl, rfl⟩) hexit
  simp only at h1 h2 h3 h4 h5
  have hs : Free field cR cC := ⟨h1, h4⟩
  have hg : Free field eR eC := ⟨h2, h5⟩
  refine ⟨h1, h2, h3, h4, h5, ?_, ?_⟩
  · intro t ht
    obtain ⟨hI, _, _⟩ := ht.inv hs hg h3
    exact ⟨fun h => h4 ((hI.blocked _ _).1 h), fun h => h5 ((hI.blocked _ _).1 h)⟩
  · obtain ⟨s, hsome, hI, hM, _⟩ := search_spec hs hg h3
    have hsf : s.field cR cC ≠ '@' ∧ s.field eR eC ≠ '@' :=
      ⟨fun h => h4 ((hI.blocked _ _).1 h), fun h => h5 ((hI.blocked _ _).1 h)⟩
    have hpaint : ∀ (cells : List (Int × Int)) (r c : Int), s.field r c ≠ '@' →
        paintCells s.field cells r c ≠ '@' := by
      intro cells r c h
      unfold paintCells
      by_cases hin : (r, c) ∈ cells
      · rw [if_pos hin]; decide
      · rw [if_neg hin]; exact h
    cases hf : s.found with
    | false =>
      refine ⟨s, s.field, [], hsome, ?_, hsf.1, hsf.2, hsf.1, hsf.2⟩
      unfold markIfFound
      rw [hf]; simp
    | true =>
      obtain ⟨x, cp, _, _, _, _, _, _, h7, _, _, _, _⟩ := hI.found_chain hM h3 hf
      refine ⟨s, paintCells s.field cp, cp, hsome, ?_, hsf.1, hsf.2,
        hpaint cp _ _ hsf.1, hpaint cp _ _ hsf.2⟩
      unfold markIfFound
      rw [if_pos hf]
      exact h7 s.field

theorem start_goal_free_distinct_witness :
    (∀ k : Nat, (0 : Int) ≤ (k : Int)) ∧
    placeStartGoal emptyGrid (fun k => (k : Int)) 1 = some (0, 1, 2, 3) ∧
    isValid 0 1 = true ∧ isValid 2 3 = true ∧ ¬ ((0 : Int) = 2 ∧ (1 : Int) = 3) ∧
    emptyGrid 0 1 ≠ '@' ∧ emptyGrid 2 3 ≠ '@' :=
  ⟨fun k => Int.ofNat_nonneg k, by decide,
    (start_goal_free_distinct emptyGrid (fun k => (k : Int)) 1 0 1 2 3
      (fun k => Int.ofNat_nonneg k) (by decide)).1,
    by decide, by decide, by decide, by decide⟩

end AStar
